import Mathlib

/-!
Verification development for the synapse language implementation
(tokenizer → parser → single-pass compiler → stack VM).

The compiler (src/compiler.rs) builds its code buffer as a vector of
`Opcode` values: most opcodes carry their immediate operand inline, while
`CallMethod`, `StructBlueprint` and `Impl` are followed by explicit
big-endian `Raw` byte elements pushed by `emit_u32`.  All compiler address
arithmetic (`patch_jmp`, `loop_start`, function locations) is in units of
this buffer, so the main embedding models the code buffer exactly as that
vector of opcodes ("element model").  The VM dispatch loop (src/vm.rs)
advances the instruction pointer by one unit after every handler; jump
handlers set it to the stored target, so control continues at target + 1.

Rust `f64` numbers are modelled as rationals (exact arithmetic; the
special values NaN/±inf are outside the model — no claim below depends on
them).  Rust `HashMap`s are modelled as insertion-ordered association
lists.  Debug-build panics (asserts, integer underflow, `unreachable!`,
out-of-bounds indexing, `unwrap`) are modelled as explicit `Err.crash`
results; `bail!` errors keep their kind and message.

A separate byte-level model of `read_u32` / `handle_op_call` /
`handle_op_ret` (exactly the `*mut u8` arithmetic of src/vm.rs) is used
for the call-convention claim, where the byte offsets matter.
-/

namespace Synapse

/-- Operator tokens that survive into the AST (src/tokenizer.rs `Token`),
restricted to the variants the compiler inspects. -/
inductive Tok
  | equal | plusEqual | minusEqual | starEqual | slashEqual | percentEqual
  | ampersandEqual | pipeEqual | caretEqual | lessLessEqual | greaterGreaterEqual
  | dot | arrow | doubleAmpersand | doublePipe
  | minus | bang | ampersand | star | tilde
deriving DecidableEq, Repr

/-- Literals (src/parser.rs `Literal`). -/
inductive Lit
  | num (n : ℚ)
  | str (s : String)
  | bool (b : Bool)
  | null
deriving DecidableEq, Repr

/-- Binary expression kinds (src/parser.rs `BinaryExpressionKind`). -/
inductive BinKind
  | add | sub | mul | div | mod
  | equality (negation : Bool)
  | less | greater | lessEqual | greaterEqual
  | bitwiseOr | bitwiseXor | bitwiseAnd | bitwiseShl | bitwiseShr
  | strcat
deriving DecidableEq, Repr

mutual

/-- Statements (src/parser.rs `Statement`; the compiler's match covers
exactly these variants — the parser's `Use` variant has no compiler arm
and is outside this model). -/
inductive Statement
  | print (e : Expression)
  | fn (name : String) (args : List String) (body : Statement)
  | ret (e : Expression)
  | ifS (cond : Expression) (ifBranch elseBranch : Statement)
  | whileS (cond : Expression) (body : Statement)
  | forS (initializer cond advancement : Expression) (body : Statement)
  | breakS
  | continueS
  | structS (name : String) (members : List String)
  | implS (name : String) (methods : List Statement)
  | exprS (e : Expression)
  | block (body : List Statement)
  | dummy

/-- Expressions (src/parser.rs `Expression`). -/
inductive Expression
  | lit (l : Lit)
  | var (name : String)
  | binary (kind : BinKind) (lhs rhs : Expression)
  | call (callee : Expression) (args : List Expression)
  | assign (lhs rhs : Expression) (op : Tok)
  | logical (lhs rhs : Expression) (op : Tok)
  | unary (e : Expression) (op : Tok)
  | get (e : Expression) (member : String) (op : Tok)
  | structE (name : String) (initializers : List Expression)
  | structInit (member value : Expression)
  | vecE (elements : List Expression)
  | sub (e index : Expression)

end

/-- Opcodes exactly as in src/compiler.rs `Opcode`: most immediates are
carried inline; `emit_u32` pushes `raw` byte elements after
`callMethod` / `structBlueprint` / `impl`. -/
inductive Opcode
  | print
  | const (n : ℚ)
  | add | sub | mul | div | mod
  | bitAnd | bitOr | bitXor | bitShl | bitShr | bitNot
  | falseOp | notOp | negOp | nullOp
  | eqOp | ltOp | gtOp
  | str (s : String)
  | jmp (addr : Nat)
  | jz (addr : Nat)
  | call (nargs : Nat)
  | callMethod
  | ret
  | deepget (idx : Nat)
  | deepgetPtr (idx : Nat)
  | deepset (idx : Nat)
  | deref
  | derefSet
  | getattr (s : String)
  | getattrPtr (s : String)
  | setattr (s : String)
  | strcat
  | struct (s : String)
  | structBlueprint
  | impl
  | vec (n : Nat)
  | vecSet
  | subscript
  | pop (n : Nat)
  | halt
  | raw (b : Nat)
deriving DecidableEq, Repr

/-- Compile-time function record (src/compiler.rs `Function`). -/
structure Function where
  name : String
  location : Nat
  paramcount : Nat
  localscount : Nat
deriving DecidableEq, Repr

/-- Struct blueprint (src/compiler.rs `Blueprint`); `methods` is the
`HashMap` modelled as an insertion-ordered association list. -/
structure Blueprint where
  name : String
  members : List String
  methods : List (String × Function)
deriving DecidableEq, Repr

/-- Bytecode artifact (src/compiler.rs `Bytecode`). -/
structure Bytecode where
  code : List Opcode
  cp : List ℚ
  sp : List String
deriving DecidableEq, Repr

/-- Compiler state (src/compiler.rs `Compiler`). -/
structure CompilerState where
  bytecode : Bytecode
  functions : List (String × Function)
  locals : List String
  pops : List Nat
  structs : List (String × Blueprint)
  breaks : List Nat
  loopStarts : List Nat
  loopDepths : List Nat
  depth : Nat
deriving DecidableEq, Repr

/-- Compile-time failures: `compiler`-kind `bail!` messages, debug-build
panics (`crash`), and fuel exhaustion of the bounded recursion (`fuel`,
an artifact of the embedding only; every terminating compilation succeeds
for all sufficiently large fuel). -/
inductive Err
  | compiler (msg : String)
  | crash
  | fuel
deriving DecidableEq, Repr

/-- `Compiler::new`. -/
def initCompiler : CompilerState :=
  { bytecode := { code := [], cp := [], sp := [] }
    functions := [], locals := [], pops := [], structs := []
    breaks := [], loopStarts := [], loopDepths := [], depth := 0 }

/-- Association-list lookup (models `HashMap::get`). -/
def alGet {α : Type} (l : List (String × α)) (k : String) : Option α :=
  (l.find? (fun p => p.1 == k)).map (fun p => p.2)

/-- Association-list insert-or-replace (models `HashMap::insert`). -/
def alInsert {α : Type} (l : List (String × α)) (k : String) (v : α) :
    List (String × α) :=
  if l.any (fun p => p.1 == k) then
    l.map (fun p => if p.1 == k then (k, v) else p)
  else l ++ [(k, v)]

/-- In-place update when present (models `HashMap::get_mut` + mutation;
no effect when the key is absent). -/
def alModify {α : Type} (l : List (String × α)) (k : String) (f : α → α) :
    List (String × α) :=
  l.map (fun p => if p.1 == k then (k, f p.2) else p)

/-- `Compiler::add_string`: de-duplicated append into the string pool,
returning the (stable) index. -/
def addString (c : CompilerState) (s : String) : CompilerState × Nat :=
  match c.bytecode.sp.findIdx? (fun x => x == s) with
  | some idx => (c, idx)
  | none =>
      ({ c with bytecode := { c.bytecode with sp := c.bytecode.sp ++ [s] } },
       c.bytecode.sp.length)

/-- Append opcodes to the code buffer (`Compiler::emit_opcodes` without
the returned index). -/
def emitOps (c : CompilerState) (ops : List Opcode) : CompilerState :=
  { c with bytecode := { c.bytecode with code := c.bytecode.code ++ ops } }

/-- `Compiler::emit_opcodes` for a single opcode, also returning the
index at which it was emitted (`code.len() - opcodes.len()`). -/
def emitOp (c : CompilerState) (op : Opcode) : CompilerState × Nat :=
  (emitOps c [op], c.bytecode.code.length)

/-- The four big-endian bytes `Compiler::emit_u32` pushes for a value
(`value as u32`, i.e. the value mod 2^32). -/
def u32e (v : Nat) : List Opcode :=
  [.raw (v / 2 ^ 24 % 256), .raw (v / 2 ^ 16 % 256),
   .raw (v / 2 ^ 8 % 256), .raw (v % 256)]

/-- `Compiler::emit_u32`. -/
def emitU32 (c : CompilerState) (v : Nat) : CompilerState :=
  emitOps c (u32e v)

/-- `code.len() - 1` as computed on a `usize` in a debug build: panics
(modelled as `Err.crash`) when the buffer is empty. -/
def lenMinus1 (c : CompilerState) : Except Err Nat :=
  if c.bytecode.code.isEmpty then .error .crash
  else .ok (c.bytecode.code.length - 1)

/-- `Compiler::patch_jmp`: point the `Jmp`/`Jz` at `idx` to
`code.len() - 1`.  Out-of-range indices are silently skipped
(`get_mut` returns `None`); patching a non-jump is `unreachable!`. -/
def patchJmp (c : CompilerState) (idx : Nat) : Except Err CompilerState := do
  let v ← lenMinus1 c
  match c.bytecode.code.get? idx with
  | some (.jmp _) =>
      .ok { c with bytecode :=
              { c.bytecode with code := c.bytecode.code.set idx (.jmp v) } }
  | some (.jz _) =>
      .ok { c with bytecode :=
              { c.bytecode with code := c.bytecode.code.set idx (.jz v) } }
  | some _ => .error .crash
  | none => .ok c

/-- `Compiler::resolve_local`: slot index plus freshness. -/
def resolveLocal (c : CompilerState) (name : String) :
    CompilerState × Nat × Bool :=
  match c.locals.findIdx? (fun l => l == name) with
  | some idx => (c, idx, false)
  | none => ({ c with locals := c.locals ++ [name] }, c.locals.length, true)

/-- `Compiler::emit_stack_cleanup`. -/
def emitStackCleanup (c : CompilerState) : Except Err CompilerState :=
  match c.pops.getLast? with
  | none => .error .crash
  | some popcount => .ok (emitOps c [.pop popcount])

/-- The body of `Compiler::emit_loop_cleanup`'s `for` loop over block
depths `last_depth + 1 ..= depth`. -/
def loopCleanupGo (c : CompilerState) : List Nat → Except Err CompilerState
  | [] => .ok c
  | i :: rest =>
      match c.pops.get? i with
      | none => .error .crash
      | some k => loopCleanupGo (emitOps c [.pop k]) rest

/-- `Compiler::emit_loop_cleanup`. -/
def emitLoopCleanup (c : CompilerState) : Except Err CompilerState :=
  match c.loopDepths.getLast? with
  | none => .ok c
  | some lastDepth =>
      loopCleanupGo c (List.range' (lastDepth + 1) (c.depth - lastDepth))

/-- `Compiler::handle_specialized_operator` (the `_ => unreachable!()`
arm crashes). -/
def handleSpecializedOperator (c : CompilerState) (op : Tok) :
    Except Err CompilerState :=
  match op with
  | .plusEqual => .ok (emitOps c [.add])
  | .minusEqual => .ok (emitOps c [.sub])
  | .starEqual => .ok (emitOps c [.mul])
  | .slashEqual => .ok (emitOps c [.div])
  | .percentEqual => .ok (emitOps c [.mod])
  | .ampersandEqual => .ok (emitOps c [.bitAnd])
  | .pipeEqual => .ok (emitOps c [.bitOr])
  | .caretEqual => .ok (emitOps c [.bitXor])
  | .lessLessEqual => .ok (emitOps c [.bitShl])
  | .greaterGreaterEqual => .ok (emitOps c [.bitShr])
  | _ => .error .crash

/-- The `Deepset` run emitted by `ReturnStatement::codegen`: indices
`n-1, n-2, …` produced with `usize::saturating_sub`, one per local. -/
def retDeepsets : Nat → Nat → List Opcode
  | 0, _ => []
  | k + 1, no => .deepset no :: retDeepsets k (no - 1)

/-- The while/for break-resolution loop: pop the given number of entries
off `breaks` (newest first) and patch each. -/
def popBreaks (c : CompilerState) : Nat → Except Err CompilerState
  | 0 => .ok c
  | k + 1 =>
      match c.breaks.getLast? with
      | none => .error .crash
      | some breakJump => do
          let c := { c with breaks := c.breaks.dropLast }
          let c ← patchJmp c breakJump
          popBreaks c k

/-- The per-member `emit_u32(add_string(member))` loop of
`StructStatement::codegen`. -/
def emitMemberIdxs (c : CompilerState) : List String → CompilerState
  | [] => c
  | m :: rest =>
      let (c, idx) := addString c m
      emitMemberIdxs (emitU32 c idx) rest

/-- The per-method record loop of `ImplStatement::codegen`: for each
method, `emit_u32` of its interned name, paramcount and location. -/
def emitMethodRecords (c : CompilerState) :
    List (String × Function) → CompilerState
  | [] => c
  | (mname, m) :: rest =>
      let (c, idx) := addString c mname
      let c := emitU32 c idx
      let c := emitU32 c m.paramcount
      let c := emitU32 c m.location
      emitMethodRecords c rest

/-- The jump placeholder `0xFFFFFFFF`. -/
def PLACEHOLDER : Nat := 0xFFFFFFFF

/-- `k` trailing `pop()` calls on a vector. -/
def dropLastN {α : Type} (l : List α) (k : Nat) : List α :=
  l.take (l.length - k)

mutual

/-- `Statement`'s `Codegen` impl (src/compiler.rs).  `fuel` bounds the
recursion depth; every recursive call passes `fuel`'s predecessor. -/
def compileStmt : Nat → Statement → CompilerState → Except Err CompilerState
  | 0, _, _ => .error .fuel
  | fuel + 1, s, c =>
    match s with
    | .print e => do
        -- PrintStatement::codegen
        let c ← compileExpr fuel e c
        .ok (emitOps c [.print])
    | .fn name args body => compileFn fuel name args body c
    | .ret e => do
        -- ReturnStatement::codegen
        let c ← compileExpr fuel e c
        let c := emitOps c
          (retDeepsets c.locals.length (c.locals.length - 1))
        .ok (emitOps c [.ret])
    | .ifS cond ifBranch elseBranch => do
        -- IfStatement::codegen
        let c ← compileExpr fuel cond c
        let (c, jzIdx) := emitOp c (.jz PLACEHOLDER)
        let c ← compileStmt fuel ifBranch c
        let (c, elseIdx) := emitOp c (.jmp PLACEHOLDER)
        let c ← patchJmp c jzIdx
        let c ← compileStmt fuel elseBranch c
        patchJmp c elseIdx
    | .whileS cond body => do
        -- WhileStatement::codegen
        let loopStart ← lenMinus1 c
        let c := { c with loopStarts := c.loopStarts ++ [loopStart] }
        let breakCount := c.breaks.length
        let c ← compileExpr fuel cond c
        let (c, jzIdx) := emitOp c (.jz PLACEHOLDER)
        let c := { c with loopDepths := c.loopDepths ++ [c.depth] }
        let c ← compileStmt fuel body c
        let c := { c with loopDepths := c.loopDepths.dropLast }
        let c := emitOps c [.jmp loopStart]
        let c ← popBreaks c (c.breaks.length - breakCount)
        let c := { c with loopStarts := c.loopStarts.dropLast }
        patchJmp c jzIdx
    | .forS initializer cond advancement body =>
        -- ForStatement::codegen (a non-assignment or non-variable
        -- initializer silently compiles to nothing)
        match initializer with
        | .assign lhs rhs _ =>
          match lhs with
          | .var vname => do
              let c := { c with locals := c.locals ++ [vname] }
              let c ← compileExpr fuel rhs c
              let loopStart ← lenMinus1 c
              let c := { c with loopStarts := c.loopStarts ++ [loopStart] }
              let breakCount := c.breaks.length
              let c ← compileExpr fuel cond c
              let (c, exitJump) := emitOp c (.jz PLACEHOLDER)
              let (c, jumpOverAdvancement) := emitOp c (.jmp PLACEHOLDER)
              let loopContinuation ← lenMinus1 c
              let c ← compileExpr fuel advancement c
              let c := emitOps c [.jmp loopStart]
              let c ← patchJmp c jumpOverAdvancement
              let c :=
                if c.loopStarts.isEmpty then c
                else { c with loopStarts :=
                         c.loopStarts.dropLast ++ [loopContinuation] }
              let c := { c with loopDepths := c.loopDepths ++ [c.depth] }
              let c ← compileStmt fuel body c
              let c := { c with loopDepths := c.loopDepths.dropLast }
              let c := emitOps c [.jmp loopContinuation]
              let c ← popBreaks c (c.breaks.length - breakCount)
              let c := { c with locals := c.locals.dropLast }
              let c := { c with loopStarts := c.loopStarts.dropLast }
              let c ← patchJmp c exitJump
              .ok (emitOps c [.pop 1])
          | _ => .ok c
        | _ => .ok c
    | .breakS =>
        -- BreakStatement::codegen
        if c.loopStarts.isEmpty then
          .error (.compiler "break outside a loop")
        else do
          let c ← emitLoopCleanup c
          let (c, breakJump) := emitOp c (.jmp PLACEHOLDER)
          .ok { c with breaks := c.breaks ++ [breakJump] }
    | .continueS =>
        -- ContinueStatement::codegen
        if c.loopStarts.isEmpty then
          .error (.compiler "continue outside a loop")
        else
          match c.loopStarts.getLast? with
          | none => .error .crash
          | some loopStart => do
              let c ← emitLoopCleanup c
              .ok (emitOps c [.jmp loopStart])
    | .structS name members =>
        -- StructStatement::codegen
        let blueprint : Blueprint :=
          { members := members, name := name, methods := [] }
        let c := { c with structs := alInsert c.structs name blueprint }
        let c := emitOps c [.structBlueprint]
        let (c, blueprintNameIdx) := addString c name
        let c := emitU32 c blueprintNameIdx
        let c := emitU32 c blueprint.members.length
        .ok (emitMemberIdxs c blueprint.members)
    | .implS name methods =>
        -- ImplStatement::codegen
        match alGet c.structs name with
        | none => .error (.compiler "struct is not defined")
        | some blueprint => do
            let (blueprint, c) ← implMethods fuel methods blueprint c
            let (c, blueprintNameIdx) := addString c blueprint.name
            let c := emitOps c [.impl]
            let c := emitU32 c blueprintNameIdx
            let c := emitU32 c blueprint.methods.length
            .ok (emitMethodRecords c blueprint.methods)
    | .exprS e =>
        -- ExpressionStatement::codegen
        match e with
        | .call callee args => do
            let c ← compileExpr fuel (.call callee args) c
            .ok (emitOps c [.pop 1])
        | .assign lhs rhs op => compileExpr fuel (.assign lhs rhs op) c
        | _ => .error .crash
    | .block body => do
        -- BlockStatement::codegen
        let c := { c with depth := c.depth + 1, pops := c.pops ++ [0] }
        let c ← compileStmtList fuel body c
        match c.pops.getLast? with
        | none => .error .crash
        | some k => do
            let c := { c with locals := dropLastN c.locals k }
            let c ← emitStackCleanup c
            let c := { c with pops := c.pops.dropLast }
            .ok { c with depth := c.depth - 1 }
    | .dummy => .ok c

/-- `FnStatement::codegen`. -/
def compileFn (fuel : Nat) (name : String) (args : List String)
    (body : Statement) (c : CompilerState) : Except Err CompilerState :=
  match fuel with
  | 0 => .error .fuel
  | fuel + 1 => do
      let (c, jmpIdx) := emitOp c (.jmp PLACEHOLDER)
      let f : Function :=
        { name := name, localscount := 0, location := jmpIdx
          paramcount := args.length }
      let c := { c with functions := alInsert c.functions name f }
      let c := { c with locals := c.locals ++ args }
      let c := { c with pops := c.pops ++ [c.locals.length] }
      let c ←
        match body with
        | .block blk => compileStmt fuel (.block blk) c
        | _ => .ok c
      let c ← patchJmp c jmpIdx
      let lc := c.locals.length
      let fns := alModify c.functions name
        (fun g => { g with localscount := lc })
      let c := { c with functions := fns }
      .ok { c with locals := [], pops := [] }

/-- The method loop of `ImplStatement::codegen`: record each `Fn` method
in the blueprint clone, then compile it; other statements are skipped. -/
def implMethods (fuel : Nat) (methods : List Statement) (bp : Blueprint)
    (c : CompilerState) : Except Err (Blueprint × CompilerState) :=
  match fuel with
  | 0 => .error .fuel
  | fuel + 1 =>
    match methods with
    | [] => .ok (bp, c)
    | m :: rest =>
        match m with
        | .fn mname margs mbody => do
            let f : Function :=
              { name := mname, localscount := 0
                location := c.bytecode.code.length
                paramcount := margs.length }
            let bp := { bp with methods := alInsert bp.methods mname f }
            let c ← compileFn fuel mname margs mbody c
            implMethods fuel rest bp c
        | _ => implMethods fuel rest bp c

/-- Sequential statement compilation (the `for statement in ast` loops). -/
def compileStmtList : Nat → List Statement → CompilerState →
    Except Err CompilerState
  | 0, _, _ => .error .fuel
  | _ + 1, [], c => .ok c
  | fuel + 1, s :: rest, c => do
      let c ← compileStmt fuel s c
      compileStmtList fuel rest c

/-- `Expression`'s `Codegen` impl (src/compiler.rs), with the four
assignment helpers (`compile_variable_assignment` etc.) inlined at the
`assign` case. -/
def compileExpr : Nat → Expression → CompilerState → Except Err CompilerState
  | 0, _, _ => .error .fuel
  | fuel + 1, e, c =>
    match e with
    | .lit l =>
        -- LiteralExpression::codegen
        match l with
        | .num n => .ok (emitOps c [.const n])
        | .bool true => .ok (emitOps c [.falseOp, .notOp])
        | .bool false => .ok (emitOps c [.falseOp])
        | .str s => .ok (emitOps c [.str s])
        | .null => .ok (emitOps c [.nullOp])
    | .var name =>
        -- VariableExpression::codegen
        let (c, idx, _) := resolveLocal c name
        .ok (emitOps c [.deepget idx])
    | .binary kind lhs rhs => do
        -- BinaryExpression::codegen
        let c ← compileExpr fuel lhs c
        let c ← compileExpr fuel rhs c
        match kind with
        | .add => .ok (emitOps c [.add])
        | .sub => .ok (emitOps c [.sub])
        | .mul => .ok (emitOps c [.mul])
        | .div => .ok (emitOps c [.div])
        | .mod => .ok (emitOps c [.mod])
        | .equality negation =>
            let c := emitOps c [.eqOp]
            if negation then .ok (emitOps c [.notOp]) else .ok c
        | .less => .ok (emitOps c [.ltOp])
        | .greater => .ok (emitOps c [.gtOp])
        | .lessEqual => .ok (emitOps c [.gtOp, .notOp])
        | .greaterEqual => .ok (emitOps c [.ltOp, .notOp])
        | .bitwiseAnd => .ok (emitOps c [.bitAnd])
        | .bitwiseOr => .ok (emitOps c [.bitOr])
        | .bitwiseXor => .ok (emitOps c [.bitXor])
        | .bitwiseShl => .ok (emitOps c [.bitShl])
        | .bitwiseShr => .ok (emitOps c [.bitShr])
        | .strcat => .ok (emitOps c [.strcat])
    | .call callee args =>
        -- CallExpression::codegen
        match callee with
        | .var vname =>
            match alGet c.functions vname with
            | none => .error (.compiler "function is not defined")
            | some f =>
                if f.paramcount ≠ args.length then
                  .error (.compiler "function takes a different number of arguments")
                else do
                  let addr := f.location
                  let c ← compileExprList fuel args c
                  let c := emitOps c [.call args.length]
                  .ok (emitOps c [.jmp addr])
        | .get gexpr gmember gop => do
            let c ← compileExpr fuel gexpr c
            let c := if gop = .arrow then emitOps c [.deref] else c
            let c ← compileExprList fuel args c
            let (c, methodNameIdx) := addString c gmember
            let c := emitOps c [.callMethod]
            let c := emitU32 c methodNameIdx
            .ok (emitU32 c args.length)
        | _ => .error .crash
    | .assign lhs rhs op =>
        -- AssignExpression::codegen
        let isSpecialized := op ≠ Tok.equal
        match lhs with
        | .var vname => do
            -- compile_variable_assignment
            let (c, idx, fresh) := resolveLocal c vname
            let c ←
              if isSpecialized then do
                let c := emitOps c [.deepget idx]
                let c ← compileExpr fuel rhs c
                handleSpecializedOperator c op
              else
                compileExpr fuel rhs c
            if ¬fresh then
              .ok (emitOps c [.deepset idx])
            else
              match c.pops.getLast? with
              | some last =>
                  .ok { c with pops := c.pops.dropLast ++ [last + 1] }
              | none => .error (.compiler "tried to pop an empty stack.")
        | .unary uexpr uop => do
            -- compile_unary_assignment
            let c ← compileExpr fuel uexpr c
            let _ := uop
            let c ←
              if isSpecialized then do
                let c ← compileExpr fuel rhs c
                handleSpecializedOperator c op
              else
                compileExpr fuel rhs c
            .ok (emitOps c [.derefSet])
        | .get gexpr gmember gop => do
            -- compile_get_assignment
            let c ← compileExpr fuel gexpr c
            let c := if gop = .arrow then emitOps c [.deref] else c
            let c ←
              if isSpecialized then do
                let c := emitOps c [.getattr gmember]
                let c ← compileExpr fuel rhs c
                handleSpecializedOperator c op
              else
                compileExpr fuel rhs c
            let c := emitOps c [.setattr gmember]
            .ok (emitOps c [.pop 1])
        | .sub sexpr sindex => do
            -- compile_subscript_assignment
            let c ← compileExpr fuel sexpr c
            let c ← compileExpr fuel sindex c
            let c ←
              if isSpecialized then do
                let c ← compileExpr fuel (.sub sexpr sindex) c
                let c ← compileExpr fuel rhs c
                handleSpecializedOperator c op
              else
                compileExpr fuel rhs c
            .ok (emitOps c [.vecSet])
        | _ => .error (.compiler "invalid assignment")
    | .logical lhs rhs op => do
        -- LogicalExpression::codegen
        let c ← compileExpr fuel lhs c
        match op with
        | .doubleAmpersand => do
            let (c, jzIdx) := emitOp c (.jz PLACEHOLDER)
            let c ← compileExpr fuel rhs c
            let (c, jmpIdx) := emitOp c (.jmp PLACEHOLDER)
            let c ← patchJmp c jzIdx
            let c := emitOps c [.falseOp]
            patchJmp c jmpIdx
        | .doublePipe => do
            let (c, jzIdx) := emitOp c (.jz PLACEHOLDER)
            let c := emitOps c [.falseOp, .notOp]
            let (c, jmpIdx) := emitOp c (.jmp PLACEHOLDER)
            let c ← patchJmp c jzIdx
            let c ← compileExpr fuel rhs c
            patchJmp c jmpIdx
        | _ => .error .crash
    | .unary uexpr op =>
        -- UnaryExpression::codegen
        match op with
        | .minus => do
            let c ← compileExpr fuel uexpr c
            .ok (emitOps c [.negOp])
        | .bang => do
            let c ← compileExpr fuel uexpr c
            .ok (emitOps c [.notOp])
        | .ampersand =>
            match uexpr with
            | .var vname =>
                let (c, idx, _) := resolveLocal c vname
                .ok (emitOps c [.deepgetPtr idx])
            | .get gexpr gmember gop => do
                let c ← compileExpr fuel gexpr c
                let c := if gop = .arrow then emitOps c [.deref] else c
                .ok (emitOps c [.getattrPtr gmember])
            | _ => .error (.compiler "expected variable")
        | .star => do
            let c ← compileExpr fuel uexpr c
            .ok (emitOps c [.deref])
        | .tilde => do
            let c ← compileExpr fuel uexpr c
            .ok (emitOps c [.bitNot])
        | _ => .error .crash
    | .get gexpr gmember gop => do
        -- GetExpression::codegen
        let c ← compileExpr fuel gexpr c
        let c := if gop = .arrow then emitOps c [.deref] else c
        .ok (emitOps c [.getattr gmember])
    | .structE sname initializers =>
        -- StructExpression::codegen
        match alGet c.structs sname with
        | none => .error (.compiler "struct is not defined")
        | some s =>
            if s.members.length ≠ initializers.length then
              .error (.compiler "struct has a different number of members")
            else do
              let c := emitOps c [.struct sname]
              compileExprList fuel initializers c
    | .structInit member value => do
        -- StructInitializerExpression::codegen
        let c ← compileExpr fuel value c
        match member with
        | .var vname => .ok (emitOps c [.setattr vname])
        | _ => .error .crash
    | .vecE elements => do
        -- VecExpression::codegen
        let c ← compileExprList fuel elements.reverse c
        .ok (emitOps c [.vec elements.length])
    | .sub sexpr sindex => do
        -- SubscriptExpression::codegen
        let c ← compileExpr fuel sexpr c
        let c ← compileExpr fuel sindex c
        .ok (emitOps c [.subscript])

/-- Sequential expression compilation (argument / initializer / element
loops). -/
def compileExprList : Nat → List Expression → CompilerState →
    Except Err CompilerState
  | 0, _, _ => .error .fuel
  | _ + 1, [], c => .ok c
  | fuel + 1, e :: rest, c => do
      let c ← compileExpr fuel e c
      compileExprList fuel rest c

end

/-- `Compiler::compile`: all declarations, then the `main` trailer
`Call(0); Jmp(main.location); Pop(1)` and the final `Halt`; missing
`main` is a compiler-kind error raised before any trailer opcode is
emitted. -/
def compile (fuel : Nat) (ast : List Statement) : Except Err Bytecode := do
  let c ← compileStmtList fuel ast initCompiler
  match alGet c.functions "main" with
  | some f =>
      let c := emitOps c [.call 0]
      let c := emitOps c [.jmp f.location]
      let c := emitOps c [.pop 1]
      let c := emitOps c [.halt]
      .ok c.bytecode
  | none => .error (.compiler "main fn was not defined")

/-! ## The virtual machine (src/vm.rs), element model

The VM interprets the compiler's code buffer.  `ip` is an index into
that buffer; each opcode handler consumes its operand (inline payload,
or trailing `raw` elements for `CallMethod` / `StructBlueprint` /
`Impl`) and the dispatch loop then advances `ip` by one, exactly as the
`exec` loop of src/vm.rs does after each handler. -/

/-- What a `Ptr` object points at: a value-stack slot
(`handle_op_deepgetptr`) or a struct member cell
(`handle_op_getattrptr`).  Pointer identity only; the write-through
mutation of member cells is outside the value model (no claim below
dereferences a member pointer). -/
inductive PtrDest
  | stackSlot (i : Nat)
  | structMember (sname attr : String)
deriving DecidableEq, Repr

/-- Runtime objects (src/vm.rs `Object`).  `Struct` and `Vec` are
modelled by value (their interior mutability is not needed by any claim
below); `String`'s shared `Rc` is just a `String`. -/
inductive Object
  | number (n : ℚ)
  | bool (b : Bool)
  | str (s : String)
  | structObj (name : String) (members : List (String × Object))
  | ptr (d : PtrDest)
  | vecObj (elems : List Object)
  | null

mutual

/-- `PartialEq for Object` (derived structural equality in the source;
`Rc`/`RefCell` compare their contents).  The member map is compared in
insertion order here, matching the association-list model. -/
def Object.beq : Object → Object → Bool
  | .number a, .number b => a == b
  | .bool a, .bool b => a == b
  | .str a, .str b => a == b
  | .structObj n1 m1, .structObj n2 m2 => n1 == n2 && Object.beqMembers m1 m2
  | .ptr a, .ptr b => a == b
  | .vecObj a, .vecObj b => Object.beqList a b
  | .null, .null => true
  | _, _ => false

def Object.beqMembers : List (String × Object) → List (String × Object) → Bool
  | [], [] => true
  | (k1, v1) :: r1, (k2, v2) :: r2 =>
      k1 == k2 && Object.beq v1 v2 && Object.beqMembers r1 r2
  | _, _ => false

def Object.beqList : List Object → List Object → Bool
  | [], [] => true
  | a :: r1, b :: r2 => Object.beq a b && Object.beqList r1 r2
  | _, _ => false

end

/-- `STACK_MIN`, the fixed stack capacity. -/
def STACK_MIN : Nat := 1024

/-- `Stack::push`: asserts `len < capacity` ("stack overflow"), else
appends.  `none` models the fatal assert. -/
def stackPush {α : Type} (s : List α) (item : α) : Option (List α) :=
  if s.length < STACK_MIN then some (s ++ [item]) else none

/-- `Stack::pop`: asserts non-emptiness ("popped an empty stack"). -/
def stackPop {α : Type} (s : List α) : Option (α × List α) :=
  match s.getLast? with
  | none => none
  | some x => some (x, s.dropLast)

/-- `Stack::peek(n)`: the element `n` below the top
(`data[len - 1 - n]`, unchecked beyond the non-emptiness assert). -/
def stackPeek {α : Type} (s : List α) (n : Nat) : Option α :=
  s.get? (s.length - 1 - n)

/-- `Vec::swap_remove(i)`: replace slot `i` with the last element and
shrink by one; panics (`none`) when `i` is out of bounds. -/
def swapRemove {α : Type} (l : List α) (i : Nat) : Option (List α) :=
  match l.getLast? with
  | none => none
  | some last => if i < l.length then some ((l.set i last).dropLast) else none

/-- Frame record (src/vm.rs `BytecodePtr`): return target and frame
base. -/
structure BytecodePtr where
  ptr : Nat
  location : Nat
deriving DecidableEq, Repr

/-- VM state: value stack (bottom first), frame-pointer stack,
instruction pointer, and the blueprint registry populated by
`StructBlueprint` / `Impl`. -/
structure VMState where
  stack : List Object
  frames : List BytecodePtr
  ip : Nat
  blueprints : List (String × Blueprint)

/-- Result of one dispatch-loop iteration: next state, normal halt
(`std::process::exit(0)`), or a fatal runtime panic. -/
inductive StepRes
  | ok (s : VMState)
  | halted (s : VMState)
  | err (msg : String)

/-- `prepare4bitwise`: clamp both operands to `[0, u64::MAX as f64]`
(that bound rounds to exactly 2^64) and cast to `u64` with Rust's
saturating float-to-int conversion. -/
def castU64 (x : ℚ) : Nat := min (Int.toNat ⌊x⌋) (2 ^ 64 - 1)

def clampQ (x lo hi : ℚ) : ℚ := min (max x lo) hi

def prepare4bitwise (a b : ℚ) : Nat × Nat :=
  (castU64 (clampQ a 0 (2 ^ 64)), castU64 (clampQ b 0 (2 ^ 64)))

/-- Discriminant of an `Object` (`std::mem::discriminant`). -/
def Object.kind : Object → Nat
  | .number _ => 0
  | .bool _ => 1
  | .str _ => 2
  | .structObj _ _ => 3
  | .ptr _ => 4
  | .vecObj _ => 5
  | .null => 6

/-- `PartialOrd for Object`: `a < b` is `partial_cmp == Some(Less)`,
which holds only for two numbers (all other pairs compare to `None`,
so `<` and `>` are both false on them). -/
def Object.lt : Object → Object → Bool
  | .number a, .number b => a < b
  | _, _ => false

/-- The `Not` impl for `Object`: numbers are truncated to `u64`,
reduced mod 2^32 and bitwise-complemented as a `u32`; bools are
negated; everything else panics. -/
def objectNot (o : Object) : Except String Object :=
  match o with
  | .number n =>
      let truncated := castU64 n
      let reduced := truncated % 2 ^ 32
      .ok (.number ((2 ^ 32 - 1 - reduced : Nat) : ℚ))
  | .bool b => .ok (.bool (!b))
  | _ => .error "vm: only bools can be !"

/-- Big-endian `u32` read over four `raw` elements of the code buffer
(the element-model counterpart of `VM::read_u32`); `none` when the four
positions do not hold raw bytes. -/
def readU32? (code : List Opcode) (p : Nat) : Option Nat :=
  match code.get? p, code.get? (p + 1), code.get? (p + 2), code.get? (p + 3) with
  | some (.raw b0), some (.raw b1), some (.raw b2), some (.raw b3) =>
      some (b0 * 2 ^ 24 + b1 * 2 ^ 16 + b2 * 2 ^ 8 + b3)
  | _, _, _, _ => none

/-- The member-name reads of `handle_op_struct_blueprint`. -/
def readMembers (code : List Opcode) (sp : List String) :
    Nat → Nat → Option (List String)
  | _, 0 => some []
  | p, k + 1 => do
      let idx ← readU32? code p
      let name ← sp.get? idx
      let rest ← readMembers code sp (p + 4) k
      some (name :: rest)

/-- The per-method reads of `handle_op_impl`, returning the updated
blueprint registry. -/
def readImplMethods (code : List Opcode) (sp : List String) (bpName : String) :
    Nat → Nat → List (String × Blueprint) → Option (List (String × Blueprint))
  | _, 0, bps => some bps
  | p, k + 1, bps => do
      let methodNameIdx ← readU32? code p
      let paramcount ← readU32? code (p + 4)
      let location ← readU32? code (p + 8)
      let mname ← sp.get? methodNameIdx
      let f : Function :=
        { name := mname, paramcount := paramcount, location := location
          localscount := 0 }
      let bps :=
        match alGet bps bpName with
        | some bp =>
            alInsert bps bpName
              { bp with methods := alInsert bp.methods mname f }
        | none => bps
      readImplMethods code sp bpName (p + 12) k bps

/-- The `for _ in 0..element_count { vec.push(self.stack.pop()) }` loop
of `handle_op_vec`: the top `n` stack values, topmost first. -/
def popIntoVec (s : List Object) (n : Nat) : Option (List Object × List Object) :=
  if n ≤ s.length then some ((s.drop (s.length - n)).reverse, s.take (s.length - n))
  else none

/-- One iteration of `VM::exec`: fetch the opcode at `ip`, run its
handler (src/vm.rs `handle_op_*`), and advance `ip` past the
instruction (the handler's own operand reads plus the loop's `+1`).
Assert/panic failures are `err`. -/
def step (bc : Bytecode) (st : VMState) : StepRes :=
  match bc.code.get? st.ip with
  | none => .err "vm: instruction pointer out of bounds"
  | some op =>
    match op with
    | .print =>
        match stackPop st.stack with
        | none => .err "vm: popped an empty stack"
        | some (_, s) => .ok { st with stack := s, ip := st.ip + 1 }
    | .const n =>
        match stackPush st.stack (.number n) with
        | none => .err "vm: stack overflow"
        | some s => .ok { st with stack := s, ip := st.ip + 1 }
    | .add =>
        match stackPop st.stack with
        | none => .err "vm: popped an empty stack"
        | some (b, s1) =>
          match stackPop s1 with
          | none => .err "vm: popped an empty stack"
          | some (a, s2) =>
            match a, b with
            | .number x, .number y =>
                match stackPush s2 (.number (x + y)) with
                | none => .err "vm: stack overflow"
                | some s => .ok { st with stack := s, ip := st.ip + 1 }
            | _, _ => .err "vm: only numbers can be +"
    | .sub =>
        match stackPop st.stack with
        | none => .err "vm: popped an empty stack"
        | some (b, s1) =>
          match stackPop s1 with
          | none => .err "vm: popped an empty stack"
          | some (a, s2) =>
            match a, b with
            | .number x, .number y =>
                match stackPush s2 (.number (x - y)) with
                | none => .err "vm: stack overflow"
                | some s => .ok { st with stack := s, ip := st.ip + 1 }
            | _, _ => .err "vm: only numbers can be -"
    | .mul =>
        match stackPop st.stack with
        | none => .err "vm: popped an empty stack"
        | some (b, s1) =>
          match stackPop s1 with
          | none => .err "vm: popped an empty stack"
          | some (a, s2) =>
            match a, b with
            | .number x, .number y =>
                match stackPush s2 (.number (x * y)) with
                | none => .err "vm: stack overflow"
                | some s => .ok { st with stack := s, ip := st.ip + 1 }
            | _, _ => .err "vm: only numbers can be *"
    | .div =>
        match stackPop st.stack with
        | none => .err "vm: popped an empty stack"
        | some (b, s1) =>
          match stackPop s1 with
          | none => .err "vm: popped an empty stack"
          | some (a, s2) =>
            match a, b with
            | .number x, .number y =>
                match stackPush s2 (.number (x / y)) with
                | none => .err "vm: stack overflow"
                | some s => .ok { st with stack := s, ip := st.ip + 1 }
            | _, _ => .err "vm: only numbers can be /"
    | .mod =>
        match stackPop st.stack with
        | none => .err "vm: popped an empty stack"
        | some (b, s1) =>
          match stackPop s1 with
          | none => .err "vm: popped an empty stack"
          | some (a, s2) =>
            match a, b with
            | .number x, .number y =>
                match stackPush s2 (.number (x - y * (x / y).floor)) with
                | none => .err "vm: stack overflow"
                | some s => .ok { st with stack := s, ip := st.ip + 1 }
            | _, _ => .err "vm: only numbers can be %"
    | .bitAnd =>
        match stackPop st.stack with
        | none => .err "vm: popped an empty stack"
        | some (b, s1) =>
          match stackPop s1 with
          | none => .err "vm: popped an empty stack"
          | some (a, s2) =>
            match a, b with
            | .number x, .number y =>
                let (ua, ub) := prepare4bitwise x y
                match stackPush s2 (.number ((ua &&& ub : Nat) : ℚ)) with
                | none => .err "vm: stack overflow"
                | some s => .ok { st with stack := s, ip := st.ip + 1 }
            | _, _ => .err "vm: only numbers can be bitwise-and-ed"
    | .bitOr =>
        match stackPop st.stack with
        | none => .err "vm: popped an empty stack"
        | some (b, s1) =>
          match stackPop s1 with
          | none => .err "vm: popped an empty stack"
          | some (a, s2) =>
            match a, b with
            | .number x, .number y =>
                let (ua, ub) := prepare4bitwise x y
                match stackPush s2 (.number ((ua ||| ub : Nat) : ℚ)) with
                | none => .err "vm: stack overflow"
                | some s => .ok { st with stack := s, ip := st.ip + 1 }
            | _, _ => .err "vm: only numbers can be bitwise-or-ed"
    | .bitXor =>
        match stackPop st.stack with
        | none => .err "vm: popped an empty stack"
        | some (b, s1) =>
          match stackPop s1 with
          | none => .err "vm: popped an empty stack"
          | some (a, s2) =>
            match a, b with
            | .number x, .number y =>
                let (ua, ub) := prepare4bitwise x y
                match stackPush s2 (.number ((ua ^^^ ub : Nat) : ℚ)) with
                | none => .err "vm: stack overflow"
                | some s => .ok { st with stack := s, ip := st.ip + 1 }
            | _, _ => .err "vm: only numbers can be bitwise-xor-ed"
    | .bitShl =>
        match stackPop st.stack with
        | none => .err "vm: popped an empty stack"
        | some (b, s1) =>
          match stackPop s1 with
          | none => .err "vm: popped an empty stack"
          | some (a, s2) =>
            match a, b with
            | .number x, .number y =>
                let (ua, ub) := prepare4bitwise x y
                -- u64 shift: the shift amount acts mod 64 (the
                -- release-build semantics of `<<` on u64), the result
                -- wraps to 64 bits
                match stackPush s2 (.number ((ua <<< (ub % 64) % 2 ^ 64 : Nat) : ℚ)) with
                | none => .err "vm: stack overflow"
                | some s => .ok { st with stack := s, ip := st.ip + 1 }
            | _, _ => .err "vm: only numbers can be shifted"
    | .bitShr =>
        match stackPop st.stack with
        | none => .err "vm: popped an empty stack"
        | some (b, s1) =>
          match stackPop s1 with
          | none => .err "vm: popped an empty stack"
          | some (a, s2) =>
            match a, b with
            | .number x, .number y =>
                let (ua, ub) := prepare4bitwise x y
                match stackPush s2 (.number ((ua >>> (ub % 64) : Nat) : ℚ)) with
                | none => .err "vm: stack overflow"
                | some s => .ok { st with stack := s, ip := st.ip + 1 }
            | _, _ => .err "vm: only numbers can be shifted"
    | .bitNot =>
        match stackPop st.stack with
        | none => .err "vm: popped an empty stack"
        | some (o, s1) =>
          match objectNot o with
          | .error msg => .err msg
          | .ok r =>
            match stackPush s1 r with
            | none => .err "vm: stack overflow"
            | some s => .ok { st with stack := s, ip := st.ip + 1 }
    | .falseOp =>
        match stackPush st.stack (.bool false) with
        | none => .err "vm: stack overflow"
        | some s => .ok { st with stack := s, ip := st.ip + 1 }
    | .notOp =>
        match stackPop st.stack with
        | none => .err "vm: popped an empty stack"
        | some (o, s1) =>
          match objectNot o with
          | .error msg => .err msg
          | .ok r =>
            match stackPush s1 r with
            | none => .err "vm: stack overflow"
            | some s => .ok { st with stack := s, ip := st.ip + 1 }
    | .negOp =>
        match stackPop st.stack with
        | none => .err "vm: popped an empty stack"
        | some (o, s1) =>
          match o with
          | .number n =>
              match stackPush s1 (.number (-n)) with
              | none => .err "vm: stack overflow"
              | some s => .ok { st with stack := s, ip := st.ip + 1 }
          | _ => .err "vm: only numbers can be -"
    | .nullOp =>
        match stackPush st.stack .null with
        | none => .err "vm: stack overflow"
        | some s => .ok { st with stack := s, ip := st.ip + 1 }
    | .eqOp =>
        match stackPop st.stack with
        | none => .err "vm: popped an empty stack"
        | some (b, s1) =>
          match stackPop s1 with
          | none => .err "vm: popped an empty stack"
          | some (a, s2) =>
            match stackPush s2 (.bool (Object.beq a b)) with
            | none => .err "vm: stack overflow"
            | some s => .ok { st with stack := s, ip := st.ip + 1 }
    | .ltOp =>
        -- binop_relational!(self, <)
        match stackPop st.stack with
        | none => .err "vm: popped an empty stack"
        | some (b, s1) =>
          match stackPop s1 with
          | none => .err "vm: popped an empty stack"
          | some (a, s2) =>
            if a.kind ≠ b.kind then
              .err "vm: only numbers can be compared"
            else
              match stackPush s2 (.bool (Object.lt a b)) with
              | none => .err "vm: stack overflow"
              | some s => .ok { st with stack := s, ip := st.ip + 1 }
    | .gtOp =>
        -- binop_relational!(self, >): `a > b` is `b < a` under PartialOrd
        match stackPop st.stack with
        | none => .err "vm: popped an empty stack"
        | some (b, s1) =>
          match stackPop s1 with
          | none => .err "vm: popped an empty stack"
          | some (a, s2) =>
            if a.kind ≠ b.kind then
              .err "vm: only numbers can be compared"
            else
              match stackPush s2 (.bool (Object.lt b a)) with
              | none => .err "vm: stack overflow"
              | some s => .ok { st with stack := s, ip := st.ip + 1 }
    | .str s =>
        match stackPush st.stack (.str s) with
        | none => .err "vm: stack overflow"
        | some st' => .ok { st with stack := st', ip := st.ip + 1 }
    | .jmp addr =>
        -- handle_op_jmp: ip := addr, then the loop's +1
        .ok { st with ip := addr + 1 }
    | .jz addr =>
        -- handle_op_jz: pop, jump iff the value is Bool(false)
        match stackPop st.stack with
        | none => .err "vm: popped an empty stack"
        | some (item, s) =>
            match item with
            | .bool false => .ok { st with stack := s, ip := addr + 1 }
            | _ => .ok { st with stack := s, ip := st.ip + 1 }
    | .call n =>
        -- handle_op_call: push a frame whose return target makes Ret
        -- resume after the following Jmp; no control transfer.
        -- (Element model of `ptr: self.ip.add(5)`: the Call and the
        -- following Jmp are one element each here, so the saved target
        -- is ip + 1 and Ret's `+1` resumes at ip + 2.)
        if n > st.stack.length then .err "vm: frame base underflow"
        else
          match stackPush st.frames
              { ptr := st.ip + 1, location := st.stack.length - n } with
          | none => .err "vm: stack overflow"
          | some fr => .ok { st with frames := fr, ip := st.ip + 1 }
    | .callMethod =>
        match readU32? bc.code (st.ip + 1), readU32? bc.code (st.ip + 5) with
        | some methodNameIdx, some argcount =>
          (match stackPeek st.stack argcount with
          | none => .err "vm: peeked an empty stack"
          | some obj =>
            match obj with
            | .structObj sname _ =>
              (match alGet st.blueprints sname with
              | none => .err "vm: blueprint not defined"
              | some blueprint =>
                match bc.sp.get? methodNameIdx with
                | none => .err "vm: bad string index"
                | some methodName =>
                  match alGet blueprint.methods methodName with
                  | none => .err "vm: struct has no such method"
                  | some method =>
                    if argcount ≠ method.paramcount - 1 then
                      .err "vm: wrong number of arguments"
                    else
                      match stackPush st.frames
                          { ptr := st.ip + 8
                            location := st.stack.length - method.paramcount } with
                      | none => .err "vm: stack overflow"
                      | some fr =>
                          .ok { st with frames := fr, ip := method.location + 1 })
            | _ => .err "vm: tried to call a method on a non-struct")
        | _, _ => .err "vm: bad immediate"
    | .ret =>
        match stackPop st.frames with
        | none => .err "vm: popped an empty stack"
        | some (retaddr, fr) =>
            .ok { st with frames := fr, ip := retaddr.ptr + 1 }
    | .deepget k =>
        match st.frames.getLast? with
        | none => .err "vm: no elements on the stack"
        | some fb =>
          match st.stack.get? (fb.location + k) with
          | none => .err "vm: bad slot"
          | some obj =>
            match stackPush st.stack obj with
            | none => .err "vm: stack overflow"
            | some s => .ok { st with stack := s, ip := st.ip + 1 }
    | .deepgetPtr k =>
        match st.frames.getLast? with
        | none => .err "vm: no elements on the stack"
        | some fb =>
          if fb.location + k < st.stack.length then
            match stackPush st.stack (.ptr (.stackSlot (fb.location + k))) with
            | none => .err "vm: stack overflow"
            | some s => .ok { st with stack := s, ip := st.ip + 1 }
          else .err "vm: bad slot"
    | .deepset k =>
        match st.frames.getLast? with
        | none => .err "vm: no elements on the stack"
        | some fb =>
          match swapRemove st.stack (fb.location + k) with
          | none => .err "vm: bad slot"
          | some s => .ok { st with stack := s, ip := st.ip + 1 }
    | .deref =>
        match stackPop st.stack with
        | none => .err "vm: popped an empty stack"
        | some (o, s1) =>
          match o with
          | .ptr (.stackSlot i) =>
              (match s1.get? i with
              | none => .err "vm: bad slot"
              | some v =>
                match stackPush s1 v with
                | none => .err "vm: stack overflow"
                | some s => .ok { st with stack := s, ip := st.ip + 1 })
          | .ptr (.structMember _ _) =>
              .err "vm: member pointer deref outside the value model"
          | _ => .err "vm: tried to deref a non-ptr"
    | .derefSet =>
        match stackPop st.stack with
        | none => .err "vm: popped an empty stack"
        | some (item, s1) =>
          match stackPop s1 with
          | none => .err "vm: popped an empty stack"
          | some (o, s2) =>
            match o with
            | .ptr (.stackSlot i) =>
                if i < s2.length then
                  .ok { st with stack := s2.set i item, ip := st.ip + 1 }
                else .err "vm: bad slot"
            | .ptr (.structMember _ _) =>
                .err "vm: member pointer deref outside the value model"
            | _ => .err "vm: tried to deref a non-ptr"
    | .getattr attr =>
        -- handle_op_getattr: a non-struct operand is silently consumed
        -- (`if let Object::Struct` with no else branch)
        match stackPop st.stack with
        | none => .err "vm: popped an empty stack"
        | some (o, s1) =>
          match o with
          | .structObj sname members =>
              (match alGet members attr with
              | some m =>
                  (match stackPush s1 m with
                  | none => .err "vm: stack overflow"
                  | some s => .ok { st with stack := s, ip := st.ip + 1 })
              | none => .err ("vm: struct " ++ sname ++ " has no member " ++ attr))
          | _ => .ok { st with stack := s1, ip := st.ip + 1 }
    | .getattrPtr attr =>
        match stackPop st.stack with
        | none => .err "vm: popped an empty stack"
        | some (o, s1) =>
          match o with
          | .structObj sname members =>
              (match alGet members attr with
              | some _ =>
                  (match stackPush s1 (.ptr (.structMember sname attr)) with
                  | none => .err "vm: stack overflow"
                  | some s => .ok { st with stack := s, ip := st.ip + 1 })
              | none => .err ("vm: struct " ++ sname ++ " has no member " ++ attr))
          | _ => .ok { st with stack := s1, ip := st.ip + 1 }
    | .setattr attr =>
        match stackPop st.stack with
        | none => .err "vm: popped an empty stack"
        | some (value, s1) =>
          match stackPop s1 with
          | none => .err "vm: popped an empty stack"
          | some (o, s2) =>
            match o with
            | .structObj sname members =>
                (match stackPush s2 (.structObj sname (alInsert members attr value)) with
                | none => .err "vm: stack overflow"
                | some s => .ok { st with stack := s, ip := st.ip + 1 })
            | _ => .ok { st with stack := s2, ip := st.ip + 1 }
    | .strcat =>
        match stackPop st.stack with
        | none => .err "vm: popped an empty stack"
        | some (b, s1) =>
          match stackPop s1 with
          | none => .err "vm: popped an empty stack"
          | some (a, s2) =>
            match a, b with
            | .str x, .str y =>
                (match stackPush s2 (.str (x ++ y)) with
                | none => .err "vm: stack overflow"
                | some s => .ok { st with stack := s, ip := st.ip + 1 })
            | _, _ => .err "vm: only strings can be concatenated"
    | .struct sname =>
        match stackPush st.stack (.structObj sname []) with
        | none => .err "vm: stack overflow"
        | some s => .ok { st with stack := s, ip := st.ip + 1 }
    | .structBlueprint =>
        match readU32? bc.code (st.ip + 1), readU32? bc.code (st.ip + 5) with
        | some blueprintNameIdx, some memberCount =>
          (match bc.sp.get? blueprintNameIdx with
          | none => .err "vm: bad string index"
          | some bpName =>
            match readMembers bc.code bc.sp (st.ip + 9) memberCount with
            | none => .err "vm: bad blueprint record"
            | some members =>
                let bp : Blueprint :=
                  { name := bpName, members := members, methods := [] }
                .ok { st with
                        blueprints := alInsert st.blueprints bpName bp
                        ip := st.ip + 9 + 4 * memberCount })
        | _, _ => .err "vm: bad immediate"
    | .impl =>
        match readU32? bc.code (st.ip + 1), readU32? bc.code (st.ip + 5) with
        | some blueprintNameIdx, some methodCount =>
          (match bc.sp.get? blueprintNameIdx with
          | none => .err "vm: bad string index"
          | some bpName =>
            match readImplMethods bc.code bc.sp bpName (st.ip + 9) methodCount
                st.blueprints with
            | none => .err "vm: bad impl record"
            | some bps =>
                .ok { st with blueprints := bps
                              ip := st.ip + 9 + 12 * methodCount })
        | _, _ => .err "vm: bad immediate"
    | .vec n =>
        match popIntoVec st.stack n with
        | none => .err "vm: popped an empty stack"
        | some (elems, s1) =>
          match stackPush s1 (.vecObj elems) with
          | none => .err "vm: stack overflow"
          | some s => .ok { st with stack := s, ip := st.ip + 1 }
    | .vecSet =>
        match stackPop st.stack with
        | none => .err "vm: popped an empty stack"
        | some (_, s1) =>
          match stackPop s1 with
          | none => .err "vm: popped an empty stack"
          | some (idx, s2) =>
            match stackPop s2 with
            | none => .err "vm: popped an empty stack"
            | some (v, s3) =>
              match v, idx with
              | .vecObj elems, .number i =>
                  -- the shared cell's mutation is invisible by value;
                  -- only the bounds panic is observable here
                  if Int.toNat ⌊i⌋ < elems.length then
                    .ok { st with stack := s3, ip := st.ip + 1 }
                  else .err "vm: index out of bounds"
              | _, _ => .ok { st with stack := s3, ip := st.ip + 1 }
    | .subscript =>
        match stackPop st.stack with
        | none => .err "vm: popped an empty stack"
        | some (idx, s1) =>
          match stackPop s1 with
          | none => .err "vm: popped an empty stack"
          | some (v, s2) =>
            match v, idx with
            | .vecObj elems, .number i =>
                (match elems.get? (Int.toNat ⌊i⌋) with
                | none => .err "vm: index out of bounds"
                | some x =>
                  match stackPush s2 x with
                  | none => .err "vm: stack overflow"
                  | some s => .ok { st with stack := s, ip := st.ip + 1 })
            | _, _ => .ok { st with stack := s2, ip := st.ip + 1 }
    | .pop n =>
        if n ≤ st.stack.length then
          .ok { st with stack := st.stack.take (st.stack.length - n)
                        ip := st.ip + 1 }
        else .err "vm: popped an empty stack"
    | .halt => .halted st
    | .raw _ => .err "vm: decoded an immediate byte as an opcode"

/-- One successful (non-halting) dispatch-loop iteration. -/
def StepOk (bc : Bytecode) (s t : VMState) : Prop := step bc s = .ok t

/-- Zero or more successful iterations. -/
def Reaches (bc : Bytecode) : VMState → VMState → Prop :=
  Relation.ReflTransGen (StepOk bc)

/-! ## Byte-level model of the call convention (src/vm.rs)

In the shipped byte encoding an opcode byte is followed by its
big-endian immediate (4 bytes for `u32` operands).  `read_u32` reads
the 4 bytes after `ip` and advances `ip` by 4; the `exec` loop then
adds 1 after the handler returns.  This model reproduces that
arithmetic exactly for `handle_op_call`, `handle_op_ret` and
`handle_op_jmp`. -/

/-- Byte-level VM state: a byte buffer, the instruction pointer as a
byte offset, the value stack and the frame stack. -/
structure ByteVMState where
  code : List Nat
  stack : List Object
  frames : List BytecodePtr
  ip : Nat

/-- `VM::read_u32`: the big-endian `u32` at `ip + 1 .. ip + 4`
(absent bytes read as 0 — the source does an unchecked raw read), and
the advanced `ip`. -/
def readU32b (code : List Nat) (ip : Nat) : Nat × Nat :=
  (((code.get? (ip + 1)).getD 0) * 2 ^ 24 +
   ((code.get? (ip + 2)).getD 0) * 2 ^ 16 +
   ((code.get? (ip + 3)).getD 0) * 2 ^ 8 +
   ((code.get? (ip + 4)).getD 0),
   ip + 4)

/-- `VM::handle_op_call`: read the argument count (advancing `ip` by
4), then push a `BytecodePtr { ptr: ip + 5, location: stack.len() - n }`
onto the frame stack.  Nothing else changes; no control transfer. -/
def handleOpCall (st : ByteVMState) : ByteVMState :=
  let (n, ip1) := readU32b st.code st.ip
  { st with
      ip := ip1
      frames := st.frames ++ [{ ptr := ip1 + 5, location := st.stack.length - n }] }

/-- `VM::handle_op_ret`: pop the frame stack and load its `ptr` into
`ip`. -/
def handleOpRet (st : ByteVMState) : ByteVMState :=
  match st.frames.getLast? with
  | some retaddr =>
      { st with frames := st.frames.dropLast, ip := retaddr.ptr }
  | none => st

/-- `VM::handle_op_jmp`: read the target (advancing `ip` by 4) and load
it into `ip`. -/
def handleOpJmp (st : ByteVMState) : ByteVMState :=
  let (addr, _) := readU32b st.code st.ip
  { st with ip := addr }

/-- One iteration of the `exec` loop around a given handler: run it,
then `ip = ip.add(1)`. -/
def loopStep (handler : ByteVMState → ByteVMState) (st : ByteVMState) :
    ByteVMState :=
  let st' := handler st
  { st' with ip := st'.ip + 1 }

/-! ## Instruction layout of the code buffer

A code buffer is well laid out (`Wf`) when it is a concatenation of
whole instructions: every opcode except `callMethod`, `structBlueprint`
and `impl` is one self-contained element, and those three are followed
by exactly the `raw` elements `emit_u32` produces for them.  A position
is a valid start-of-opcode offset (`IsStart`) when the buffer splits
there into two well-laid-out halves; positions inside an immediate
operand never qualify (no well-laid-out buffer starts with a `raw`). -/

/-- Opcodes that form a complete one-element instruction (everything
except the three with trailing `raw` operands, and `raw` itself). -/
def opSimple : Opcode → Bool
  | .callMethod => false
  | .structBlueprint => false
  | .impl => false
  | .raw _ => false
  | _ => true

/-- A complete one-element instruction that is not a jump (so emitting
it can neither break layout nor introduce a jump target). -/
def opPlain : Opcode → Bool
  | .jmp _ => false
  | .jz _ => false
  | op => opSimple op

/-- Well-laid-out code: a sequence of complete instructions.  The
`structBlueprint` / `impl` member and method counts are below 2^32, so
the emitted count field decodes back to the actual payload length. -/
inductive Wf : List Opcode → Prop
  | nil : Wf []
  | simple (op : Opcode) (h : opSimple op = true) (rest : List Opcode) :
      Wf rest → Wf (op :: (rest))
  | callm (a b : Nat) (rest : List Opcode) :
      Wf rest → Wf (.callMethod :: (u32e a ++ (u32e b ++ rest)))
  | sb (a : Nat) (idxs : List Nat) (hlen : idxs.length < 2 ^ 32)
      (rest : List Opcode) : Wf rest →
      Wf (.structBlueprint ::
            (u32e a ++ (u32e idxs.length ++ (idxs.flatMap u32e ++ rest))))
  | impl (a : Nat) (ms : List (Nat × Nat × Nat)) (hlen : ms.length < 2 ^ 32)
      (rest : List Opcode) : Wf rest →
      Wf (.impl ::
            (u32e a ++ (u32e ms.length ++
              (ms.flatMap (fun m => u32e m.1 ++ (u32e m.2.1 ++ u32e m.2.2)) ++ rest))))

/-- `p` is an instruction boundary of `code` (including `p = length`). -/
def Boundary (code : List Opcode) (p : Nat) : Prop :=
  ∃ pre suf, code = pre ++ suf ∧ pre.length = p ∧ Wf pre ∧ Wf suf

/-- `p` is a valid start-of-opcode offset of `code`. -/
def IsStart (code : List Opcode) (p : Nat) : Prop :=
  Boundary code p ∧ p < code.length

/-- The operand of a `Jmp`/`Jz` at position `i`, when there is one. -/
def jmpTarget (code : List Opcode) (i : Nat) : Option Nat :=
  match code.get? i with
  | some (.jmp a) => some a
  | some (.jz a) => some a
  | _ => none

mutual

/-- Size bounds a well-formed AST satisfies: every struct member list
and every impl method list is shorter than 2^32 (the counts pass
through `emit_u32`'s `as u32` truncation). -/
def stmtSizesOk : Statement → Bool
  | .print _ => true
  | .fn _ _ body => stmtSizesOk body
  | .ret _ => true
  | .ifS _ a b => stmtSizesOk a && stmtSizesOk b
  | .whileS _ b => stmtSizesOk b
  | .forS _ _ _ b => stmtSizesOk b
  | .breakS => true
  | .continueS => true
  | .structS _ members => decide (members.length < 2 ^ 32)
  | .implS _ methods =>
      decide (methods.length < 2 ^ 32) && stmtListSizesOk methods
  | .exprS _ => true
  | .block body => stmtListSizesOk body
  | .dummy => true

def stmtListSizesOk : List Statement → Bool
  | [] => true
  | s :: rest => stmtSizesOk s && stmtListSizesOk rest

end

/-- The invariant tying jump operands to instruction boundaries:
every `Jmp`/`Jz` operand `a` either sits at a still-unpatched
placeholder position (in `exempt`) or satisfies `Boundary (a + 1)` —
after the dispatch loop's post-jump increment, execution continues at
an instruction boundary. -/
def GoodTargets (code : List Opcode) (exempt : List Nat) : Prop :=
  ∀ i a, jmpTarget code i = some a → i ∈ exempt ∨ Boundary code (a + 1)

/-- Placeholder positions hold a `Jmp` or `Jz` (so `patch_jmp` will
succeed on them). -/
def Patchable (code : List Opcode) (l : List Nat) : Prop :=
  ∀ i ∈ l, ∃ x, code.get? i = some (.jmp x) ∨ code.get? i = some (.jz x)

/-- Every registered function entry is one element before an
instruction boundary (its `Jmp(entry)` target plus the loop's
increment lands on the function's first instruction). -/
def FunsOk (c : CompilerState) : Prop :=
  ∀ p ∈ c.functions, Boundary c.bytecode.code (p.2.location + 1)

/-- Every recorded loop start is one element before an instruction
boundary. -/
def LoopsOk (c : CompilerState) : Prop :=
  ∀ l ∈ c.loopStarts, Boundary c.bytecode.code (l + 1)

/-- Blueprints in the compiler's `structs` map always carry an empty
method table (only `StructStatement` inserts, always with no methods;
`ImplStatement` works on a clone). -/
def StructsOk (c : CompilerState) : Prop :=
  ∀ p ∈ c.structs, p.2.methods = []

/-- The compiler-state invariant maintained by every codegen call;
`pend` lists jump placeholders an enclosing call has promised to
patch. -/
def INV (c : CompilerState) (pend : List Nat) : Prop :=
  Wf c.bytecode.code ∧
  GoodTargets c.bytecode.code (c.breaks ++ pend) ∧
  Patchable c.bytecode.code (c.breaks ++ pend) ∧
  FunsOk c ∧ LoopsOk c ∧ StructsOk c

/-- How a codegen call relates its exit state to its entry state: the
code is extended by a well-laid-out chunk (patches only ever touch the
new chunk), loop starts are restored, and `breaks` only grows by
placeholders inside the new chunk (none at all outside a loop). -/
def Ext (c c' : CompilerState) : Prop :=
  (∃ ext, c'.bytecode.code = c.bytecode.code ++ ext ∧ Wf ext) ∧
  c'.loopStarts = c.loopStarts ∧
  c.breaks <+: c'.breaks ∧
  (∀ p ∈ c'.breaks.drop c.breaks.length, c.bytecode.code.length ≤ p) ∧
  (c.loopStarts = [] → c'.breaks = c.breaks)

/-- What every successful codegen call guarantees, given `INV` on
entry. -/
def Concl (c c' : CompilerState) (pend : List Nat) : Prop :=
  INV c' pend ∧ Ext c c'

/-- One codegen action on the code buffer, relative to a region
boundary `E`: append a well-laid-out chunk, or re-point a `Jmp`/`Jz`
that sits at or beyond `E`. -/
def SegStep (E : Nat) (a b : List Opcode) : Prop :=
  (∃ ext, b = a ++ ext ∧ Wf ext) ∨
  (∃ j x y, E ≤ j ∧
    (a.get? j = some (.jmp x) ∨ a.get? j = some (.jz x)) ∧
    opSimple y = true ∧ b = a.set j y)

/-- A run of codegen actions relative to region boundary `E`. -/
def Seg (E : Nat) : List Opcode → List Opcode → Prop :=
  Relation.ReflTransGen (SegStep E)

/-- The loop-start / break bookkeeping a codegen run preserves, stated
without the code-chunk shape (so in-place jump patches maintain it). -/
def BExt (c c' : CompilerState) : Prop :=
  c'.loopStarts = c.loopStarts ∧
  c.breaks <+: c'.breaks ∧
  (∀ p ∈ c'.breaks.drop c.breaks.length, c.bytecode.code.length ≤ p) ∧
  (c.loopStarts = [] → c'.breaks = c.breaks) ∧
  c.bytecode.code.length ≤ c'.bytecode.code.length

/-- A helper emitted only complete single-element instructions (no
jumps) and left every invariant-relevant compiler field alone. -/
def SimpleExt (c c' : CompilerState) : Prop :=
  (∃ ext, c'.bytecode.code = c.bytecode.code ++ ext ∧
    (∀ op ∈ ext, opSimple op = true ∧ ∀ v, op ≠ .jmp v ∧ op ≠ .jz v)) ∧
  c'.functions = c.functions ∧ c'.breaks = c.breaks ∧
  c'.loopStarts = c.loopStarts ∧ c'.structs = c.structs

/-- Stack states reachable from `Stack::new` through `push`/`pop`. -/
inductive StackReachable {α : Type} : List α → Prop
  | new : StackReachable []
  | push (s s' : List α) (x : α) :
      StackReachable s → stackPush s x = some s' → StackReachable s'
  | pop (s : List α) (x : α) (s' : List α) :
      StackReachable s → stackPop s = some (x, s') → StackReachable s'

/-- A code segment `[p, q)` of a bytecode program pushes exactly the
value `v` when run from any state whose stack has `B` slots of
headroom: frames, blueprints and the rest of the stack are untouched,
and control flows from `p` to `q`. -/
def PushSeg (bc : Bytecode) (B p q : Nat) (v : Object) : Prop :=
  ∀ (s : List Object) (fr : List BytecodePtr) (bps : List (String × Blueprint)),
    s.length + B ≤ STACK_MIN →
    Reaches bc { stack := s, frames := fr, ip := p, blueprints := bps }
               { stack := s ++ [v], frames := fr, ip := q, blueprints := bps }

/-- The concrete program refuting C2 as literally stated: a method call
(whose `CallMethod` record ends in `raw` immediate bytes) immediately
before a `while` loop, so the loop's back-edge `Jmp` targets the last
immediate byte of that record. -/
def prog2 : List Statement :=
  [.fn "main" [] (.block [
     .exprS (.assign (.var "x") (.call (.get (.var "y") "m" .dot) []) .equal),
     .whileS (.lit (.bool false)) (.block []),
     .ret (.lit (.num 0))])]

/-! ## Theorems -/

theorem stackPop_concat {α : Type} (s : List α) (x : α) :
    stackPop (s ++ [x]) = some (x, s) := by
  simp [stackPop]

theorem stackPush_of_lt {α : Type} (s : List α) (x : α)
    (h : s.length < STACK_MIN) : stackPush s x = some (s ++ [x]) := by
  simp [stackPush, h]

/-- C1 (counterexample): executing `Call(0)` at byte address 0 (followed
by a `Jmp` at byte 5) saves return address 9, not 0 + 5: `handle_op_call`
computes `ip + 5` only after `read_u32` has already advanced `ip` by 4,
so the claim's "address of the Call opcode plus 5" does not hold. -/
theorem c1_call_return_addr_counterexample :
    (loopStep handleOpCall
        { code := [23, 0, 0, 0, 0, 21, 0, 0, 0, 0, 41],
          stack := [.null], frames := [], ip := 0 }).frames =
      [{ ptr := 9, location := 1 }] ∧ (9 : Nat) ≠ 0 + 5 := by
  constructor
  · rfl
  · decide

/-- C1 (amended): `Call(nargs)` at byte address `ip` pushes exactly one
frame whose saved return address is `ip + 9` (the handler's `ip + 5`
after `read_u32` advanced `ip` by 4) — the last immediate byte of the
following 5-byte `Jmp` — and whose frame base is `stack.len() - nargs`;
the value stack is unchanged and control continues sequentially at
`ip + 5` (the `Jmp` opcode).  When `Ret` later pops that frame, the
dispatch loop's increment resumes execution at `ip + 10`, the
instruction after that `Jmp`. -/
theorem c1_call_return_addr (code : List Nat) (stack : List Object)
    (frames : List BytecodePtr) (ip : Nat)
    (_h : (readU32b code ip).1 ≤ stack.length) :
    (loopStep handleOpCall ⟨code, stack, frames, ip⟩).stack = stack ∧
    (loopStep handleOpCall ⟨code, stack, frames, ip⟩).frames =
      frames ++ [{ ptr := ip + 9
                   location := stack.length - (readU32b code ip).1 }] ∧
    (loopStep handleOpCall ⟨code, stack, frames, ip⟩).ip = ip + 5 ∧
    ∀ st2 : ByteVMState,
      st2.frames =
        frames ++ [{ ptr := ip + 9
                     location := stack.length - (readU32b code ip).1 }] →
      (loopStep handleOpRet st2).ip = ip + 10 ∧
      (loopStep handleOpRet st2).frames = frames := by
  refine ⟨rfl, ?_, ?_, ?_⟩
  · simp [loopStep, handleOpCall, readU32b]
  · simp [loopStep, handleOpCall, readU32b]
  · intro st2 h2
    constructor
    · simp [loopStep, handleOpRet, h2]
    · simp [loopStep, handleOpRet, h2]

/-- Witness for `c1_call_return_addr` at a concrete state. -/
theorem c1_call_return_addr_witness :
    (readU32b [23, 0, 0, 0, 1, 21, 0, 0, 0, 0, 41] 0).1 ≤
      ([Object.null] : List Object).length ∧
    (loopStep handleOpCall
        ⟨[23, 0, 0, 0, 1, 21, 0, 0, 0, 0, 41], [.null], [], 0⟩).frames =
      [{ ptr := 9, location := 0 }] :=
  ⟨by decide,
   (c1_call_return_addr [23, 0, 0, 0, 1, 21, 0, 0, 0, 0, 41]
      [.null] [] 0 (by decide)).2.1⟩

/-- C9: `Jz` always pops exactly one value, jumps to its target exactly
when that value is the boolean `false` (the dispatch loop's increment
lands execution at `addr + 1`), and treats every other value — numbers
including 0, null, pointers, strings, structs, vecs, `true` — as
truthy, falling through with no error. -/
theorem c9_jz_pops_and_branches (bc : Bytecode) (st : VMState) (addr : Nat)
    (s : List Object) (v : Object)
    (hop : bc.code.get? st.ip = some (.jz addr))
    (hstack : st.stack = s ++ [v]) :
    step bc st =
      .ok { st with
              stack := s
              ip := match v with
                    | .bool false => addr + 1
                    | _ => st.ip + 1 } := by
  rw [show (step bc st = _) from rfl]
  simp only [step, hop, hstack, stackPop_concat]
  cases v with
  | bool b => cases b <;> rfl
  | number n => rfl
  | str s => rfl
  | structObj n m => rfl
  | ptr d => rfl
  | vecObj e => rfl
  | null => rfl

/-- Witness for `c9_jz_pops_and_branches`: a falsey pop jumps, a
number 0 falls through. -/
theorem c9_jz_pops_and_branches_witness :
    step { code := [.jz 7], cp := [], sp := [] }
        { stack := [.number 0], frames := [], ip := 0, blueprints := [] } =
      .ok { stack := [], frames := [], ip := 1, blueprints := [] } :=
  c9_jz_pops_and_branches { code := [.jz 7], cp := [], sp := [] }
    { stack := [.number 0], frames := [], ip := 0, blueprints := [] }
    7 [] (.number 0) rfl rfl

/-- C6: the value stack is a fixed 1024-slot buffer: a push onto a full
stack is the fatal "stack overflow" assert, a successful push needs
strictly fewer than 1024 elements and yields at most 1024, and every
stack state reachable from `Stack::new` by pushes and pops holds at
most 1024 values (so the backing buffer, allocated once with capacity
`STACK_MIN`, never grows). -/
theorem c6_stack_fixed_capacity :
    STACK_MIN = 1024 ∧
    (∀ (s : List Object) (x : Object), STACK_MIN ≤ s.length →
       stackPush s x = none) ∧
    (∀ (s : List Object) (x : Object) (s' : List Object),
       stackPush s x = some s' →
       s.length < 1024 ∧ s'.length = s.length + 1 ∧ s'.length ≤ 1024) ∧
    (∀ s : List Object, StackReachable s → s.length ≤ 1024) := by
  refine ⟨rfl, ?_, ?_, ?_⟩
  · intro s x h
    simp [stackPush, STACK_MIN] at h ⊢
    omega
  · intro s x s' h
    simp only [stackPush, STACK_MIN] at h
    split at h
    · cases h
      constructor
      · omega
      · simp
        omega
    · cases h
  · intro s h
    induction h with
    | new => simp
    | push s s' x _ hpush ih =>
        simp only [stackPush, STACK_MIN] at hpush
        split at hpush
        · cases hpush
          simp
          omega
        · cases hpush
    | pop s x s' _ hpop ih =>
        simp only [stackPop] at hpop
        split at hpop
        · cases hpop
        · cases hpop
          calc s.dropLast.length ≤ s.length := by
                simp [List.length_dropLast]
            _ ≤ 1024 := ih

/-- Witness for `c6_stack_fixed_capacity`: a push onto a full stack
fails; a push onto an empty stack succeeds with one element. -/
theorem c6_stack_fixed_capacity_witness :
    stackPush (List.replicate 1024 Object.null) .null = none ∧
    ([Object.null] : List Object).length ≤ 1024 :=
  ⟨c6_stack_fixed_capacity.2.1 (List.replicate 1024 .null) .null
     (by rw [List.length_replicate]; rfl),
   (c6_stack_fixed_capacity.2.2.1 [] .null [.null] (by rfl)).2.2⟩

/-- C5 (counterexample): `Lt` on two Bools — neither operand a Number —
does not fail: the discriminants agree, so `binop_relational` pushes
`(a < b).into()`, which is `Bool(false)` (their `partial_cmp` is
`None`). -/
theorem c5_relational_counterexample :
    step { code := [.ltOp], cp := [], sp := [] }
        { stack := [.bool true, .bool false], frames := [], ip := 0,
          blueprints := [] } =
      .ok { stack := [.bool false], frames := [], ip := 1,
            blueprints := [] } := by
  rfl

/-- C5 (amended): `Lt`/`Gt` fail with the vm-kind error exactly when the
two popped operands have different discriminants; when the
discriminants agree a boolean is pushed — the numeric comparison for
two Numbers, and `false` for two operands of any other (equal) kind,
since `partial_cmp` is `None` there. -/
theorem c5_relational_same_kind (bc : Bytecode) (st : VMState)
    (s : List Object) (a b : Object)
    (hstack : st.stack = s ++ [a, b]) (hlen : s.length + 2 ≤ STACK_MIN) :
    (bc.code.get? st.ip = some .ltOp →
       (a.kind ≠ b.kind →
          step bc st = .err "vm: only numbers can be compared") ∧
       (a.kind = b.kind →
          step bc st =
            .ok { st with stack := s ++ [.bool (Object.lt a b)]
                          ip := st.ip + 1 })) ∧
    (bc.code.get? st.ip = some .gtOp →
       (a.kind ≠ b.kind →
          step bc st = .err "vm: only numbers can be compared") ∧
       (a.kind = b.kind →
          step bc st =
            .ok { st with stack := s ++ [.bool (Object.lt b a)]
                          ip := st.ip + 1 })) ∧
    (∀ x y : Object, x.kind = y.kind → (∀ q : ℚ, x ≠ .number q) →
       Object.lt x y = false) := by
  have hpush : ∀ r : Bool, stackPush s (Object.bool r) = some (s ++ [.bool r]) :=
    fun r => stackPush_of_lt s _ (by omega)
  have hsplit : s ++ [a, b] = (s ++ [a]) ++ [b] := by simp
  refine ⟨?_, ?_, ?_⟩
  · intro hop
    constructor
    · intro hk
      simp only [step, hop, hstack, hsplit, stackPop_concat]
      simp [hk]
    · intro hk
      simp only [step, hop, hstack, hsplit, stackPop_concat]
      simp [hk, hpush]
  · intro hop
    constructor
    · intro hk
      simp only [step, hop, hstack, hsplit, stackPop_concat]
      simp [hk]
    · intro hk
      simp only [step, hop, hstack, hsplit, stackPop_concat]
      simp [hk, hpush]
  · intro x y _ hx
    cases x with
    | number q => exact absurd rfl (hx q)
    | bool v => cases y <;> rfl
    | str v => cases y <;> rfl
    | structObj n m => cases y <;> rfl
    | ptr d => cases y <;> rfl
    | vecObj e => cases y <;> rfl
    | null => cases y <;> rfl

/-- Witness for `c5_relational_same_kind`: `Gt` on two strings pushes
`false`. -/
theorem c5_relational_same_kind_witness :
    step { code := [.gtOp], cp := [], sp := [] }
        { stack := [.str "a", .str "b"], frames := [], ip := 0,
          blueprints := [] } =
      .ok { stack := [.bool false], frames := [], ip := 1,
            blueprints := [] } :=
  ((c5_relational_same_kind { code := [.gtOp], cp := [], sp := [] }
      { stack := [.str "a", .str "b"], frames := [], ip := 0, blueprints := [] }
      [] (.str "a") (.str "b") rfl (by norm_num [STACK_MIN])).2.1
    rfl).2 rfl

/-- C10: `Getattr`/`GetattrPtr` on a non-Struct operand silently
consume it — no error, nothing pushed, the stack shrinks by one —
while on a Struct operand with an existing member they pop one value
and push one (the member, resp. a pointer to it), a net stack effect
of zero. -/
theorem c10_getattr_nonstruct_silent (bc : Bytecode) (st : VMState)
    (attr : String) (s : List Object) (o : Object)
    (hstack : st.stack = s ++ [o]) (hlen : s.length + 1 ≤ STACK_MIN) :
    (bc.code.get? st.ip = some (.getattr attr) →
       ((∀ n ms, o ≠ .structObj n ms) →
          step bc st = .ok { st with stack := s, ip := st.ip + 1 }) ∧
       (∀ n ms m, o = .structObj n ms → alGet ms attr = some m →
          step bc st = .ok { st with stack := s ++ [m], ip := st.ip + 1 })) ∧
    (bc.code.get? st.ip = some (.getattrPtr attr) →
       ((∀ n ms, o ≠ .structObj n ms) →
          step bc st = .ok { st with stack := s, ip := st.ip + 1 }) ∧
       (∀ n ms m, o = .structObj n ms → alGet ms attr = some m →
          step bc st =
            .ok { st with stack := s ++ [.ptr (.structMember n attr)]
                          ip := st.ip + 1 })) := by
  constructor
  · intro hop
    constructor
    · intro hns
      cases o with
      | structObj n ms => exact absurd rfl (hns n ms)
      | number q => simp only [step, hop, hstack, stackPop_concat]
      | bool v => simp only [step, hop, hstack, stackPop_concat]
      | str v => simp only [step, hop, hstack, stackPop_concat]
      | ptr d => simp only [step, hop, hstack, stackPop_concat]
      | vecObj e => simp only [step, hop, hstack, stackPop_concat]
      | null => simp only [step, hop, hstack, stackPop_concat]
    · intro n ms m ho hm
      subst ho
      have hp : stackPush s m = some (s ++ [m]) :=
        stackPush_of_lt s m (by omega)
      simp only [step, hop, hstack, stackPop_concat, hm, hp]
  · intro hop
    constructor
    · intro hns
      cases o with
      | structObj n ms => exact absurd rfl (hns n ms)
      | number q => simp only [step, hop, hstack, stackPop_concat]
      | bool v => simp only [step, hop, hstack, stackPop_concat]
      | str v => simp only [step, hop, hstack, stackPop_concat]
      | ptr d => simp only [step, hop, hstack, stackPop_concat]
      | vecObj e => simp only [step, hop, hstack, stackPop_concat]
      | null => simp only [step, hop, hstack, stackPop_concat]
    · intro n ms m ho hm
      subst ho
      have hp : stackPush s (Object.ptr (.structMember n attr)) =
          some (s ++ [.ptr (.structMember n attr)]) :=
        stackPush_of_lt s _ (by omega)
      simp only [step, hop, hstack, stackPop_concat, hm, hp]

/-- Witness for `c10_getattr_nonstruct_silent`: `Getattr` on a Number
silently pops it; on a struct with the member, the member is pushed. -/
theorem c10_getattr_nonstruct_silent_witness :
    step { code := [.getattr "f"], cp := [], sp := [] }
        { stack := [.number 3], frames := [], ip := 0, blueprints := [] } =
      .ok { stack := [], frames := [], ip := 1, blueprints := [] } :=
  ((c10_getattr_nonstruct_silent { code := [.getattr "f"], cp := [], sp := [] }
      { stack := [.number 3], frames := [], ip := 0, blueprints := [] }
      "f" [] (.number 3) rfl (by norm_num [STACK_MIN])).1 rfl).1
    (by intro n ms h; cases h)

/-- C7: every binary bitwise opcode on two Numbers first sends each
operand through `prepare4bitwise` — clamp to `[0, 2^64)` and truncate
to a 64-bit unsigned integer: values in range are floor-truncated,
negative values become 0, values at least 2^64 become 2^64 − 1, and the
result is always below 2^64 — then applies the unsigned integer
operation and pushes the result converted back to a number. -/
theorem c7_bitwise_clamp_truncate (bc : Bytecode) (st : VMState)
    (s : List Object) (x y : ℚ)
    (hstack : st.stack = s ++ [.number x, .number y])
    (hlen : s.length + 2 ≤ STACK_MIN) :
    (bc.code.get? st.ip = some .bitAnd →
       step bc st = .ok { st with
         stack := s ++ [.number (((prepare4bitwise x y).1 &&&
                                  (prepare4bitwise x y).2 : Nat) : ℚ)]
         ip := st.ip + 1 }) ∧
    (bc.code.get? st.ip = some .bitOr →
       step bc st = .ok { st with
         stack := s ++ [.number (((prepare4bitwise x y).1 |||
                                  (prepare4bitwise x y).2 : Nat) : ℚ)]
         ip := st.ip + 1 }) ∧
    (bc.code.get? st.ip = some .bitXor →
       step bc st = .ok { st with
         stack := s ++ [.number (((prepare4bitwise x y).1 ^^^
                                  (prepare4bitwise x y).2 : Nat) : ℚ)]
         ip := st.ip + 1 }) ∧
    (bc.code.get? st.ip = some .bitShl →
       step bc st = .ok { st with
         stack := s ++ [.number (((prepare4bitwise x y).1 <<<
                                  ((prepare4bitwise x y).2 % 64) % 2 ^ 64 : Nat) : ℚ)]
         ip := st.ip + 1 }) ∧
    (bc.code.get? st.ip = some .bitShr →
       step bc st = .ok { st with
         stack := s ++ [.number (((prepare4bitwise x y).1 >>>
                                  ((prepare4bitwise x y).2 % 64) : Nat) : ℚ)]
         ip := st.ip + 1 }) ∧
    (∀ z : ℚ, 0 ≤ z → z < 2 ^ 64 →
       castU64 (clampQ z 0 (2 ^ 64)) = Int.toNat ⌊z⌋) ∧
    (∀ z : ℚ, z ≤ 0 → castU64 (clampQ z 0 (2 ^ 64)) = 0) ∧
    (∀ z : ℚ, 2 ^ 64 ≤ z → castU64 (clampQ z 0 (2 ^ 64)) = 2 ^ 64 - 1) ∧
    (∀ z : ℚ, castU64 (clampQ z 0 (2 ^ 64)) < 2 ^ 64) := by
  have hsplit : s ++ [Object.number x, Object.number y] =
      (s ++ [Object.number x]) ++ [Object.number y] := by simp
  have hpush : ∀ q : ℚ, stackPush s (Object.number q) = some (s ++ [.number q]) :=
    fun q => stackPush_of_lt s _ (by omega)
  refine ⟨?_, ?_, ?_, ?_, ?_, ?_, ?_, ?_, ?_⟩
  · intro hop
    simp only [step, hop, hstack, hsplit, stackPop_concat, prepare4bitwise, hpush]
  · intro hop
    simp only [step, hop, hstack, hsplit, stackPop_concat, prepare4bitwise, hpush]
  · intro hop
    simp only [step, hop, hstack, hsplit, stackPop_concat, prepare4bitwise, hpush]
  · intro hop
    simp only [step, hop, hstack, hsplit, stackPop_concat, prepare4bitwise, hpush]
  · intro hop
    simp only [step, hop, hstack, hsplit, stackPop_concat, prepare4bitwise, hpush]
  · intro z h0 h2
    have hc : clampQ z 0 (2 ^ 64) = z := by
      unfold clampQ
      rw [max_eq_left h0, min_eq_left (le_of_lt h2)]
    rw [hc]
    unfold castU64
    have hfl : ⌊z⌋ < (2 : ℤ) ^ 64 := by
      rw [Int.floor_lt]
      push_cast
      exact h2
    have e : (2 : ℤ) ^ 64 = 18446744073709551616 := by norm_num
    rw [e] at hfl
    have e2 : (2 : ℕ) ^ 64 = 18446744073709551616 := by norm_num
    rw [e2]
    omega
  · intro z h0
    have hc : clampQ z 0 (2 ^ 64) = 0 := by
      unfold clampQ
      rw [max_eq_right h0]
      exact min_eq_left (by positivity)
    rw [hc]
    unfold castU64
    norm_num
  · intro z h2
    have h0 : (0 : ℚ) ≤ z := le_trans (by positivity) h2
    have hc : clampQ z 0 (2 ^ 64) = 2 ^ 64 := by
      unfold clampQ
      rw [max_eq_left h0]
      exact min_eq_right h2
    rw [hc]
    unfold castU64
    have hfl : ⌊(2 ^ 64 : ℚ)⌋ = (2 : ℤ) ^ 64 := by
      norm_num
    rw [hfl]
    have e : (2 : ℤ) ^ 64 = 18446744073709551616 := by norm_num
    have e2 : (2 : ℕ) ^ 64 = 18446744073709551616 := by norm_num
    rw [e, e2]
    omega
  · intro z
    unfold castU64
    have e2 : (2 : ℕ) ^ 64 = 18446744073709551616 := by norm_num
    rw [e2]
    omega

/-- Witness for `c7_bitwise_clamp_truncate`: `9 & 5 = 1` through the
full handler; the clamp facts at `-3` and at `2^64 + 1`. -/
theorem c7_bitwise_clamp_truncate_witness :
    step { code := [.bitAnd], cp := [], sp := [] }
        { stack := [.number 9, .number 5], frames := [], ip := 0,
          blueprints := [] } =
      .ok { stack := [.number 1], frames := [], ip := 1, blueprints := [] } ∧
    castU64 (clampQ (-3) 0 (2 ^ 64)) = 0 := by
  have h := c7_bitwise_clamp_truncate { code := [.bitAnd], cp := [], sp := [] }
    { stack := [.number 9, .number 5], frames := [], ip := 0, blueprints := [] }
    [] 9 5 rfl (by norm_num [STACK_MIN])
  refine ⟨?_, h.2.2.2.2.2.2.1 (-3) (by norm_num)⟩
  have h1 := h.1 rfl
  rw [h1]
  norm_num [prepare4bitwise, castU64, clampQ]
  decide

/-- C4: after all top-level declarations, if a `main` function was
registered the compiler appends exactly `Call(0)`, `Jmp(main.location)`,
`Pop(1)`, `Halt` — in that order, as the final instructions — and
otherwise fails with a compiler-kind error before any trailer opcode is
emitted, leaving the bytecode produced so far without a trailer. -/
theorem c4_main_trailer (fuel : Nat) (prog : List Statement)
    (c1 : CompilerState)
    (h : compileStmtList fuel prog initCompiler = .ok c1) :
    (∀ f, alGet c1.functions "main" = some f →
        compile fuel prog =
          .ok { c1.bytecode with
                  code := c1.bytecode.code ++
                    [.call 0, .jmp f.location, .pop 1, .halt] }) ∧
    (alGet c1.functions "main" = none →
        compile fuel prog = .error (.compiler "main fn was not defined")) := by
  constructor
  · intro f hf
    unfold compile
    rw [h]
    simp only [Bind.bind, Except.bind, hf, emitOps]
    simp
  · intro hf
    unfold compile
    rw [h]
    simp only [Bind.bind, Except.bind, hf]

/-- Witness for `c4_main_trailer`: both branches at concrete programs
(a one-function program with `main`, and a single struct declaration
without `main`). -/
theorem c4_main_trailer_witness :
    compile 10 [.fn "main" [] (.block [.ret (.lit (.num 0))])] =
      .ok { code := [.jmp 3, .const 0, .ret, .pop 0,
                     .call 0, .jmp 0, .pop 1, .halt], cp := [], sp := [] } ∧
    compile 10 [.structS "S" ["a"]] =
      .error (.compiler "main fn was not defined") := by
  constructor
  · exact (c4_main_trailer 10 [.fn "main" [] (.block [.ret (.lit (.num 0))])]
      _ rfl).1 _ rfl
  · exact (c4_main_trailer 10 [.structS "S" ["a"]] _ rfl).2 rfl

theorem get?_append_cons {α : Type} (pre rest : List α) (x : α) :
    (pre ++ (x :: rest)).get? pre.length = some x := by
  induction pre with
  | nil => rfl
  | cons h t ih => simpa using ih

theorem set_append_right' {α : Type} (a b : List α) (k : Nat) (x : α) :
    (a ++ b).set (a.length + k) x = a ++ b.set k x := by
  induction a with
  | nil => simp
  | cons h t ih =>
      have : t.length + 1 + k = (t.length + k) + 1 := by omega
      simp only [List.cons_append, List.length_cons, this, List.set_cons_succ, ih]

theorem set_last_eq {α : Type} (l : List α) (n : Nat) (x : α)
    (h : l.length = n + 1) : l.set n x = l.dropLast ++ [x] := by
  induction l generalizing n with
  | nil => cases h
  | cons a t ih =>
      cases n with
      | zero =>
          have ht : t = [] := by
            cases t with
            | nil => rfl
            | cons b t2 => simp at h
          subst ht
          rfl
      | succ m =>
          have ht : t.length = m + 1 := by simpa using h
          have hne : t ≠ [] := by
            cases t with
            | nil => simp at ht
            | cons b t2 => simp
          simp only [List.set_cons_succ, ih m ht,
            List.dropLast_cons_of_ne_nil hne, List.cons_append]

theorem set_append_left' {α : Type} (a b : List α) (k : Nat) (x : α)
    (h : k < a.length) : (a ++ b).set k x = a.set k x ++ b := by
  induction a generalizing k with
  | nil => simp at h
  | cons hd t ih =>
      cases k with
      | zero => rfl
      | succ j =>
          have hj : j < t.length := by simpa using h
          simp only [List.cons_append, List.set_cons_succ, ih j hj]

/-- Running the `Deepset(n-1), …, Deepset(0)` sequence emitted for a
return: with frame base at `s0.length` and `n` local slots below the
return value, the run removes the locals and leaves exactly the return
value at slot 0 of the frame. -/
theorem deepset_run (n : Nat) : ∀ (bc : Bytecode) (pre post : List Opcode)
    (s0 ls : List Object) (v : Object) (fr : List BytecodePtr)
    (fb : BytecodePtr) (bps : List (String × Blueprint)),
    bc.code = pre ++ (retDeepsets n (n - 1) ++ post) →
    ls.length = n → fb.location = s0.length →
    Reaches bc
      { stack := s0 ++ (ls ++ [v]), frames := fr ++ [fb], ip := pre.length,
        blueprints := bps }
      { stack := s0 ++ [v], frames := fr ++ [fb], ip := pre.length + n,
        blueprints := bps } := by
  induction n with
  | zero =>
      intro bc pre post s0 ls v fr fb bps hcode hls hfb
      have hls0 : ls = [] := List.length_eq_zero.mp hls
      subst hls0
      simpa using Relation.ReflTransGen.refl
  | succ m ih =>
      intro bc pre post s0 ls v fr fb bps hcode hls hfb
      have hget : bc.code.get? pre.length = some (.deepset m) := by
        rw [hcode]
        have hre : retDeepsets (m + 1) (m + 1 - 1) ++ post =
            .deepset m :: (retDeepsets m (m - 1) ++ post) := by
          rw [Nat.add_sub_cancel]
          rfl
        rw [hre]
        exact get?_append_cons pre _ _
      have hlength : (s0 ++ (ls ++ [v])).length = s0.length + m + 2 := by
        simp [hls]
        omega
      have hlast : (s0 ++ (ls ++ [v])).getLast? = some v := by
        rw [show s0 ++ (ls ++ [v]) = (s0 ++ ls) ++ [v] by simp]
        simp
      have hidx : fb.location + m < (s0 ++ (ls ++ [v])).length := by
        rw [hlength, hfb]; omega
      have hset : (s0 ++ (ls ++ [v])).set (fb.location + m) v =
          (s0 ++ (ls.dropLast ++ [v])) ++ [v] := by
        rw [hfb, set_append_right']
        rw [set_append_left' ls [v] m v (by omega)]
        rw [set_last_eq ls m v hls]
        simp
      have hswap : swapRemove (s0 ++ (ls ++ [v])) (fb.location + m) =
          some (s0 ++ (ls.dropLast ++ [v])) := by
        unfold swapRemove
        rw [hlast]
        simp only [hidx, if_pos, hset]
        simp
      have hstep : step bc
          { stack := s0 ++ (ls ++ [v]), frames := fr ++ [fb],
            ip := pre.length, blueprints := bps } =
          .ok { stack := s0 ++ (ls.dropLast ++ [v]), frames := fr ++ [fb],
                ip := pre.length + 1, blueprints := bps } := by
        have hfr : (fr ++ [fb]).getLast? = some fb := by simp
        simp only [step, hget, hfr, hswap]
      have hcode' : bc.code = (pre ++ [.deepset m]) ++
          (retDeepsets m (m - 1) ++ post) := by
        rw [hcode]
        have hre : retDeepsets (m + 1) (m + 1 - 1) =
            .deepset m :: retDeepsets m (m - 1) := by
          rw [Nat.add_sub_cancel]
          rfl
        rw [hre]
        simp
      have htail := ih bc (pre ++ [.deepset m]) post s0 ls.dropLast v fr fb bps
        hcode' (by simp [hls]) hfb
      rw [show pre.length + (m + 1) = (pre ++ [Opcode.deepset m]).length + m by
        simp
        omega]
      exact Relation.ReflTransGen.head hstep (by simpa using htail)

theorem retDeepsets_eq_range (n : Nat) :
    retDeepsets n (n - 1) = (List.range n).reverse.map Opcode.deepset := by
  induction n with
  | zero => rfl
  | succ m ih =>
      have h1 : retDeepsets (m + 1) (m + 1 - 1) =
          .deepset m :: retDeepsets m (m - 1) := by
        rw [Nat.add_sub_cancel]
        rfl
      rw [h1, ih, List.range_succ]
      simp

/-- C3: compiling `Return e` emits `e`'s code, then — with `n` the
compile-time locals count at that point — exactly `n` `Deepset`
opcodes with operands `n-1, n-2, …, 0` in that order (none when
`n = 0`; the index arithmetic saturates at 0), then `Ret`; and running
that `Deepset` sequence at runtime, with the frame base below `n` local
slots and the return value on top, leaves exactly the return value at
slot 0 of the frame. -/
theorem c3_return_deepsets (fuel : Nat) (e : Expression)
    (c c1 : CompilerState)
    (h : compileStmt (fuel + 1) (.ret e) c = .ok c1) :
    ∃ cE, compileExpr fuel e c = .ok cE ∧
      c1.bytecode.code = cE.bytecode.code ++
        (retDeepsets cE.locals.length (cE.locals.length - 1) ++ [.ret]) ∧
      retDeepsets cE.locals.length (cE.locals.length - 1) =
        (List.range cE.locals.length).reverse.map Opcode.deepset ∧
      (∀ (bc : Bytecode) (pre post : List Opcode) (s0 ls : List Object)
         (v : Object) (fr : List BytecodePtr) (fb : BytecodePtr)
         (bps : List (String × Blueprint)),
         bc.code = pre ++
           (retDeepsets cE.locals.length (cE.locals.length - 1) ++ post) →
         ls.length = cE.locals.length → fb.location = s0.length →
         Reaches bc
           { stack := s0 ++ (ls ++ [v]), frames := fr ++ [fb],
             ip := pre.length, blueprints := bps }
           { stack := s0 ++ [v], frames := fr ++ [fb],
             ip := pre.length + cE.locals.length, blueprints := bps }) := by
  cases hE : compileExpr fuel e c with
  | error err =>
      exfalso
      simp only [compileStmt, hE, Bind.bind, Except.bind] at h
      cases h
  | ok cE =>
      refine ⟨cE, rfl, ?_, retDeepsets_eq_range _, ?_⟩
      · simp only [compileStmt, hE, Bind.bind, Except.bind] at h
        cases h
        simp [emitOps]
      · intro bc pre post s0 ls v fr fb bps hcode hls hfb
        exact deepset_run cE.locals.length bc pre post s0 ls v fr fb bps
          hcode hls hfb

/-- Witness for `c3_return_deepsets`: `return 5` compiled with two
locals in scope emits the expression code, then `Deepset(1),
Deepset(0), Ret`. -/
theorem c3_return_deepsets_witness :
    ∃ cE c1, compileStmt 10 (.ret (.lit (.num 5)))
        { initCompiler with locals := ["a", "b"] } = .ok c1 ∧
      compileExpr 9 (.lit (.num 5))
        { initCompiler with locals := ["a", "b"] } = .ok cE ∧
      c1.bytecode.code = cE.bytecode.code ++
        (retDeepsets cE.locals.length (cE.locals.length - 1) ++ [.ret]) := by
  obtain ⟨cE, h1, h2, _, _⟩ := c3_return_deepsets 9 (.lit (.num 5))
    { initCompiler with locals := ["a", "b"] } _ rfl
  exact ⟨cE, _, rfl, h1, h2⟩

theorem bind_ok {α β : Type} {x : Except Err α} {f : α → Except Err β}
    {b : β} : (x >>= f) = .ok b ↔ ∃ a, x = .ok a ∧ f a = .ok b := by
  cases x <;> simp [Bind.bind, Except.bind]

theorem take_set_of_le {α : Type} (l : List α) (i p : Nat) (x : α)
    (h : p ≤ i) : (l.set i x).take p = l.take p := by
  induction l generalizing i p with
  | nil => simp
  | cons hd t iht =>
      cases i with
      | zero =>
          have hp : p = 0 := Nat.le_zero.mp h
          subst hp
          simp
      | succ j =>
          cases p with
          | zero => simp
          | succ q =>
              simp only [List.set_cons_succ, List.take_succ_cons]
              rw [iht j q (Nat.le_of_succ_le_succ h)]

theorem get?_mono_pre {α : Type} {l1 l2 : List α} {i : Nat} {x : α}
    (hp : l1 <+: l2) (h : l1.get? i = some x) : l2.get? i = some x := by
  obtain ⟨t, rfl⟩ := hp
  rw [List.get?_append (List.get?_eq_some.mp h).1]
  exact h

theorem prefix_emit (c : CompilerState) (ops : List Opcode) :
    c.bytecode.code <+: (emitOps c ops).bytecode.code := ⟨ops, rfl⟩

theorem addString_code (c : CompilerState) (s : String) :
    (addString c s).1.bytecode.code = c.bytecode.code := by
  unfold addString
  split <;> rfl

theorem resolveLocal_code (c : CompilerState) (s : String) :
    (resolveLocal c s).1.bytecode.code = c.bytecode.code := by
  unfold resolveLocal
  split <;> rfl

theorem patchJmp_code (c : CompilerState) (idx : Nat) (c' : CompilerState)
    (h : patchJmp c idx = .ok c') :
    c'.bytecode.code.length = c.bytecode.code.length ∧
    (∀ p, p ≤ idx → c'.bytecode.code.take p = c.bytecode.code.take p) ∧
    c'.functions = c.functions ∧ c'.locals = c.locals ∧
    c'.pops = c.pops ∧ c'.structs = c.structs ∧ c'.breaks = c.breaks ∧
    c'.loopStarts = c.loopStarts ∧ c'.loopDepths = c.loopDepths ∧
    c'.depth = c.depth ∧ c'.bytecode.sp = c.bytecode.sp ∧
    c'.bytecode.cp = c.bytecode.cp := by
  unfold patchJmp lenMinus1 at h
  simp only [Bind.bind, Except.bind] at h
  split at h
  · cases h
  · split at h
    · cases h
      refine ⟨by simp, fun p hp => take_set_of_le _ _ _ _ hp,
        rfl, rfl, rfl, rfl, rfl, rfl, rfl, rfl, rfl, rfl⟩
    · cases h
      refine ⟨by simp, fun p hp => take_set_of_le _ _ _ _ hp,
        rfl, rfl, rfl, rfl, rfl, rfl, rfl, rfl, rfl, rfl⟩
    · cases h
    · cases h
      exact ⟨rfl, fun p _ => rfl, rfl, rfl, rfl, rfl, rfl, rfl, rfl, rfl,
        rfl, rfl⟩

theorem prefix_of_patch {entry : List Opcode} (c c' : CompilerState)
    (idx : Nat) (h : patchJmp c idx = .ok c')
    (hpre : entry <+: c.bytecode.code) (hidx : entry.length ≤ idx) :
    entry <+: c'.bytecode.code := by
  obtain ⟨hlen, htake, _⟩ := patchJmp_code c idx c' h
  rw [List.prefix_iff_eq_take] at hpre ⊢
  rw [htake entry.length hidx]
  exact hpre

theorem hso_mono (c c' : CompilerState) (op : Tok)
    (h : handleSpecializedOperator c op = .ok c') :
    c.bytecode.code <+: c'.bytecode.code := by
  cases op <;> simp only [handleSpecializedOperator] at h <;>
    first
    | (cases h; exact prefix_emit _ _)
    | cases h

/-- Expression compilation only ever appends to (or patches inside) the
code it emits: the entry code buffer is a prefix of the result. -/
theorem exprCodeMono (fuel : Nat) :
    (∀ e c c', compileExpr fuel e c = .ok c' →
        c.bytecode.code <+: c'.bytecode.code) ∧
    (∀ es c c', compileExprList fuel es c = .ok c' →
        c.bytecode.code <+: c'.bytecode.code) := by
  induction fuel with
  | zero =>
      constructor
      · intro e c c' h; cases h
      · intro es c c' h; cases h
  | succ f ih =>
      obtain ⟨ihE, ihL⟩ := ih
      constructor
      · intro e c c' h
        cases e with
        | lit l =>
            cases l with
            | num n => simp only [compileExpr] at h; cases h; exact prefix_emit _ _
            | str s => simp only [compileExpr] at h; cases h; exact prefix_emit _ _
            | null => simp only [compileExpr] at h; cases h; exact prefix_emit _ _
            | bool b =>
                cases b <;> (simp only [compileExpr] at h; cases h)
                · exact prefix_emit _ _
                · exact prefix_emit _ _
        | var name =>
            simp only [compileExpr] at h
            cases h
            exact (List.prefix_iff_eq_take.mpr (by rw [resolveLocal_code]; simp)).trans
              (prefix_emit _ _)
        | binary kind lhs rhs =>
            simp only [compileExpr, bind_ok] at h
            obtain ⟨c1, h1, h⟩ := h
            obtain ⟨c2, h2, h⟩ := h
            have e2 := (ihE lhs c c1 h1).trans (ihE rhs c1 c2 h2)
            cases kind with
            | add => cases h; exact e2.trans (prefix_emit _ _)
            | sub => cases h; exact e2.trans (prefix_emit _ _)
            | mul => cases h; exact e2.trans (prefix_emit _ _)
            | div => cases h; exact e2.trans (prefix_emit _ _)
            | mod => cases h; exact e2.trans (prefix_emit _ _)
            | less => cases h; exact e2.trans (prefix_emit _ _)
            | greater => cases h; exact e2.trans (prefix_emit _ _)
            | lessEqual => cases h; exact e2.trans (prefix_emit _ _)
            | greaterEqual => cases h; exact e2.trans (prefix_emit _ _)
            | bitwiseAnd => cases h; exact e2.trans (prefix_emit _ _)
            | bitwiseOr => cases h; exact e2.trans (prefix_emit _ _)
            | bitwiseXor => cases h; exact e2.trans (prefix_emit _ _)
            | bitwiseShl => cases h; exact e2.trans (prefix_emit _ _)
            | bitwiseShr => cases h; exact e2.trans (prefix_emit _ _)
            | strcat => cases h; exact e2.trans (prefix_emit _ _)
            | equality negation =>
                cases negation
                · cases h; exact e2.trans (prefix_emit _ _)
                · cases h
                  exact e2.trans ((prefix_emit _ _).trans (prefix_emit _ _))
        | call callee args =>
            cases callee with
            | var vname =>
                simp only [compileExpr] at h
                split at h
                · cases h
                · split at h
                  · cases h
                  · rw [bind_ok] at h
                    obtain ⟨c1, h1, h⟩ := h
                    cases h
                    exact (ihL args c c1 h1).trans
                      ((prefix_emit _ _).trans (prefix_emit _ _))
            | get gexpr gmember gop =>
                simp only [compileExpr, bind_ok] at h
                obtain ⟨c1, h1, h⟩ := h
                obtain ⟨c2, h2, h⟩ := h
                cases h
                have e1 := ihE gexpr c c1 h1
                have e1b : c.bytecode.code <+:
                    (if gop = Tok.arrow then emitOps c1 [.deref] else c1).bytecode.code := by
                  split
                  · exact e1.trans (prefix_emit _ _)
                  · exact e1
                have e2 := e1b.trans (ihL args _ c2 h2)
                have e3 : c2.bytecode.code <+:
                    (addString c2 gmember).1.bytecode.code := by
                  rw [addString_code]
                exact ((e2.trans e3).trans (prefix_emit _ _)).trans
                  ((prefix_emit _ _).trans (prefix_emit _ _))
            | lit l => simp only [compileExpr] at h; cases h
            | binary k l r => simp only [compileExpr] at h; cases h
            | call a b => simp only [compileExpr] at h; cases h
            | assign a b o => simp only [compileExpr] at h; cases h
            | logical a b o => simp only [compileExpr] at h; cases h
            | unary a o => simp only [compileExpr] at h; cases h
            | structE n i => simp only [compileExpr] at h; cases h
            | structInit m v => simp only [compileExpr] at h; cases h
            | vecE el => simp only [compileExpr] at h; cases h
            | sub a b => simp only [compileExpr] at h; cases h
        | assign lhs rhs op =>
            cases lhs with
            | var vname =>
                simp only [compileExpr] at h
                have ecR : (resolveLocal c vname).1.bytecode.code =
                    c.bytecode.code := resolveLocal_code c vname
                split at h
                · rw [bind_ok] at h
                  obtain ⟨c1, h1, h⟩ := h
                  rw [bind_ok] at h
                  obtain ⟨c2, h2, h⟩ := h
                  have p1 : c.bytecode.code <+:
                      (emitOps (resolveLocal c vname).1
                        [.deepget (resolveLocal c vname).2.1]).bytecode.code := by
                    rw [← ecR]
                    exact prefix_emit _ _
                  have e2 : c.bytecode.code <+: c2.bytecode.code :=
                    (p1.trans (ihE rhs _ c1 h1)).trans (hso_mono c1 c2 op h2)
                  split at h
                  · cases h; exact e2.trans (prefix_emit _ _)
                  · split at h
                    · cases h; exact e2
                    · cases h
                · rw [bind_ok] at h
                  obtain ⟨c1, h1, h⟩ := h
                  have e2 : c.bytecode.code <+: c1.bytecode.code := by
                    rw [← ecR]
                    exact ihE rhs _ c1 h1
                  split at h
                  · cases h; exact e2.trans (prefix_emit _ _)
                  · split at h
                    · cases h; exact e2
                    · cases h
            | unary uexpr uop =>
                simp only [compileExpr, bind_ok] at h
                obtain ⟨c1, h1, h⟩ := h
                have e1 := ihE uexpr c c1 h1
                split at h
                · rw [bind_ok] at h
                  obtain ⟨c2, h2, h⟩ := h
                  rw [bind_ok] at h
                  obtain ⟨c3, h3, h⟩ := h
                  cases h
                  exact ((e1.trans (ihE rhs c1 c2 h2)).trans
                    (hso_mono c2 c3 op h3)).trans (prefix_emit _ _)
                · rw [bind_ok] at h
                  obtain ⟨c2, h2, h⟩ := h
                  cases h
                  exact (e1.trans (ihE rhs c1 c2 h2)).trans (prefix_emit _ _)
            | get gexpr gmember gop =>
                simp only [compileExpr, bind_ok] at h
                obtain ⟨c1, h1, h⟩ := h
                have e1b : c.bytecode.code <+:
                    (if gop = Tok.arrow then emitOps c1 [.deref]
                     else c1).bytecode.code := by
                  have e0 := ihE gexpr c c1 h1
                  split
                  · exact e0.trans (prefix_emit _ _)
                  · exact e0
                split at h
                · rw [bind_ok] at h
                  obtain ⟨c2, h2, h⟩ := h
                  rw [bind_ok] at h
                  obtain ⟨c3, h3, h⟩ := h
                  cases h
                  exact ((((e1b.trans (prefix_emit _ _)).trans
                    (ihE rhs _ c2 h2)).trans (hso_mono c2 c3 op h3)).trans
                      (prefix_emit _ _)).trans (prefix_emit _ _)
                · rw [bind_ok] at h
                  obtain ⟨c2, h2, h⟩ := h
                  cases h
                  exact ((e1b.trans (ihE rhs _ c2 h2)).trans
                    (prefix_emit _ _)).trans (prefix_emit _ _)
            | sub sexpr sindex =>
                simp only [compileExpr, bind_ok] at h
                obtain ⟨c1, h1, h⟩ := h
                obtain ⟨c2, h2, h⟩ := h
                have e2 := (ihE sexpr c c1 h1).trans (ihE sindex c1 c2 h2)
                split at h
                · rw [bind_ok] at h
                  obtain ⟨c3, h3, h⟩ := h
                  rw [bind_ok] at h
                  obtain ⟨c4, h4, h⟩ := h
                  rw [bind_ok] at h
                  obtain ⟨c5, h5, h⟩ := h
                  cases h
                  exact ((((e2.trans (ihE _ c2 c3 h3)).trans
                    (ihE rhs c3 c4 h4)).trans (hso_mono c4 c5 op h5)).trans
                      (prefix_emit _ _))
                · rw [bind_ok] at h
                  obtain ⟨c3, h3, h⟩ := h
                  cases h
                  exact (e2.trans (ihE rhs c2 c3 h3)).trans (prefix_emit _ _)
            | lit l => simp only [compileExpr] at h; cases h
            | binary k l r => simp only [compileExpr] at h; cases h
            | call a b => simp only [compileExpr] at h; cases h
            | assign a b o => simp only [compileExpr] at h; cases h
            | logical a b o => simp only [compileExpr] at h; cases h
            | structE n i => simp only [compileExpr] at h; cases h
            | structInit m v => simp only [compileExpr] at h; cases h
            | vecE el => simp only [compileExpr] at h; cases h
        | logical lhs rhs op =>
            simp only [compileExpr, emitOp, bind_ok] at h
            obtain ⟨c1, h1, h⟩ := h
            have e1 := ihE lhs c c1 h1
            cases op
            case doubleAmpersand =>
              rw [bind_ok] at h
              obtain ⟨c2, h2, h⟩ := h
              rw [bind_ok] at h
              obtain ⟨c3, h3, h⟩ := h
              have e2 := (e1.trans (prefix_emit c1 _)).trans (ihE rhs _ c2 h2)
              have hj : c.bytecode.code.length ≤ c1.bytecode.code.length :=
                e1.length_le
              have e3 := prefix_of_patch _ c3 _ h3
                (e2.trans (prefix_emit c2 _)) (by simpa using hj)
              exact prefix_of_patch _ c' _ h (e3.trans (prefix_emit c3 _))
                (le_trans e2.length_le (by simp))
            case doublePipe =>
              rw [bind_ok] at h
              obtain ⟨c2, h2, h⟩ := h
              rw [bind_ok] at h
              obtain ⟨c3, h3, h⟩ := h
              have hj : c.bytecode.code.length ≤ c1.bytecode.code.length :=
                e1.length_le
              have e2 := prefix_of_patch _ c2 _ h2
                ((e1.trans (prefix_emit c1 _)).trans
                  ((prefix_emit _ _).trans (prefix_emit _ _)))
                (by simpa using hj)
              have e3 := e2.trans (ihE rhs c2 c3 h3)
              exact prefix_of_patch _ c' _ h e3
                (le_trans (e1.trans (prefix_emit c1 [.jz PLACEHOLDER])).length_le
                  (by simp [emitOps]))
            all_goals cases h
        | unary uexpr op =>
            cases op
            case minus =>
              simp only [compileExpr, bind_ok] at h
              obtain ⟨c1, h1, h⟩ := h
              cases h
              exact (ihE uexpr c c1 h1).trans (prefix_emit _ _)
            case bang =>
              simp only [compileExpr, bind_ok] at h
              obtain ⟨c1, h1, h⟩ := h
              cases h
              exact (ihE uexpr c c1 h1).trans (prefix_emit _ _)
            case star =>
              simp only [compileExpr, bind_ok] at h
              obtain ⟨c1, h1, h⟩ := h
              cases h
              exact (ihE uexpr c c1 h1).trans (prefix_emit _ _)
            case tilde =>
              simp only [compileExpr, bind_ok] at h
              obtain ⟨c1, h1, h⟩ := h
              cases h
              exact (ihE uexpr c c1 h1).trans (prefix_emit _ _)
            case ampersand =>
              cases uexpr with
              | var vname =>
                  simp only [compileExpr] at h
                  cases h
                  have ecR : (resolveLocal c vname).1.bytecode.code =
                      c.bytecode.code := resolveLocal_code c vname
                  rw [← ecR]
                  exact prefix_emit _ _
              | get gexpr gmember gop =>
                  simp only [compileExpr, bind_ok] at h
                  obtain ⟨c1, h1, h⟩ := h
                  cases h
                  have e1 := ihE gexpr c c1 h1
                  have e1b : c.bytecode.code <+:
                      (if gop = Tok.arrow then emitOps c1 [.deref] else c1).bytecode.code := by
                    split
                    · exact e1.trans (prefix_emit _ _)
                    · exact e1
                  exact e1b.trans (prefix_emit _ _)
              | lit l => simp only [compileExpr] at h; cases h
              | binary k l r => simp only [compileExpr] at h; cases h
              | call a b => simp only [compileExpr] at h; cases h
              | assign a b o => simp only [compileExpr] at h; cases h
              | logical a b o => simp only [compileExpr] at h; cases h
              | unary a o => simp only [compileExpr] at h; cases h
              | structE n i => simp only [compileExpr] at h; cases h
              | structInit m v => simp only [compileExpr] at h; cases h
              | vecE el => simp only [compileExpr] at h; cases h
              | sub a b => simp only [compileExpr] at h; cases h
            all_goals (simp only [compileExpr] at h; cases h)
        | get gexpr gmember gop =>
            simp only [compileExpr, bind_ok] at h
            obtain ⟨c1, h1, h⟩ := h
            cases h
            have e1 := ihE gexpr c c1 h1
            have e1b : c.bytecode.code <+:
                (if gop = Tok.arrow then emitOps c1 [.deref] else c1).bytecode.code := by
              split
              · exact e1.trans (prefix_emit _ _)
              · exact e1
            exact e1b.trans (prefix_emit _ _)
        | structE sname inits =>
            simp only [compileExpr] at h
            split at h
            · cases h
            · split at h
              · cases h
              · exact (prefix_emit c _).trans (ihL inits _ c' h)
        | structInit member value =>
            simp only [compileExpr, bind_ok] at h
            obtain ⟨c1, h1, h⟩ := h
            have e1 := ihE value c c1 h1
            split at h
            · cases h; exact e1.trans (prefix_emit _ _)
            · cases h
        | vecE elements =>
            simp only [compileExpr, bind_ok] at h
            obtain ⟨c1, h1, h⟩ := h
            cases h
            exact (ihL elements.reverse c c1 h1).trans (prefix_emit _ _)
        | sub sexpr sindex =>
            simp only [compileExpr, bind_ok] at h
            obtain ⟨c1, h1, h⟩ := h
            obtain ⟨c2, h2, h⟩ := h
            cases h
            exact ((ihE sexpr c c1 h1).trans (ihE sindex c1 c2 h2)).trans
              (prefix_emit _ _)
      · intro es c c' h
        cases es with
        | nil => simp only [compileExprList] at h; cases h; exact List.prefix_rfl
        | cons e rest =>
            simp only [compileExprList, bind_ok] at h
            obtain ⟨c1, h1, h⟩ := h
            exact (ihE e c c1 h1).trans (ihL rest c1 c' h)

theorem popIntoVec_append (s t : List Object) :
    popIntoVec (s ++ t) t.length = some (t.reverse, s) := by
  simp [popIntoVec]

/-- Compiling a list of expressions in sequence concatenates their
segments; running the result pushes their values in compile order. -/
theorem pushSegFold (fuel : Nat) :
    ∀ (es : List Expression) (c c' : CompilerState) (code : List Opcode)
      (cp : List ℚ) (sp : List String) (vs : List Object) (B : Nat),
      compileExprList fuel es c = .ok c' →
      c'.bytecode.code <+: code →
      List.Forall₂ (fun e v => ∀ (f2 : Nat) (d d' : CompilerState),
          compileExpr f2 e d = .ok d' → d'.bytecode.code <+: code →
          PushSeg ⟨code, cp, sp⟩ B d.bytecode.code.length
            d'.bytecode.code.length v) es vs →
      ∀ (s : List Object) (fr : List BytecodePtr)
        (bps : List (String × Blueprint)),
        s.length + (B + es.length) ≤ STACK_MIN →
        Reaches ⟨code, cp, sp⟩
          { stack := s, frames := fr, ip := c.bytecode.code.length,
            blueprints := bps }
          { stack := s ++ vs, frames := fr, ip := c'.bytecode.code.length,
            blueprints := bps } := by
  induction fuel with
  | zero =>
      intro es c c' code cp sp vs B h
      cases h
  | succ f ih =>
      intro es c c' code cp sp vs B h hpre hF s fr bps hlen
      cases es with
      | nil =>
          cases hF
          cases h
          simpa using Relation.ReflTransGen.refl
      | cons e rest =>
          simp only [compileExprList] at h
          rw [bind_ok] at h
          obtain ⟨c1, h1, h⟩ := h
          cases hF with
          | cons hv hrest =>
              rename_i v vrest
              have pre1 : c1.bytecode.code <+: code :=
                ((exprCodeMono f).2 rest c1 c' h).trans hpre
              have r1 := hv f c c1 h1 pre1 s fr bps (by simp at hlen ⊢; omega)
              have r2 := ih rest c1 c' code cp sp vrest B h hpre hrest
                (s ++ [v]) fr bps (by simp at hlen ⊢; omega)
              refine Relation.ReflTransGen.trans r1 ?_
              simpa [List.append_assoc] using r2

/-- C8: a vec literal's elements are compiled in reverse source order
followed by `Vec(n)`; the VM's `Vec(n)` handler pops the `n` values
back into a vector, so the two reversals cancel: whenever each element
expression's compiled segment pushes its value `valsᵢ` (hypothesis
`hF`, aligned with the elements in source order), the whole literal's
segment pushes exactly `Vec vals` — the element at index i of the
vector is the value of the (i+1)-st source element. -/
theorem c8_vec_literal (fuel : Nat) (elems : List Expression)
    (c0 c1 : CompilerState)
    (h : compileExpr (fuel + 1) (.vecE elems) c0 = .ok c1)
    (code : List Opcode) (cp : List ℚ) (sp : List String)
    (hpre : c1.bytecode.code <+: code)
    (vals : List Object) (B : Nat)
    (hF : List.Forall₂ (fun e v => ∀ (f2 : Nat) (d d' : CompilerState),
        compileExpr f2 e d = .ok d' → d'.bytecode.code <+: code →
        PushSeg ⟨code, cp, sp⟩ B d.bytecode.code.length
          d'.bytecode.code.length v) elems vals) :
    vals.length = elems.length ∧
    PushSeg ⟨code, cp, sp⟩ (B + (elems.length + 1))
      c0.bytecode.code.length c1.bytecode.code.length (.vecObj vals) := by
  have hlen := hF.length_eq
  refine ⟨hlen.symm, ?_⟩
  simp only [compileExpr] at h
  rw [bind_ok] at h
  obtain ⟨cMid, hM, h⟩ := h
  cases h
  intro s fr bps hs
  have hpreM : cMid.bytecode.code <+: code :=
    (prefix_emit cMid [.vec elems.length]).trans hpre
  have r1 := pushSegFold fuel elems.reverse c0 cMid code cp sp vals.reverse B
    hM hpreM (List.rel_reverse hF) s fr bps
    (by simp only [List.length_reverse]; omega)
  have hop : code.get? cMid.bytecode.code.length =
      some (.vec elems.length) :=
    get?_mono_pre hpre (by exact get?_append_cons cMid.bytecode.code [] _)
  have hpop : popIntoVec (s ++ vals.reverse) elems.length =
      some (vals, s) := by
    have := popIntoVec_append s vals.reverse
    simpa [hlen.symm] using this
  have hpush : stackPush s (Object.vecObj vals) = some (s ++ [.vecObj vals]) :=
    stackPush_of_lt s _ (by unfold STACK_MIN at hs ⊢; omega)
  have hstep : step ⟨code, cp, sp⟩
      { stack := s ++ vals.reverse, frames := fr,
        ip := cMid.bytecode.code.length, blueprints := bps } =
      .ok { stack := s ++ [.vecObj vals], frames := fr,
            ip := cMid.bytecode.code.length + 1, blueprints := bps } := by
    simp only [step, hop, hpop, hpush]
  have hiplen : (emitOps cMid [Opcode.vec elems.length]).bytecode.code.length =
      cMid.bytecode.code.length + 1 := by
    simp [emitOps]
  rw [hiplen]
  exact Relation.ReflTransGen.trans r1
    (Relation.ReflTransGen.single hstep)

/-- Witness for `c8_vec_literal`: the literal `[1, 2]`, compiled from a
fresh compiler, whose segment pushes `Vec [1, 2]` aligned with the
source order. -/
theorem c8_vec_literal_witness :
    ∃ c1, compileExpr 5 (.vecE [.lit (.num 1), .lit (.num 2)])
        initCompiler = .ok c1 ∧
      ([Object.number 1, Object.number 2] : List Object).length =
        ([Expression.lit (.num 1), Expression.lit (.num 2)] : List Expression).length ∧
      PushSeg ⟨c1.bytecode.code, [], []⟩ (1 + (2 + 1)) 0
        c1.bytecode.code.length
        (.vecObj [.number 1, .number 2]) := by
  have hlit : ∀ (k : ℚ), ∀ (f2 : Nat) (d d' : CompilerState),
      compileExpr f2 (.lit (.num k)) d = .ok d' →
      d'.bytecode.code <+: [Opcode.const 2, Opcode.const 1, Opcode.vec 2] →
      PushSeg ⟨[Opcode.const 2, Opcode.const 1, Opcode.vec 2], [], []⟩ 1
        d.bytecode.code.length d'.bytecode.code.length (.number k) := by
    intro k f2 d d' hc hp s fr bps hsl
    cases f2 with
    | zero => cases hc
    | succ f3 =>
        simp only [compileExpr] at hc
        cases hc
        have hop : ([Opcode.const 2, Opcode.const 1, Opcode.vec 2] :
            List Opcode).get? d.bytecode.code.length = some (.const k) :=
          get?_mono_pre hp (by exact get?_append_cons d.bytecode.code [] _)
        have hpush : stackPush s (Object.number k) = some (s ++ [.number k]) :=
          stackPush_of_lt s _ (by omega)
        refine Relation.ReflTransGen.single ?_
        show step _ _ = _
        simp only [step, hop, hpush]
        have : (emitOps d [Opcode.const k]).bytecode.code.length =
            d.bytecode.code.length + 1 := by simp [emitOps]
        rw [this]
  have h := c8_vec_literal 4 [.lit (.num 1), .lit (.num 2)] initCompiler _
    rfl [Opcode.const 2, Opcode.const 1, Opcode.vec 2] [] []
    (by exact ⟨[], by simp [emitOps, initCompiler]⟩)
    [.number 1, .number 2] 1
    (List.Forall₂.cons (hlit 1) (List.Forall₂.cons (hlit 2) List.Forall₂.nil))
  exact ⟨_, rfl, h.1, h.2⟩

theorem u32e_length (v : Nat) : (u32e v).length = 4 := rfl

theorem u32e_raw (v : Nat) : ∀ x ∈ u32e v, ∃ b, x = .raw b := by
  intro x hx
  simp only [u32e, List.mem_cons, List.mem_singleton] at hx
  rcases hx with h | h | h | h | h
  all_goals first
    | (exact ⟨_, h⟩)
    | cases h

theorem flatMap_u32e_raw (l : List Nat) :
    ∀ x ∈ l.flatMap u32e, ∃ b, x = .raw b := by
  intro x hx
  rw [List.mem_flatMap] at hx
  obtain ⟨v, _, hv⟩ := hx
  exact u32e_raw v x hv

theorem Wf_append {a b : List Opcode} (ha : Wf a) (hb : Wf b) :
    Wf (a ++ b) := by
  induction ha with
  | nil => simpa using hb
  | simple op h rest _ ih => exact Wf.simple op h _ ih
  | callm x y rest _ ih =>
      have := Wf.callm x y (rest ++ b) ih
      simpa [List.append_assoc] using this
  | sb x idxs hlen rest _ ih =>
      have := Wf.sb x idxs hlen (rest ++ b) ih
      simpa [List.append_assoc] using this
  | impl x ms hlen rest _ ih =>
      have := Wf.impl x ms hlen (rest ++ b) ih
      simpa [List.append_assoc] using this

theorem Wf_of_all_simple (l : List Opcode)
    (h : ∀ op ∈ l, opSimple op = true) : Wf l := by
  induction l with
  | nil => exact Wf.nil
  | cons op rest ih =>
      exact Wf.simple op (h op (by simp)) rest
        (ih fun x hx => h x (by simp [hx]))

theorem Wf_head_not_raw {l : List Opcode} (h : Wf l) (b : Nat) :
    l.get? 0 ≠ some (.raw b) := by
  cases h with
  | nil => simp
  | simple op hop rest _ =>
      intro hc
      simp only [List.get?_cons_zero, Option.some.injEq] at hc
      subst hc
      simp [opSimple] at hop
  | callm x y rest _ => simp
  | sb x idxs hlen rest _ => simp
  | impl x ms hlen rest _ => simp

theorem not_isStart_of_raw {code : List Opcode} {p : Nat} {b : Nat}
    (h : code.get? p = some (.raw b)) : ¬ IsStart code p := by
  rintro ⟨⟨pre, suf, hsplit, hlen, _, hsuf⟩, _⟩
  subst hsplit
  subst hlen
  have hs0 : suf.get? 0 = some (.raw b) := by
    rw [← h]
    rw [List.get?_append_right (le_refl pre.length)]
    simp
  exact Wf_head_not_raw hsuf b hs0

theorem Boundary_append {code : List Opcode} {p : Nat} (ext : List Opcode)
    (h : Boundary code p) (hext : Wf ext) : Boundary (code ++ ext) p := by
  obtain ⟨pre, suf, hsplit, hlen, hpre, hsuf⟩ := h
  exact ⟨pre, suf ++ ext, by rw [hsplit]; simp, hlen, hpre, Wf_append hsuf hext⟩

theorem Boundary_end {code : List Opcode} (h : Wf code) :
    Boundary code code.length :=
  ⟨code, [], by simp, rfl, h, Wf.nil⟩

theorem Boundary_le {code : List Opcode} {p : Nat} (h : Boundary code p) :
    p ≤ code.length := by
  obtain ⟨pre, suf, hsplit, hlen, _, _⟩ := h
  rw [hsplit, ← hlen]
  simp

theorem raw_block_skip {blk rest : List Opcode} {j : Nat} {y : Opcode}
    (hblk : ∀ x ∈ blk, ∃ b, x = .raw b)
    (hj : (blk ++ rest).get? j = some y) (hy : ∀ b, y ≠ .raw b) :
    blk.length ≤ j := by
  by_contra hc
  push_neg at hc
  rw [List.get?_append hc] at hj
  obtain ⟨b, hb⟩ := hblk y (List.get?_mem hj)
  exact hy b hb

theorem set_skip_raw_block {blk rest : List Opcode} {j : Nat} (z : Opcode)
    (hle : blk.length ≤ j) :
    (blk ++ rest).set j z = blk ++ rest.set (j - blk.length) z := by
  have : j = blk.length + (j - blk.length) := by omega
  rw [this, set_append_right']
  congr 1
  congr 1
  omega

theorem Wf_set_jump {l : List Opcode} {idx : Nat} {x : Nat} {y : Opcode}
    (hl : Wf l)
    (hg : l.get? idx = some (.jmp x) ∨ l.get? idx = some (.jz x))
    (hy : opSimple y = true) : Wf (l.set idx y) := by
  induction hl generalizing idx with
  | nil => rcases hg with hg | hg <;> simp at hg
  | simple op hop rest hrest ih =>
      cases idx with
      | zero => exact Wf.simple y hy rest hrest
      | succ j =>
          simp only [List.get?_cons_succ] at hg
          exact Wf.simple op hop _ (ih hg)
  | callm a b rest hrest ih =>
      cases idx with
      | zero => rcases hg with hg | hg <;> simp at hg
      | succ j =>
          have hraw : ∀ x2 ∈ u32e a ++ u32e b, ∃ b2, x2 = .raw b2 := by
            intro x2 hx2
            rw [List.mem_append] at hx2
            rcases hx2 with h2 | h2
            · exact u32e_raw a x2 h2
            · exact u32e_raw b x2 h2
          simp only [List.get?_cons_succ] at hg
          have hg' : (u32e a ++ u32e b ++ rest).get? j = some (.jmp x) ∨
              (u32e a ++ u32e b ++ rest).get? j = some (.jz x) := by
            rcases hg with hg | hg
            · left; rw [← hg]; simp [List.append_assoc]
            · right; rw [← hg]; simp [List.append_assoc]
          have hle : (u32e a ++ u32e b).length ≤ j := by
            rcases hg' with hg' | hg'
            · exact raw_block_skip hraw hg' (by intro b2 hb2; cases hb2)
            · exact raw_block_skip hraw hg' (by intro b2 hb2; cases hb2)
          have h8 : (u32e a ++ u32e b).length = 8 := rfl
          have hrest' : rest.get? (j - 8) = some (.jmp x) ∨
              rest.get? (j - 8) = some (.jz x) := by
            rcases hg' with hg' | hg'
            · left
              rw [List.get?_append_right (by omega : (u32e a ++ u32e b).length ≤ j)] at hg'
              rw [← hg']
              congr 1
            · right
              rw [List.get?_append_right (by omega : (u32e a ++ u32e b).length ≤ j)] at hg'
              rw [← hg']
              congr 1
          have hset : (Opcode.callMethod :: (u32e a ++ (u32e b ++ rest))).set (j + 1) y =
              .callMethod :: (u32e a ++ (u32e b ++ rest.set (j - 8) y)) := by
            have e1 : u32e a ++ (u32e b ++ rest) = (u32e a ++ u32e b) ++ rest := by
              simp [List.append_assoc]
            rw [List.set_cons_succ, e1, set_skip_raw_block y (by omega), h8]
            simp [List.append_assoc]
          rw [hset]
          exact Wf.callm a b _ (ih hrest')
  | sb a idxs hlen rest hrest ih =>
      cases idx with
      | zero => rcases hg with hg | hg <;> simp at hg
      | succ j =>
          have hraw : ∀ x2 ∈ u32e a ++ u32e idxs.length ++ idxs.flatMap u32e,
              ∃ b2, x2 = .raw b2 := by
            intro x2 hx2
            rw [List.mem_append] at hx2
            rcases hx2 with h2 | h2
            · rw [List.mem_append] at h2
              rcases h2 with h3 | h3
              · exact u32e_raw a x2 h3
              · exact u32e_raw idxs.length x2 h3
            · exact flatMap_u32e_raw idxs x2 h2
          simp only [List.get?_cons_succ] at hg
          have e1 : u32e a ++ (u32e idxs.length ++ (idxs.flatMap u32e ++ rest)) =
              (u32e a ++ u32e idxs.length ++ idxs.flatMap u32e) ++ rest := by
            simp [List.append_assoc]
          have hg' : ((u32e a ++ u32e idxs.length ++ idxs.flatMap u32e) ++ rest).get? j =
              some (.jmp x) ∨
              ((u32e a ++ u32e idxs.length ++ idxs.flatMap u32e) ++ rest).get? j =
              some (.jz x) := by
            rcases hg with hg | hg
            · left; rw [← hg, ← e1]
            · right; rw [← hg, ← e1]
          have hle : (u32e a ++ u32e idxs.length ++ idxs.flatMap u32e).length ≤ j := by
            rcases hg' with hg' | hg'
            · exact raw_block_skip hraw hg' (by intro b2 hb2; cases hb2)
            · exact raw_block_skip hraw hg' (by intro b2 hb2; cases hb2)
          have hrest' : rest.get?
              (j - (u32e a ++ u32e idxs.length ++ idxs.flatMap u32e).length) =
                some (.jmp x) ∨
              rest.get?
              (j - (u32e a ++ u32e idxs.length ++ idxs.flatMap u32e).length) =
                some (.jz x) := by
            rcases hg' with hg' | hg'
            · left
              rw [List.get?_append_right hle] at hg'
              exact hg'
            · right
              rw [List.get?_append_right hle] at hg'
              exact hg'
          have hset : (Opcode.structBlueprint ::
              (u32e a ++ (u32e idxs.length ++ (idxs.flatMap u32e ++ rest)))).set
                (j + 1) y =
              .structBlueprint :: (u32e a ++ (u32e idxs.length ++
                (idxs.flatMap u32e ++ rest.set
                  (j - (u32e a ++ u32e idxs.length ++ idxs.flatMap u32e).length) y))) := by
            rw [List.set_cons_succ, e1, set_skip_raw_block y hle]
            simp [List.append_assoc]
          rw [hset]
          exact Wf.sb a idxs hlen _ (ih hrest')
  | impl a ms hlen rest hrest ih =>
      cases idx with
      | zero => rcases hg with hg | hg <;> simp at hg
      | succ j =>
          have hraw : ∀ x2 ∈ u32e a ++ u32e ms.length ++
              ms.flatMap (fun m => u32e m.1 ++ (u32e m.2.1 ++ u32e m.2.2)),
              ∃ b2, x2 = .raw b2 := by
            intro x2 hx2
            rw [List.mem_append] at hx2
            rcases hx2 with h2 | h2
            · rw [List.mem_append] at h2
              rcases h2 with h3 | h3
              · exact u32e_raw a x2 h3
              · exact u32e_raw ms.length x2 h3
            · rw [List.mem_flatMap] at h2
              obtain ⟨m, _, hm⟩ := h2
              rw [List.mem_append] at hm
              rcases hm with h4 | h4
              · exact u32e_raw m.1 x2 h4
              · rw [List.mem_append] at h4
                rcases h4 with h5 | h5
                · exact u32e_raw m.2.1 x2 h5
                · exact u32e_raw m.2.2 x2 h5
          simp only [List.get?_cons_succ] at hg
          have e1 : u32e a ++ (u32e ms.length ++
              (ms.flatMap (fun m => u32e m.1 ++ (u32e m.2.1 ++ u32e m.2.2)) ++ rest)) =
              (u32e a ++ u32e ms.length ++
                ms.flatMap (fun m => u32e m.1 ++ (u32e m.2.1 ++ u32e m.2.2))) ++ rest := by
            simp [List.append_assoc]
          have hg' : ((u32e a ++ u32e ms.length ++
              ms.flatMap (fun m => u32e m.1 ++ (u32e m.2.1 ++ u32e m.2.2))) ++ rest).get? j =
              some (.jmp x) ∨
              ((u32e a ++ u32e ms.length ++
              ms.flatMap (fun m => u32e m.1 ++ (u32e m.2.1 ++ u32e m.2.2))) ++ rest).get? j =
              some (.jz x) := by
            rcases hg with hg | hg
            · left; rw [← hg, ← e1]
            · right; rw [← hg, ← e1]
          have hle : (u32e a ++ u32e ms.length ++
              ms.flatMap (fun m => u32e m.1 ++ (u32e m.2.1 ++ u32e m.2.2))).length ≤ j := by
            rcases hg' with hg' | hg'
            · exact raw_block_skip hraw hg' (by intro b2 hb2; cases hb2)
            · exact raw_block_skip hraw hg' (by intro b2 hb2; cases hb2)
          have hrest' : rest.get?
              (j - (u32e a ++ u32e ms.length ++
                ms.flatMap (fun m => u32e m.1 ++ (u32e m.2.1 ++ u32e m.2.2))).length) =
                some (.jmp x) ∨
              rest.get?
              (j - (u32e a ++ u32e ms.length ++
                ms.flatMap (fun m => u32e m.1 ++ (u32e m.2.1 ++ u32e m.2.2))).length) =
                some (.jz x) := by
            rcases hg' with hg' | hg'
            · exact Or.inl (by rw [List.get?_append_right hle] at hg'; exact hg')
            · exact Or.inr (by rw [List.get?_append_right hle] at hg'; exact hg')
          have hset : (Opcode.impl ::
              (u32e a ++ (u32e ms.length ++
                (ms.flatMap (fun m => u32e m.1 ++ (u32e m.2.1 ++ u32e m.2.2)) ++ rest)))).set
                (j + 1) y =
              .impl :: (u32e a ++ (u32e ms.length ++
                (ms.flatMap (fun m => u32e m.1 ++ (u32e m.2.1 ++ u32e m.2.2)) ++ rest.set
                  (j - (u32e a ++ u32e ms.length ++
                    ms.flatMap (fun m => u32e m.1 ++ (u32e m.2.1 ++ u32e m.2.2))).length) y))) := by
            rw [List.set_cons_succ, e1, set_skip_raw_block y hle]
            simp [List.append_assoc]
          rw [hset]
          exact Wf.impl a ms hlen _ (ih hrest')

theorem get?_set_self {α : Type} (l : List α) (i : Nat) (x : α)
    (h : i < l.length) : (l.set i x).get? i = some x := by
  simp [List.get?_eq_getElem?, h]

theorem get?_set_other {α : Type} (l : List α) (i j : Nat) (x : α)
    (h : i ≠ j) : (l.set i x).get? j = l.get? j := by
  simp [List.get?_eq_getElem?, List.getElem?_set_ne h]

theorem Boundary_set_jump {code : List Opcode} {p j x : Nat} {y : Opcode}
    (hb : Boundary code p)
    (hg : code.get? j = some (.jmp x) ∨ code.get? j = some (.jz x))
    (hy : opSimple y = true) : Boundary (code.set j y) p := by
  obtain ⟨pre, suf, hsplit, hlen, hpre, hsuf⟩ := hb
  subst hsplit
  by_cases hj : j < pre.length
  · refine ⟨pre.set j y, suf, ?_, by simp [hlen], ?_, hsuf⟩
    · rw [set_append_left' _ _ _ _ hj]
    · refine Wf_set_jump hpre (x := x) ?_ hy
      rcases hg with hg | hg
      · exact Or.inl (by rw [← hg, List.get?_append hj])
      · exact Or.inr (by rw [← hg, List.get?_append hj])
  · push_neg at hj
    refine ⟨pre, suf.set (j - pre.length) y, ?_, hlen, hpre, ?_⟩
    · nth_rewrite 1 [show j = pre.length + (j - pre.length) by omega]
      rw [set_append_right']
    · refine Wf_set_jump hsuf (x := x) ?_ hy
      rcases hg with hg | hg
      · exact Or.inl (by rw [← hg, List.get?_append_right hj])
      · exact Or.inr (by rw [← hg, List.get?_append_right hj])

theorem jmpTarget_none_of_no_jumps {ext : List Opcode} (j : Nat)
    (h : ∀ x ∈ ext, ∀ v, x ≠ .jmp v ∧ x ≠ .jz v) : jmpTarget ext j = none := by
  unfold jmpTarget
  cases hx : ext.get? j with
  | none => rfl
  | some x =>
      have hmem := List.get?_mem hx
      cases x <;> first
        | rfl
        | (exact absurd rfl (h _ hmem _).1)
        | (exact absurd rfl (h _ hmem _).2)

theorem jmpTarget_append_left {code ext : List Opcode} {i : Nat}
    (h : i < code.length) : jmpTarget (code ++ ext) i = jmpTarget code i := by
  unfold jmpTarget
  rw [List.get?_append h]

theorem jmpTarget_append_right {code ext : List Opcode} {i : Nat}
    (h : code.length ≤ i) :
    jmpTarget (code ++ ext) i = jmpTarget ext (i - code.length) := by
  unfold jmpTarget
  rw [List.get?_append_right h]

theorem jmpTarget_set_other {code : List Opcode} {i j : Nat} {y : Opcode}
    (h : i ≠ j) : jmpTarget (code.set i y) j = jmpTarget code j := by
  unfold jmpTarget
  rw [get?_set_other _ _ _ _ h]

theorem GoodTargets_subset {code : List Opcode} {ex ex' : List Nat}
    (h : GoodTargets code ex) (hs : ∀ i ∈ ex, i ∈ ex') :
    GoodTargets code ex' := by
  intro i a ht
  rcases h i a ht with hm | hb
  · exact Or.inl (hs i hm)
  · exact Or.inr hb

theorem Patchable_subset {code : List Opcode} {l l' : List Nat}
    (h : Patchable code l) (hs : ∀ i ∈ l', i ∈ l) : Patchable code l' :=
  fun i hi => h i (hs i hi)

theorem Patchable_append_code {code ext : List Opcode} {l : List Nat}
    (h : Patchable code l) : Patchable (code ++ ext) l := by
  intro i hi
  obtain ⟨x, hx⟩ := h i hi
  rcases hx with hx | hx
  · exact ⟨x, Or.inl (get?_mono_pre ⟨ext, rfl⟩ hx)⟩
  · exact ⟨x, Or.inr (get?_mono_pre ⟨ext, rfl⟩ hx)⟩

theorem GoodTargets_append {code ext : List Opcode} {ex : List Nat}
    (h : GoodTargets code ex) (hWf : Wf ext)
    (hnew : ∀ j a, jmpTarget ext j = some a →
        (code.length + j) ∈ ex ∨ Boundary (code ++ ext) (a + 1)) :
    GoodTargets (code ++ ext) ex := by
  intro i a ht
  by_cases hi : i < code.length
  · rw [jmpTarget_append_left hi] at ht
    rcases h i a ht with hm | hb
    · exact Or.inl hm
    · exact Or.inr (Boundary_append ext hb hWf)
  · push_neg at hi
    rw [jmpTarget_append_right hi] at ht
    have := hnew (i - code.length) a ht
    rwa [Nat.add_sub_cancel' hi] at this

theorem GoodTargets_append_nojump {code ext : List Opcode} {ex : List Nat}
    (h : GoodTargets code ex) (hWf : Wf ext)
    (hnj : ∀ x ∈ ext, ∀ v, x ≠ .jmp v ∧ x ≠ .jz v) :
    GoodTargets (code ++ ext) ex := by
  refine GoodTargets_append h hWf ?_
  intro j a ht
  rw [jmpTarget_none_of_no_jumps j hnj] at ht
  cases ht

theorem GoodTargets_patch {code : List Opcode} {ex ex' : List Nat}
    {j v x : Nat} {y : Opcode} (hWf : Wf code)
    (hg : code.get? j = some (.jmp x) ∨ code.get? j = some (.jz x))
    (h : GoodTargets code ex)
    (hmm : ∀ i ∈ ex, i = j ∨ i ∈ ex')
    (hy : y = Opcode.jmp v ∨ y = Opcode.jz v)
    (hv : v + 1 = code.length) :
    GoodTargets (code.set j y) ex' := by
  have hjlen : j < code.length := by
    rcases hg with hg | hg <;> exact (List.get?_eq_some.mp hg).1
  have hysimple : opSimple y = true := by
    rcases hy with hy | hy <;> simp [hy, opSimple]
  have hWf' : Wf (code.set j y) := Wf_set_jump hWf hg hysimple
  have hbound : Boundary (code.set j y) (v + 1) := by
    rw [hv, show code.length = (code.set j y).length by simp]
    exact Boundary_end hWf'
  intro i a ht
  by_cases hij : i = j
  · subst hij
    have hget : (code.set i y).get? i = some y := get?_set_self _ _ _ hjlen
    unfold jmpTarget at ht
    rw [hget] at ht
    rcases hy with hy | hy <;> rw [hy] at ht <;>
      simp only [Option.some.injEq] at ht <;> subst ht <;> exact Or.inr hbound
  · rw [jmpTarget_set_other (fun he => hij he.symm)] at ht
    rcases h i a ht with hm | hb
    · rcases hmm i hm with rfl | hm'
      · exact absurd rfl hij
      · exact Or.inl hm'
    · exact Or.inr (Boundary_set_jump hb hg hysimple)

theorem Patchable_patch {code : List Opcode} {l : List Nat} {j v : Nat}
    {y : Opcode} (hy : y = Opcode.jmp v ∨ y = Opcode.jz v)
    (h : Patchable code l) : Patchable (code.set j y) l := by
  intro i hi
  obtain ⟨x, hx⟩ := h i hi
  by_cases hij : i = j
  · subst hij
    have hilen : i < code.length := by
      rcases hx with hx | hx <;> exact (List.get?_eq_some.mp hx).1
    refine ⟨v, ?_⟩
    rcases hy with hy | hy <;> rw [hy] <;>
      [exact Or.inl (get?_set_self _ _ _ hilen);
       exact Or.inr (get?_set_self _ _ _ hilen)]
  · rw [get?_set_other _ _ _ _ (fun he => hij he.symm)]
    exact ⟨x, hx⟩

theorem Seg_facts {E : Nat} {a b : List Opcode} (hseg : Seg E a b)
    (hWf : Wf a) (hE : E ≤ a.length) :
    Wf b ∧ E ≤ b.length ∧ b.take E = a.take E ∧
      (∀ p, Boundary a p → Boundary b p) := by
  induction hseg with
  | refl => exact ⟨hWf, hE, rfl, fun _ h => h⟩
  | tail _ hstep ih =>
      obtain ⟨hWfb, hEb, htake, hbound⟩ := ih
      rcases hstep with ⟨ext, rfl, hext⟩ | ⟨j, x, y, hj, hg, hy, rfl⟩
      · refine ⟨Wf_append hWfb hext, by simp; omega, ?_, ?_⟩
        · rw [List.take_append_of_le_length hEb, htake]
        · intro p hp
          exact Boundary_append ext (hbound p hp) hext
      · refine ⟨Wf_set_jump hWfb hg hy, by simpa using hEb, ?_, ?_⟩
        · rw [take_set_of_le _ _ _ _ hj, htake]

        · intro p hp
          exact Boundary_set_jump (hbound p hp) hg hy

theorem Seg_decomp {c : List Opcode} {b : List Opcode}
    (hseg : Seg c.length c b) (hWf : Wf c) :
    ∃ ext, b = c ++ ext ∧ Wf ext := by
  obtain ⟨hWfb, hEb, htake, hbound⟩ := Seg_facts hseg hWf (le_refl _)
  have hb : Boundary b c.length := hbound _ (Boundary_end hWf)
  obtain ⟨pre, suf, hsplit, hlen, _, hsuf⟩ := hb
  have hpre : pre = c := by
    have h1 : b.take c.length = pre := by
      rw [hsplit, ← hlen, List.take_left]
    rw [htake, List.take_length] at h1
    exact h1.symm
  subst hpre
  exact ⟨suf, hsplit, hsuf⟩

theorem Seg_single_append {E : Nat} {a : List Opcode} (ext : List Opcode)
    (hext : Wf ext) : Seg E a (a ++ ext) :=
  Relation.ReflTransGen.single (Or.inl ⟨ext, rfl, hext⟩)

theorem Seg_single_set {E : Nat} {a : List Opcode} {j x : Nat} {y : Opcode}
    (hj : E ≤ j)
    (hg : a.get? j = some (.jmp x) ∨ a.get? j = some (.jz x))
    (hy : opSimple y = true) : Seg E a (a.set j y) :=
  Relation.ReflTransGen.single (Or.inr ⟨j, x, y, hj, hg, hy, rfl⟩)

theorem lenMinus1_ok {c : CompilerState} {v : Nat} (h : lenMinus1 c = .ok v) :
    c.bytecode.code ≠ [] ∧ v = c.bytecode.code.length - 1 := by
  unfold lenMinus1 at h
  by_cases he : c.bytecode.code.isEmpty
  · rw [if_pos he] at h; cases h
  · rw [if_neg he] at h
    cases h
    exact ⟨by simpa [List.isEmpty_iff] using he, rfl⟩

theorem alInsert_mem {α : Type} {l : List (String × α)} {k : String} {v : α} :
    ∀ p ∈ alInsert l k v, p ∈ l ∨ p = (k, v) := by
  intro p hp
  unfold alInsert at hp
  split at hp
  · rw [List.mem_map] at hp
    obtain ⟨q, hq, hpq⟩ := hp
    by_cases hqk : (q.1 == k) = true
    · right
      simp only [hqk, if_true] at hpq
      exact hpq.symm
    · left
      simp only [hqk, if_false] at hpq
      exact hpq ▸ hq
  · rw [List.mem_append] at hp
    rcases hp with hp | hp
    · exact Or.inl hp
    · right; simpa using hp

theorem alInsert_length {α : Type} (l : List (String × α)) (k : String)
    (v : α) : (alInsert l k v).length ≤ l.length + 1 := by
  unfold alInsert
  split
  · simp
  · simp

theorem alModify_mem {α : Type} {l : List (String × α)} {k : String}
    {f : α → α} : ∀ p ∈ alModify l k f, p ∈ l ∨ ∃ q ∈ l, p = (q.1, f q.2) := by
  intro p hp
  unfold alModify at hp
  rw [List.mem_map] at hp
  obtain ⟨q, hq, hpq⟩ := hp
  by_cases hqk : (q.1 == k) = true
  · right
    simp only [hqk, if_true] at hpq
    refine ⟨q, hq, ?_⟩
    have hqk' : q.1 = k := eq_of_beq hqk
    rw [← hpq, hqk']
  · left
    simp only [hqk, if_false] at hpq
    exact hpq ▸ hq

theorem alGet_mem {α : Type} {l : List (String × α)} {k : String} {v : α}
    (h : alGet l k = some v) : ∃ p ∈ l, p.2 = v := by
  unfold alGet at h
  cases hf : l.find? (fun p => p.1 == k) with
  | none => rw [hf] at h; cases h
  | some q =>
      rw [hf] at h
      simp only [Option.map_some', Option.some.injEq] at h
      exact ⟨q, List.mem_of_find?_eq_some hf, h⟩

theorem INV_congr {c c' : CompilerState} {pend : List Nat}
    (hcode : c'.bytecode.code = c.bytecode.code)
    (hbr : c'.breaks = c.breaks) (hfn : c'.functions = c.functions)
    (hls : c'.loopStarts = c.loopStarts) (hst : c'.structs = c.structs)
    (h : INV c pend) : INV c' pend := by
  unfold INV GoodTargets Patchable FunsOk LoopsOk StructsOk
  rw [hcode, hbr, hfn, hls, hst]
  exact h

theorem INV_emitOps_chunk {c : CompilerState} {pend : List Nat}
    {ops : List Opcode} (h : INV c pend) (hWf : Wf ops)
    (hnj : ∀ op ∈ ops, ∀ v, op ≠ .jmp v ∧ op ≠ .jz v) :
    INV (emitOps c ops) pend := by
  obtain ⟨h1, h2, h3, h4, h5, h6⟩ := h
  exact ⟨Wf_append h1 hWf,
    GoodTargets_append_nojump h2 hWf hnj,
    Patchable_append_code h3,
    fun p hp => Boundary_append ops (h4 p hp) hWf,
    fun l hl => Boundary_append ops (h5 l hl) hWf,
    h6⟩

theorem INV_emitOps_simple {c : CompilerState} {pend : List Nat}
    {ops : List Opcode} (h : INV c pend)
    (hops : ∀ op ∈ ops, opSimple op = true)
    (hnj : ∀ op ∈ ops, ∀ v, op ≠ .jmp v ∧ op ≠ .jz v) :
    INV (emitOps c ops) pend :=
  INV_emitOps_chunk h (Wf_of_all_simple ops hops) hnj

theorem jmpTarget_singleton {op : Opcode} {j a : Nat}
    (h : jmpTarget [op] j = some a) :
    j = 0 ∧ (op = .jmp a ∨ op = .jz a) := by
  unfold jmpTarget at h
  cases j with
  | zero =>
      refine ⟨rfl, ?_⟩
      cases op <;> simp_all
  | succ n =>
      simp only [List.get?_cons_succ, List.get?_nil] at h
      cases h

theorem INV_emit_jmp_good {c : CompilerState} {pend : List Nat} {addr : Nat}
    (h : INV c pend) (hb : Boundary c.bytecode.code (addr + 1)) :
    INV (emitOps c [.jmp addr]) pend := by
  obtain ⟨h1, h2, h3, h4, h5, h6⟩ := h
  have hWf : Wf [Opcode.jmp addr] :=
    Wf_of_all_simple _ (by intro op hop; simp at hop; simp [hop, opSimple])
  refine ⟨Wf_append h1 hWf, ?_,
    Patchable_append_code h3,
    fun p hp => Boundary_append _ (h4 p hp) hWf,
    fun l hl => Boundary_append _ (h5 l hl) hWf,
    h6⟩
  refine GoodTargets_append h2 hWf ?_
  intro j a ht
  obtain ⟨rfl, hop⟩ := jmpTarget_singleton ht
  have ha : a = addr := by
    rcases hop with hop | hop
    · cases hop; rfl
    · cases hop
  subst ha
  exact Or.inr (Boundary_append _ hb hWf)

theorem INV_emit_ph {c : CompilerState} {pend : List Nat} {op : Opcode}
    (hop : op = .jmp PLACEHOLDER ∨ op = .jz PLACEHOLDER) (h : INV c pend) :
    INV (emitOps c [op]) (c.bytecode.code.length :: pend) := by
  obtain ⟨h1, h2, h3, h4, h5, h6⟩ := h
  have hsimple : opSimple op = true := by
    rcases hop with hop | hop <;> simp [hop, opSimple]
  have hWf : Wf [op] := Wf_of_all_simple _ (by intro o ho; simp at ho; simp [ho, hsimple])
  have hsub : ∀ i ∈ c.breaks ++ pend,
      i ∈ c.breaks ++ (c.bytecode.code.length :: pend) := by
    intro i hi
    rw [List.mem_append] at hi ⊢
    rcases hi with hi | hi
    · exact Or.inl hi
    · exact Or.inr (List.mem_cons_of_mem _ hi)
  refine ⟨Wf_append h1 hWf, ?_, ?_,
    fun p hp => Boundary_append _ (h4 p hp) hWf,
    fun l hl => Boundary_append _ (h5 l hl) hWf,
    h6⟩
  · refine GoodTargets_append (GoodTargets_subset h2 hsub) hWf ?_
    intro j a ht
    obtain ⟨rfl, _⟩ := jmpTarget_singleton ht
    left
    rw [List.mem_append]
    exact Or.inr (by simp)
  · intro i hi
    rw [List.mem_append] at hi
    rcases hi with hi | hi
    · exact Patchable_append_code (fun i2 hi2 => h3 i2 hi2) i
        (by rw [List.mem_append]; exact Or.inl hi)
    · rcases List.mem_cons.mp hi with rfl | hi
      · refine ⟨PLACEHOLDER, ?_⟩
        have hg : (emitOps c [op]).bytecode.code.get? c.bytecode.code.length =
            some op := get?_append_cons _ [] op
        rcases hop with hop | hop
        · exact Or.inl (by rw [hg, hop])
        · exact Or.inr (by rw [hg, hop])
      · exact Patchable_append_code (fun i2 hi2 => h3 i2 hi2) i
          (by rw [List.mem_append]; exact Or.inr hi)

theorem INV_emit_break {c : CompilerState} {pend : List Nat}
    (h : INV c pend) :
    INV { emitOps c [.jmp PLACEHOLDER] with
            breaks := c.breaks ++ [c.bytecode.code.length] } pend := by
  have h' : INV (emitOps c [.jmp PLACEHOLDER])
      (c.bytecode.code.length :: pend) :=
    INV_emit_ph (Or.inl rfl) h
  obtain ⟨h1, h2, h3, h4, h5, h6⟩ := h'
  have hmemeq : ∀ i, i ∈ (c.breaks ++ [c.bytecode.code.length]) ++ pend ↔
      i ∈ c.breaks ++ (c.bytecode.code.length :: pend) := by
    intro i
    simp only [List.mem_append, List.mem_cons, List.mem_singleton]
    tauto
  exact ⟨h1,
    GoodTargets_subset h2 (fun i hi => (hmemeq i).mpr hi),
    Patchable_subset h3 (fun i hi => (hmemeq i).mp hi),
    h4, h5, h6⟩

theorem patch_ok {c : CompilerState} {j x : Nat}
    (hg : c.bytecode.code.get? j = some (.jmp x) ∨
          c.bytecode.code.get? j = some (.jz x)) :
    ∃ y v, (y = Opcode.jmp v ∨ y = Opcode.jz v) ∧
      v + 1 = c.bytecode.code.length ∧
      patchJmp c j = .ok { c with bytecode :=
        { c.bytecode with code := c.bytecode.code.set j y } } := by
  have hjlen : j < c.bytecode.code.length := by
    rcases hg with hg | hg <;> exact (List.get?_eq_some.mp hg).1
  have hne : ¬ c.bytecode.code.isEmpty := by
    rw [List.isEmpty_iff]
    intro he
    rw [he] at hjlen
    simp at hjlen
  have hlm : lenMinus1 c = .ok (c.bytecode.code.length - 1) := by
    unfold lenMinus1
    rw [if_neg hne]
  rcases hg with hg | hg
  · refine ⟨.jmp (c.bytecode.code.length - 1), c.bytecode.code.length - 1,
      Or.inl rfl, by omega, ?_⟩
    simp only [patchJmp, Bind.bind, Except.bind, hlm, hg]
  · refine ⟨.jz (c.bytecode.code.length - 1), c.bytecode.code.length - 1,
      Or.inr rfl, by omega, ?_⟩
    simp only [patchJmp, Bind.bind, Except.bind, hlm, hg]

theorem INV_patch {c : CompilerState} {pend : List Nat} {j : Nat}
    (h : INV c (j :: pend)) :
    ∃ c', patchJmp c j = .ok c' ∧ INV c' pend ∧
      c'.breaks = c.breaks ∧ c'.loopStarts = c.loopStarts ∧
      c'.functions = c.functions ∧ c'.locals = c.locals ∧
      c'.pops = c.pops ∧ c'.structs = c.structs ∧
      c'.loopDepths = c.loopDepths ∧ c'.depth = c.depth ∧
      c'.bytecode.code.length = c.bytecode.code.length ∧
      (∀ p, Boundary c.bytecode.code p → Boundary c'.bytecode.code p) ∧
      (∀ E, E ≤ j → Seg E c.bytecode.code c'.bytecode.code) := by
  obtain ⟨h1, h2, h3, h4, h5, h6⟩ := h
  have hj : j ∈ c.breaks ++ (j :: pend) := by simp
  obtain ⟨x, hg⟩ := h3 j hj
  obtain ⟨y, v, hy, hv, hp⟩ := patch_ok hg
  have hysimple : opSimple y = true := by
    rcases hy with hy | hy <;> simp [hy, opSimple]
  refine ⟨_, hp, ?_, rfl, rfl, rfl, rfl, rfl, rfl, rfl, rfl, by simp, ?_, ?_⟩
  · refine ⟨Wf_set_jump h1 hg hysimple, ?_, ?_, ?_, ?_, h6⟩
    · refine GoodTargets_patch h1 hg h2 ?_ hy hv
      intro i hi
      rw [List.mem_append] at hi
      rcases hi with hi | hi
      · exact Or.inr (by rw [List.mem_append]; exact Or.inl hi)
      · rcases List.mem_cons.mp hi with rfl | hi
        · exact Or.inl rfl
        · exact Or.inr (by rw [List.mem_append]; exact Or.inr hi)
    · refine Patchable_patch hy (Patchable_subset h3 ?_)
      intro i hi
      rw [List.mem_append] at hi ⊢
      rcases hi with hi | hi
      · exact Or.inl hi
      · exact Or.inr (List.mem_cons_of_mem _ hi)
    · intro p hp2
      exact Boundary_set_jump (h4 p hp2) hg hysimple
    · intro l hl
      exact Boundary_set_jump (h5 l hl) hg hysimple
  · intro p hp2
    exact Boundary_set_jump hp2 hg hysimple
  · intro E hE
    exact Seg_single_set hE hg hysimple

theorem INV_loopStarts {c : CompilerState} {pend : List Nat} {S : List Nat}
    (h : INV c pend)
    (hS : ∀ l ∈ S, l ∈ c.loopStarts ∨ Boundary c.bytecode.code (l + 1)) :
    INV { c with loopStarts := S } pend := by
  obtain ⟨h1, h2, h3, h4, h5, h6⟩ := h
  refine ⟨h1, h2, h3, h4, ?_, h6⟩
  intro l hl
  rcases hS l hl with hl' | hb
  · exact h5 l hl'
  · exact hb

theorem INV_funs_insert {c : CompilerState} {pend : List Nat} {name : String}
    {f : Function} (h : INV c pend)
    (hb : Boundary c.bytecode.code (f.location + 1)) :
    INV { c with functions := alInsert c.functions name f } pend := by
  obtain ⟨h1, h2, h3, h4, h5, h6⟩ := h
  refine ⟨h1, h2, h3, ?_, h5, h6⟩
  intro p hp
  rcases alInsert_mem p hp with hp' | rfl
  · exact h4 p hp'
  · exact hb

theorem INV_funs_localscount {c : CompilerState} {pend : List Nat}
    {name : String} {lc : Nat} (h : INV c pend) :
    INV { c with functions := alModify c.functions name (fun g => { g with localscount := lc }) } pend := by
  obtain ⟨h1, h2, h3, h4, h5, h6⟩ := h
  refine ⟨h1, h2, h3, ?_, h5, h6⟩
  intro p hp
  have hp2 : p ∈ alModify c.functions name (fun g => { g with localscount := lc }) := hp
  rcases alModify_mem p hp2 with hp' | ⟨q, hq, rfl⟩
  · exact h4 p hp'
  · exact h4 q hq

theorem INV_structs_insert {c : CompilerState} {pend : List Nat}
    {name : String} {bp : Blueprint} (h : INV c pend)
    (hm : bp.methods = []) :
    INV { c with structs := alInsert c.structs name bp } pend := by
  obtain ⟨h1, h2, h3, h4, h5, h6⟩ := h
  refine ⟨h1, h2, h3, h4, h5, ?_⟩
  intro p hp
  rcases alInsert_mem p hp with hp' | rfl
  · exact h6 p hp'
  · exact hm

theorem Ext_refl (c : CompilerState) : Ext c c := by
  refine ⟨⟨[], by simp, Wf.nil⟩, rfl, List.prefix_refl _, ?_, fun _ => rfl⟩
  intro p hp
  rw [List.drop_length] at hp
  cases hp

theorem Ext_trans {a b c : CompilerState} (h1 : Ext a b) (h2 : Ext b c) :
    Ext a c := by
  obtain ⟨⟨e1, he1, hw1⟩, hl1, hp1, hs1, hz1⟩ := h1
  obtain ⟨⟨e2, he2, hw2⟩, hl2, hp2, hs2, hz2⟩ := h2
  refine ⟨⟨e1 ++ e2, by rw [he2, he1, List.append_assoc], Wf_append hw1 hw2⟩,
    hl2.trans hl1, hp1.trans hp2, ?_, ?_⟩
  · intro p hp
    obtain ⟨t1, ht1⟩ := hp1
    obtain ⟨t2, ht2⟩ := hp2
    have hd : c.breaks.drop a.breaks.length = t1 ++ t2 := by
      rw [← ht2, ← ht1, List.append_assoc]
      exact List.drop_left _ _
    rw [hd, List.mem_append] at hp
    rcases hp with hp | hp
    · refine hs1 p ?_
      rw [← ht1]
      simpa [List.drop_left] using hp
    · have hb := hs2 p (by rw [← ht2]; simpa [List.drop_left] using hp)
      have hlen : a.bytecode.code.length ≤ b.bytecode.code.length := by
        rw [he1]; simp
      omega
  · intro hz
    have hb := hz1 hz
    have hbz : b.loopStarts = [] := by rw [hl1, hz]
    rw [hz2 hbz, hb]

theorem Concl_refl {c : CompilerState} {pend : List Nat} (h : INV c pend) :
    Concl c c pend := ⟨h, Ext_refl c⟩

theorem Concl_trans {a b c : CompilerState} {pend : List Nat}
    (h1 : Concl a b pend) (h2 : Concl b c pend) : Concl a c pend :=
  ⟨h2.1, Ext_trans h1.2 h2.2⟩

theorem Ext_emitOps (c : CompilerState) (ops : List Opcode) (hWf : Wf ops) :
    Ext c (emitOps c ops) := by
  refine ⟨⟨ops, rfl, hWf⟩, rfl, List.prefix_refl _, ?_, fun _ => rfl⟩
  intro p hp
  simp only [emitOps] at hp
  rw [List.drop_length] at hp
  cases hp

theorem Concl_emitOps {c : CompilerState} {pend : List Nat}
    {ops : List Opcode} (h : INV c pend) (hWf : Wf ops)
    (hnj : ∀ op ∈ ops, ∀ v, op ≠ .jmp v ∧ op ≠ .jz v) :
    Concl c (emitOps c ops) pend :=
  ⟨INV_emitOps_chunk h hWf hnj, Ext_emitOps c ops hWf⟩

theorem Concl_emit1 {c : CompilerState} {pend : List Nat} {op : Opcode}
    (h : INV c pend) (hop : opSimple op = true)
    (hnj : ∀ v, op ≠ .jmp v ∧ op ≠ .jz v) :
    Concl c (emitOps c [op]) pend := by
  refine Concl_emitOps h (Wf_of_all_simple _ ?_) ?_
  · intro o ho
    rw [List.mem_singleton] at ho
    rw [ho]; exact hop
  · intro o ho
    rw [List.mem_singleton] at ho
    rw [ho]; exact hnj

theorem Concl_emit2 {c : CompilerState} {pend : List Nat} {op1 op2 : Opcode}
    (h : INV c pend) (hop1 : opSimple op1 = true) (hop2 : opSimple op2 = true)
    (hnj1 : ∀ v, op1 ≠ .jmp v ∧ op1 ≠ .jz v)
    (hnj2 : ∀ v, op2 ≠ .jmp v ∧ op2 ≠ .jz v) :
    Concl c (emitOps c [op1, op2]) pend := by
  have hmem : ∀ o ∈ [op1, op2], o = op1 ∨ o = op2 := by
    intro o ho
    rcases List.mem_cons.mp ho with rfl | ho2
    · exact Or.inl rfl
    · rw [List.mem_singleton] at ho2
      exact Or.inr ho2
  refine Concl_emitOps h (Wf_of_all_simple _ ?_) ?_
  · intro o ho
    rcases hmem o ho with rfl | rfl
    · exact hop1
    · exact hop2
  · intro o ho
    rcases hmem o ho with rfl | rfl
    · exact hnj1
    · exact hnj2

theorem Concl_emit_jmp {c : CompilerState} {pend : List Nat} {addr : Nat}
    (h : INV c pend) (hb : Boundary c.bytecode.code (addr + 1)) :
    Concl c (emitOps c [.jmp addr]) pend := by
  refine ⟨INV_emit_jmp_good h hb, Ext_emitOps c _ (Wf_of_all_simple _ ?_)⟩
  intro o ho
  rw [List.mem_singleton] at ho
  rw [ho]; rfl

theorem SimpleExt_refl (c : CompilerState) : SimpleExt c c :=
  ⟨⟨[], by simp, by intro op hop; cases hop⟩, rfl, rfl, rfl, rfl⟩

theorem SimpleExt_trans {a b c : CompilerState} (h1 : SimpleExt a b)
    (h2 : SimpleExt b c) : SimpleExt a c := by
  obtain ⟨⟨e1, he1, hs1⟩, hf1, hb1, hl1, ht1⟩ := h1
  obtain ⟨⟨e2, he2, hs2⟩, hf2, hb2, hl2, ht2⟩ := h2
  refine ⟨⟨e1 ++ e2, by rw [he2, he1, List.append_assoc], ?_⟩,
    hf2.trans hf1, hb2.trans hb1, hl2.trans hl1, ht2.trans ht1⟩
  intro op hop
  rw [List.mem_append] at hop
  rcases hop with hop | hop
  · exact hs1 op hop
  · exact hs2 op hop

theorem SimpleExt_emitOps (c : CompilerState) {ops : List Opcode}
    (hops : ∀ op ∈ ops, opSimple op = true ∧ ∀ v, op ≠ .jmp v ∧ op ≠ .jz v) :
    SimpleExt c (emitOps c ops) :=
  ⟨⟨ops, rfl, hops⟩, rfl, rfl, rfl, rfl⟩

theorem SimpleExt_emit1 (c : CompilerState) {op : Opcode}
    (hop : opSimple op = true) (hnj : ∀ v, op ≠ .jmp v ∧ op ≠ .jz v) :
    SimpleExt c (emitOps c [op]) := by
  refine SimpleExt_emitOps c ?_
  intro o ho
  rw [List.mem_singleton] at ho
  exact ho ▸ ⟨hop, hnj⟩

theorem Concl_of_SimpleExt {c c' : CompilerState} {pend : List Nat}
    (h : INV c pend) (hs : SimpleExt c c') : Concl c c' pend := by
  obtain ⟨⟨ext, hcode, hext⟩, hfn, hbr, hls, hst⟩ := hs
  obtain ⟨h1, h2, h3, h4, h5, h6⟩ := h
  have hWf : Wf ext := Wf_of_all_simple ext (fun op hop => (hext op hop).1)
  refine ⟨⟨?_, ?_, ?_, ?_, ?_, ?_⟩, ⟨ext, hcode, hWf⟩, hls, ?_, ?_, ?_⟩
  · rw [hcode]; exact Wf_append h1 hWf
  · rw [hcode, hbr]
    exact GoodTargets_append_nojump h2 hWf (fun op hop => (hext op hop).2)
  · rw [hcode, hbr]; exact Patchable_append_code h3
  · intro p hp
    rw [hcode]
    rw [hfn] at hp
    exact Boundary_append _ (h4 p hp) hWf
  · intro l hl
    rw [hcode]
    rw [hls] at hl
    exact Boundary_append _ (h5 l hl) hWf
  · intro p hp
    rw [hst] at hp
    exact h6 p hp
  · rw [hbr]
  · rw [hbr]
    intro p hp
    rw [List.drop_length] at hp
    cases hp
  · intro _; rw [hbr]

theorem addString_state (c : CompilerState) (s : String) :
    (addString c s).1.bytecode.code = c.bytecode.code ∧
    (addString c s).1.functions = c.functions ∧
    (addString c s).1.breaks = c.breaks ∧
    (addString c s).1.loopStarts = c.loopStarts ∧
    (addString c s).1.structs = c.structs ∧
    (addString c s).1.locals = c.locals ∧
    (addString c s).1.pops = c.pops ∧
    (addString c s).1.loopDepths = c.loopDepths ∧
    (addString c s).1.depth = c.depth := by
  unfold addString
  split <;> exact ⟨rfl, rfl, rfl, rfl, rfl, rfl, rfl, rfl, rfl⟩

theorem addString_functions (c : CompilerState) (s : String) :
    (addString c s).1.functions = c.functions := (addString_state c s).2.1

theorem addString_breaks (c : CompilerState) (s : String) :
    (addString c s).1.breaks = c.breaks := (addString_state c s).2.2.1

theorem addString_loopStarts (c : CompilerState) (s : String) :
    (addString c s).1.loopStarts = c.loopStarts := (addString_state c s).2.2.2.1

theorem addString_structs (c : CompilerState) (s : String) :
    (addString c s).1.structs = c.structs := (addString_state c s).2.2.2.2.1

theorem addString_simpleExt (c : CompilerState) (s : String) :
    SimpleExt c (addString c s).1 := by
  obtain ⟨h1, h2, h3, h4, h5, _⟩ := addString_state c s
  exact ⟨⟨[], by simp [h1], by intro op hop; cases hop⟩, h2, h3, h4, h5⟩

theorem resolveLocal_state (c : CompilerState) (s : String) :
    (resolveLocal c s).1.bytecode.code = c.bytecode.code ∧
    (resolveLocal c s).1.functions = c.functions ∧
    (resolveLocal c s).1.breaks = c.breaks ∧
    (resolveLocal c s).1.loopStarts = c.loopStarts ∧
    (resolveLocal c s).1.structs = c.structs ∧
    (resolveLocal c s).1.pops = c.pops ∧
    (resolveLocal c s).1.loopDepths = c.loopDepths ∧
    (resolveLocal c s).1.depth = c.depth ∧
    (resolveLocal c s).1.bytecode.sp = c.bytecode.sp := by
  unfold resolveLocal
  split <;> exact ⟨rfl, rfl, rfl, rfl, rfl, rfl, rfl, rfl, rfl⟩

theorem resolveLocal_simpleExt (c : CompilerState) (s : String) :
    SimpleExt c (resolveLocal c s).1 := by
  obtain ⟨h1, h2, h3, h4, h5, _⟩ := resolveLocal_state c s
  exact ⟨⟨[], by simp [h1], by intro op hop; cases hop⟩, h2, h3, h4, h5⟩

theorem hso_spec {c c' : CompilerState} {op : Tok}
    (h : handleSpecializedOperator c op = .ok c') : SimpleExt c c' := by
  cases op <;> simp only [handleSpecializedOperator] at h <;>
    first
    | (cases h
       exact SimpleExt_emit1 c rfl
         (fun v => ⟨fun hc => (nomatch hc), fun hc => (nomatch hc)⟩))
    | cases h

theorem emitStackCleanup_spec {c c' : CompilerState}
    (h : emitStackCleanup c = .ok c') : SimpleExt c c' := by
  unfold emitStackCleanup at h
  split at h
  · cases h
  · cases h
    exact SimpleExt_emit1 c rfl
      (fun v => ⟨fun hc => (nomatch hc), fun hc => (nomatch hc)⟩)

theorem loopCleanupGo_spec : ∀ (l : List Nat) (c c' : CompilerState),
    loopCleanupGo c l = .ok c' → SimpleExt c c' := by
  intro l
  induction l with
  | nil =>
      intro c c' h
      cases h
      exact SimpleExt_refl c
  | cons i rest ih =>
      intro c c' h
      unfold loopCleanupGo at h
      split at h
      · cases h
      · refine SimpleExt_trans ?_ (ih _ _ h)
        exact SimpleExt_emit1 c rfl
          (fun v => ⟨fun hc => (nomatch hc), fun hc => (nomatch hc)⟩)

theorem emitLoopCleanup_spec {c c' : CompilerState}
    (h : emitLoopCleanup c = .ok c') : SimpleExt c c' := by
  unfold emitLoopCleanup at h
  split at h
  · cases h
    exact SimpleExt_refl c
  · exact loopCleanupGo_spec _ _ _ h

theorem retDeepsets_shape : ∀ (k no : Nat) (op : Opcode),
    op ∈ retDeepsets k no → ∃ m, op = .deepset m := by
  intro k
  induction k with
  | zero => intro no op hop; cases hop
  | succ j ih =>
      intro no op hop
      rw [retDeepsets] at hop
      rcases List.mem_cons.mp hop with rfl | hop2
      · exact ⟨no, rfl⟩
      · exact ih _ op hop2

theorem emitMemberIdxs_spec : ∀ (ms : List String) (c : CompilerState),
    ∃ idxs : List Nat, idxs.length = ms.length ∧
      (emitMemberIdxs c ms).bytecode.code =
        c.bytecode.code ++ idxs.flatMap u32e ∧
      (emitMemberIdxs c ms).functions = c.functions ∧
      (emitMemberIdxs c ms).breaks = c.breaks ∧
      (emitMemberIdxs c ms).loopStarts = c.loopStarts ∧
      (emitMemberIdxs c ms).structs = c.structs := by
  intro ms
  induction ms with
  | nil =>
      intro c
      exact ⟨[], rfl, by simp [emitMemberIdxs], rfl, rfl, rfl, rfl⟩
  | cons m rest ih =>
      intro c
      obtain ⟨has1, has2, has3, has4, has5, _⟩ := addString_state c m
      obtain ⟨idxs, hlen, hcode, hfn, hbr, hls, hst⟩ :=
        ih (emitU32 (addString c m).1 (addString c m).2)
      refine ⟨(addString c m).2 :: idxs, by simp [hlen], ?_, ?_, ?_, ?_, ?_⟩
      · show (emitMemberIdxs (emitU32 (addString c m).1 (addString c m).2) rest).bytecode.code = _
        rw [hcode]
        simp only [emitU32, emitOps, has1]
        rw [List.flatMap_cons, List.append_assoc]
      · show (emitMemberIdxs (emitU32 (addString c m).1 (addString c m).2) rest).functions = _
        rw [hfn]
        simp only [emitU32, emitOps, has2]
      · show (emitMemberIdxs (emitU32 (addString c m).1 (addString c m).2) rest).breaks = _
        rw [hbr]
        simp only [emitU32, emitOps, has3]
      · show (emitMemberIdxs (emitU32 (addString c m).1 (addString c m).2) rest).loopStarts = _
        rw [hls]
        simp only [emitU32, emitOps, has4]
      · show (emitMemberIdxs (emitU32 (addString c m).1 (addString c m).2) rest).structs = _
        rw [hst]
        simp only [emitU32, emitOps, has5]

theorem emitMethodRecords_spec :
    ∀ (l : List (String × Function)) (c : CompilerState),
    ∃ ms : List (Nat × Nat × Nat), ms.length = l.length ∧
      (emitMethodRecords c l).bytecode.code = c.bytecode.code ++
        ms.flatMap (fun m => u32e m.1 ++ (u32e m.2.1 ++ u32e m.2.2)) ∧
      (emitMethodRecords c l).functions = c.functions ∧
      (emitMethodRecords c l).breaks = c.breaks ∧
      (emitMethodRecords c l).loopStarts = c.loopStarts ∧
      (emitMethodRecords c l).structs = c.structs := by
  intro l
  induction l with
  | nil =>
      intro c
      exact ⟨[], rfl, by simp [emitMethodRecords], rfl, rfl, rfl, rfl⟩
  | cons p rest ih =>
      intro c
      obtain ⟨has1, has2, has3, has4, has5, _⟩ := addString_state c p.1
      obtain ⟨ms, hlen, hcode, hfn, hbr, hls, hst⟩ :=
        ih (emitU32 (emitU32 (emitU32 (addString c p.1).1 (addString c p.1).2) p.2.paramcount) p.2.location)
      have hstep : emitMethodRecords c (p :: rest) =
          emitMethodRecords (emitU32 (emitU32 (emitU32 (addString c p.1).1 (addString c p.1).2) p.2.paramcount) p.2.location) rest := rfl
      rw [hstep]
      refine ⟨((addString c p.1).2, p.2.paramcount, p.2.location) :: ms,
        by simp [hlen], ?_, ?_, ?_, ?_, ?_⟩
      · rw [hcode]
        simp only [emitU32, emitOps, has1]
        rw [List.flatMap_cons]
        simp [List.append_assoc]
      · rw [hfn]
        simp only [emitU32, emitOps, has2]
      · rw [hbr]
        simp only [emitU32, emitOps, has3]
      · rw [hls]
        simp only [emitU32, emitOps, has4]
      · rw [hst]
        simp only [emitU32, emitOps, has5]

theorem popBreaks_ok : ∀ (k : Nat) (c : CompilerState) (pend : List Nat),
    Wf c.bytecode.code →
    GoodTargets c.bytecode.code (c.breaks ++ pend) →
    Patchable c.bytecode.code (c.breaks ++ pend) →
    k ≤ c.breaks.length →
    ∃ c', popBreaks c k = .ok c' ∧
      c'.breaks = c.breaks.take (c.breaks.length - k) ∧
      Wf c'.bytecode.code ∧
      GoodTargets c'.bytecode.code (c'.breaks ++ pend) ∧
      Patchable c'.bytecode.code (c'.breaks ++ pend) ∧
      c'.bytecode.code.length = c.bytecode.code.length ∧
      (∀ p, Boundary c.bytecode.code p → Boundary c'.bytecode.code p) ∧
      (∀ E, (∀ q ∈ c.breaks.drop (c.breaks.length - k), E ≤ q) →
          Seg E c.bytecode.code c'.bytecode.code) ∧
      c'.functions = c.functions ∧ c'.locals = c.locals ∧
      c'.pops = c.pops ∧ c'.structs = c.structs ∧
      c'.loopStarts = c.loopStarts ∧ c'.loopDepths = c.loopDepths ∧
      c'.depth = c.depth := by
  intro k
  induction k with
  | zero =>
      intro c pend h1 h2 h3 hk
      refine ⟨c, rfl, by simp, h1, h2, h3, rfl, fun p hp => hp, ?_,
        rfl, rfl, rfl, rfl, rfl, rfl, rfl⟩
      intro E hE
      exact Relation.ReflTransGen.refl
  | succ k ih =>
      intro c pend h1 h2 h3 hk
      have hne : c.breaks ≠ [] := by
        intro he; rw [he] at hk; simp at hk
      have hlast : c.breaks.getLast? = some (c.breaks.getLast hne) :=
        List.getLast?_eq_getLast c.breaks hne
      have hbm : c.breaks.getLast hne ∈ c.breaks := List.getLast_mem hne
      obtain ⟨x, hg⟩ := h3 (c.breaks.getLast hne)
        (by rw [List.mem_append]; exact Or.inl hbm)
      have hg1 : ({ c with breaks := c.breaks.dropLast } :
            CompilerState).bytecode.code.get? (c.breaks.getLast hne) =
            some (.jmp x) ∨
          ({ c with breaks := c.breaks.dropLast } :
            CompilerState).bytecode.code.get? (c.breaks.getLast hne) =
            some (.jz x) := hg
      obtain ⟨y, v, hy, hv, hp⟩ := patch_ok hg1
      have hysimple : opSimple y = true := by
        rcases hy with hy | hy <;> simp [hy, opSimple]
      have hsplit : c.breaks = c.breaks.dropLast ++ [c.breaks.getLast hne] :=
        (List.dropLast_append_getLast hne).symm
      -- invariants for the patched state
      have hWf2 : Wf (c.bytecode.code.set (c.breaks.getLast hne) y) :=
        Wf_set_jump h1 hg hysimple
      have hGT2 : GoodTargets (c.bytecode.code.set (c.breaks.getLast hne) y)
          (c.breaks.dropLast ++ pend) := by
        refine GoodTargets_patch h1 hg h2 ?_ hy hv
        intro i hi
        rw [List.mem_append] at hi
        rcases hi with hi | hi
        · rw [hsplit, List.mem_append] at hi
          rcases hi with hi | hi
          · exact Or.inr (by rw [List.mem_append]; exact Or.inl hi)
          · rw [List.mem_singleton] at hi
            exact Or.inl hi
        · exact Or.inr (by rw [List.mem_append]; exact Or.inr hi)
      have hPat2 : Patchable (c.bytecode.code.set (c.breaks.getLast hne) y)
          (c.breaks.dropLast ++ pend) := by
        refine Patchable_patch hy (Patchable_subset h3 ?_)
        intro i hi
        rw [List.mem_append] at hi ⊢
        rcases hi with hi | hi
        · exact Or.inl (List.mem_of_mem_dropLast hi)
        · exact Or.inr hi
      have hk2 : k ≤ c.breaks.dropLast.length := by
        rw [List.length_dropLast]; omega
      obtain ⟨c', hpop, hbr', hWf', hGT', hPat', hlen', hBound', hSeg',
        hfn', hloc', hpops', hst', hls', hld', hd'⟩ :=
        ih { c with breaks := c.breaks.dropLast, bytecode :=
              { c.bytecode with code :=
                  c.bytecode.code.set (c.breaks.getLast hne) y } }
          pend hWf2 hGT2 hPat2 hk2
      have hmeq : c.breaks.length - (k + 1) = c.breaks.dropLast.length - k := by
        rw [List.length_dropLast]; omega
      have hmlen : c.breaks.length - (k + 1) ≤ c.breaks.dropLast.length := by
        rw [List.length_dropLast]; omega
      have hD : c.breaks.drop (c.breaks.length - (k + 1)) =
          c.breaks.dropLast.drop (c.breaks.length - (k + 1)) ++
            [c.breaks.getLast hne] := by
        have hD0 : (c.breaks.dropLast ++ [c.breaks.getLast hne]).drop
            (c.breaks.length - (k + 1)) =
            c.breaks.dropLast.drop (c.breaks.length - (k + 1)) ++
              [c.breaks.getLast hne] := List.drop_append_of_le_length hmlen
        rw [← hsplit] at hD0
        exact hD0
      refine ⟨c', ?_, ?_, hWf', hGT', hPat', ?_, ?_, ?_,
        hfn', hloc', hpops', hst', hls', hld', hd'⟩
      · show popBreaks c (k + 1) = .ok c'
        unfold popBreaks
        rw [hlast]
        simp only [Bind.bind, Except.bind, hp]
        exact hpop
      · rw [hbr']
        simp only [List.length_dropLast, List.dropLast_eq_take, List.take_take,
          List.length_take]
        congr 1
        omega
      · rw [hlen']
        simp
      · intro p hp2
        exact hBound' p (Boundary_set_jump hp2 hg hysimple)
      · intro E hE
        have hEb : E ≤ c.breaks.getLast hne := by
          refine hE _ ?_
          rw [hD, List.mem_append]
          exact Or.inr (by simp)
        have hstep1 : Seg E c.bytecode.code
            (c.bytecode.code.set (c.breaks.getLast hne) y) :=
          Seg_single_set hEb hg hysimple
        have hstep2 : Seg E (c.bytecode.code.set (c.breaks.getLast hne) y)
            c'.bytecode.code := by
          refine hSeg' E ?_
          intro q hq
          refine hE q ?_
          rw [hD, List.mem_append]
          left
          rw [← hmeq] at hq
          exact hq
        exact Relation.ReflTransGen.trans hstep1 hstep2

theorem BExt_of_Ext {c c' : CompilerState} (h : Ext c c') : BExt c c' := by
  obtain ⟨⟨ext, hcode, _⟩, hls, hpre, hsuf, hz⟩ := h
  exact ⟨hls, hpre, hsuf, hz, by rw [hcode]; simp⟩

theorem BExt_same {c c' : CompilerState} (hbr : c'.breaks = c.breaks)
    (hls : c'.loopStarts = c.loopStarts)
    (hlen : c.bytecode.code.length ≤ c'.bytecode.code.length) :
    BExt c c' := by
  refine ⟨hls, by rw [hbr], ?_, fun _ => hbr, hlen⟩
  intro p hp
  rw [hbr, List.drop_length] at hp
  cases hp

theorem BExt_trans {a b c : CompilerState} (h1 : BExt a b) (h2 : BExt b c) :
    BExt a c := by
  obtain ⟨hl1, hp1, hs1, hz1, hn1⟩ := h1
  obtain ⟨hl2, hp2, hs2, hz2, hn2⟩ := h2
  refine ⟨hl2.trans hl1, hp1.trans hp2, ?_, ?_, hn1.trans hn2⟩
  · intro p hp
    obtain ⟨t1, ht1⟩ := hp1
    obtain ⟨t2, ht2⟩ := hp2
    have hd : c.breaks.drop a.breaks.length = t1 ++ t2 := by
      rw [← ht2, ← ht1, List.append_assoc]
      exact List.drop_left _ _
    rw [hd, List.mem_append] at hp
    rcases hp with hp | hp
    · exact hs1 p (by rw [← ht1]; simpa [List.drop_left] using hp)
    · have := hs2 p (by rw [← ht2]; simpa [List.drop_left] using hp)
      omega
  · intro hz
    have h1' := hz1 hz
    rw [hz2 (by rw [hl1, hz]), h1']

theorem Ext_assemble {c c' : CompilerState} (hb : BExt c c')
    (hseg : Seg c.bytecode.code.length c.bytecode.code c'.bytecode.code)
    (hWf : Wf c.bytecode.code) : Ext c c' := by
  obtain ⟨hls, hpre, hsuf, hz, _⟩ := hb
  obtain ⟨ext, hcode, hext⟩ := Seg_decomp hseg hWf
  exact ⟨⟨ext, hcode, hext⟩, hls, hpre, hsuf, hz⟩

theorem Seg_of_Ext {c c' : CompilerState} (h : Ext c c') (E : Nat) :
    Seg E c.bytecode.code c'.bytecode.code := by
  obtain ⟨⟨ext, hcode, hw⟩, _⟩ := h
  rw [hcode]
  exact Seg_single_append ext hw

theorem INV_perm {c : CompilerState} {pend pend' : List Nat}
    (h : INV c pend) (hp : ∀ i, i ∈ pend ↔ i ∈ pend') : INV c pend' := by
  obtain ⟨h1, h2, h3, h4, h5, h6⟩ := h
  refine ⟨h1, GoodTargets_subset h2 ?_, Patchable_subset h3 ?_, h4, h5, h6⟩
  · intro i hi
    rw [List.mem_append] at hi ⊢
    rcases hi with hi | hi
    · exact Or.inl hi
    · exact Or.inr ((hp i).mp hi)
  · intro i hi
    rw [List.mem_append] at hi ⊢
    rcases hi with hi | hi
    · exact Or.inl hi
    · exact Or.inr ((hp i).mpr hi)

theorem Concl_misc {c c2 c' : CompilerState} {pend : List Nat}
    (h : Concl c c2 pend)
    (hcode : c'.bytecode.code = c2.bytecode.code)
    (hbr : c'.breaks = c2.breaks) (hfn : c'.functions = c2.functions)
    (hls : c'.loopStarts = c2.loopStarts) (hst : c'.structs = c2.structs) :
    Concl c c' pend := by
  obtain ⟨hinv, ⟨ext, he, hw⟩, hl, hp, hs, hz⟩ := h
  refine ⟨INV_congr hcode hbr hfn hls hst hinv,
    ⟨ext, by rw [hcode, he], hw⟩, hls.trans hl, ?_, ?_, ?_⟩
  · rw [hbr]; exact hp
  · rw [hbr]; exact hs
  · intro hze
    rw [hbr]
    exact hz hze

theorem Concl_fields {c c' : CompilerState} {pend : List Nat}
    (hinv : INV c pend)
    (hcode : c'.bytecode.code = c.bytecode.code)
    (hbr : c'.breaks = c.breaks) (hfn : c'.functions = c.functions)
    (hls : c'.loopStarts = c.loopStarts) (hst : c'.structs = c.structs) :
    Concl c c' pend := Concl_misc (Concl_refl hinv) hcode hbr hfn hls hst

theorem Concl_of_chunk {c c' : CompilerState} {pend : List Nat}
    (h : INV c pend) (ext : List Opcode)
    (hcode : c'.bytecode.code = c.bytecode.code ++ ext) (hWf : Wf ext)
    (hnj : ∀ op ∈ ext, ∀ v, op ≠ .jmp v ∧ op ≠ .jz v)
    (hfn : c'.functions = c.functions) (hbr : c'.breaks = c.breaks)
    (hls : c'.loopStarts = c.loopStarts) (hst : c'.structs = c.structs) :
    Concl c c' pend := by
  obtain ⟨h1, h2, h3, h4, h5, h6⟩ := h
  refine ⟨⟨?_, ?_, ?_, ?_, ?_, ?_⟩, ⟨ext, hcode, hWf⟩, hls, ?_, ?_, ?_⟩
  · rw [hcode]; exact Wf_append h1 hWf
  · rw [hcode, hbr]; exact GoodTargets_append_nojump h2 hWf hnj
  · rw [hcode, hbr]; exact Patchable_append_code h3
  · intro p hp
    rw [hcode]
    rw [hfn] at hp
    exact Boundary_append _ (h4 p hp) hWf
  · intro l hl
    rw [hcode]
    rw [hls] at hl
    exact Boundary_append _ (h5 l hl) hWf
  · intro p hp
    rw [hst] at hp
    exact h6 p hp
  · rw [hbr]
  · rw [hbr]
    intro p hp
    rw [List.drop_length] at hp
    cases hp
  · intro _; rw [hbr]

theorem opPlain_simple {op : Opcode} (h : opPlain op = true) :
    opSimple op = true := by
  cases op <;> first | exact h | cases h

theorem opPlain_nj {op : Opcode} (h : opPlain op = true) :
    ∀ v, op ≠ .jmp v ∧ op ≠ .jz v := by
  intro v
  constructor
  · intro hc
    subst hc
    cases h
  · intro hc
    subst hc
    cases h

theorem Concl_emitP {c : CompilerState} {pend : List Nat}
    (h : INV c pend) (ops : List Opcode) (hops : ops.all opPlain = true) :
    Concl c (emitOps c ops) pend := by
  rw [List.all_eq_true] at hops
  exact Concl_emitOps h
    (Wf_of_all_simple _ (fun op hop => opPlain_simple (hops op hop)))
    (fun op hop => opPlain_nj (hops op hop))

theorem INV_emitP {c : CompilerState} {pend : List Nat}
    (h : INV c pend) (ops : List Opcode) (hops : ops.all opPlain = true) :
    INV (emitOps c ops) pend := by
  rw [List.all_eq_true] at hops
  exact INV_emitOps_simple h
    (fun op hop => opPlain_simple (hops op hop))
    (fun op hop => opPlain_nj (hops op hop))

theorem SimpleExt_emitP (c : CompilerState) (ops : List Opcode)
    (hops : ops.all opPlain = true) : SimpleExt c (emitOps c ops) := by
  rw [List.all_eq_true] at hops
  exact SimpleExt_emitOps c
    (fun op hop => ⟨opPlain_simple (hops op hop), opPlain_nj (hops op hop)⟩)

/-- The compiler invariant: every codegen entry point, run on a state
satisfying `INV` with the size bounds of `stmtSizesOk`, produces a state
satisfying `INV` again while only appending well-laid-out chunks and
patching jumps inside them. -/
theorem compileConcl (fuel : Nat) :
    (∀ s c c' pend, stmtSizesOk s = true → INV c pend →
        compileStmt fuel s c = .ok c' → Concl c c' pend) ∧
    (∀ name args body c c' pend, stmtSizesOk body = true → INV c pend →
        compileFn fuel name args body c = .ok c' → Concl c c' pend) ∧
    (∀ ms bp c r pend, stmtListSizesOk ms = true → INV c pend →
        implMethods fuel ms bp c = .ok r → Concl c r.2 pend ∧
          r.1.methods.length ≤ bp.methods.length + ms.length) ∧
    (∀ l c c' pend, stmtListSizesOk l = true → INV c pend →
        compileStmtList fuel l c = .ok c' → Concl c c' pend) ∧
    (∀ e c c' pend, INV c pend → compileExpr fuel e c = .ok c' →
        Concl c c' pend) ∧
    (∀ es c c' pend, INV c pend → compileExprList fuel es c = .ok c' →
        Concl c c' pend) := by
  induction fuel with
  | zero =>
      refine ⟨?_, ?_, ?_, ?_, ?_, ?_⟩
      · intro s c c' pend _ _ h; cases h
      · intro name args body c c' pend _ _ h; cases h
      · intro ms bp c r pend _ _ h; cases h
      · intro l c c' pend _ _ h; cases h
      · intro e c c' pend _ h; cases h
      · intro es c c' pend _ h; cases h
  | succ f ih =>
      obtain ⟨ihS, ihF, ihM, ihSL, ihE, ihEL⟩ := ih
      have hExpr : ∀ e c c' pend, INV c pend →
          compileExpr (f + 1) e c = .ok c' → Concl c c' pend := by
        intro e c c' pend hinv h
        cases e with
        | lit l =>
            cases l with
            | num n =>
                simp only [compileExpr] at h
                cases h
                exact Concl_emitP hinv _ rfl
            | str s =>
                simp only [compileExpr] at h
                cases h
                exact Concl_emitP hinv _ rfl
            | null =>
                simp only [compileExpr] at h
                cases h
                exact Concl_emitP hinv _ rfl
            | bool b =>
                cases b <;> (simp only [compileExpr] at h; cases h)
                · exact Concl_emitP hinv _ rfl
                · exact Concl_emitP hinv _ rfl
        | var name =>
            simp only [compileExpr] at h
            cases h
            exact Concl_of_SimpleExt hinv
              (SimpleExt_trans (resolveLocal_simpleExt c name)
                (SimpleExt_emitP _ _ rfl))
        | binary kind lhs rhs =>
            simp only [compileExpr, bind_ok] at h
            obtain ⟨c1, h1, h⟩ := h
            obtain ⟨c2, h2, h⟩ := h
            have H2 := Concl_trans (ihE lhs c c1 pend hinv h1)
              (ihE rhs c1 c2 pend (ihE lhs c c1 pend hinv h1).1 h2)
            cases kind with
            | add => cases h; exact Concl_trans H2 (Concl_emitP H2.1 _ rfl)
            | sub => cases h; exact Concl_trans H2 (Concl_emitP H2.1 _ rfl)
            | mul => cases h; exact Concl_trans H2 (Concl_emitP H2.1 _ rfl)
            | div => cases h; exact Concl_trans H2 (Concl_emitP H2.1 _ rfl)
            | mod => cases h; exact Concl_trans H2 (Concl_emitP H2.1 _ rfl)
            | less => cases h; exact Concl_trans H2 (Concl_emitP H2.1 _ rfl)
            | greater => cases h; exact Concl_trans H2 (Concl_emitP H2.1 _ rfl)
            | lessEqual => cases h; exact Concl_trans H2 (Concl_emitP H2.1 _ rfl)
            | greaterEqual => cases h; exact Concl_trans H2 (Concl_emitP H2.1 _ rfl)
            | bitwiseAnd => cases h; exact Concl_trans H2 (Concl_emitP H2.1 _ rfl)
            | bitwiseOr => cases h; exact Concl_trans H2 (Concl_emitP H2.1 _ rfl)
            | bitwiseXor => cases h; exact Concl_trans H2 (Concl_emitP H2.1 _ rfl)
            | bitwiseShl => cases h; exact Concl_trans H2 (Concl_emitP H2.1 _ rfl)
            | bitwiseShr => cases h; exact Concl_trans H2 (Concl_emitP H2.1 _ rfl)
            | strcat => cases h; exact Concl_trans H2 (Concl_emitP H2.1 _ rfl)
            | equality negation =>
                cases negation
                · cases h
                  exact Concl_trans H2 (Concl_emitP H2.1 _ rfl)
                · cases h
                  have H3 := Concl_trans H2 (Concl_emitP H2.1 [.eqOp] rfl)
                  exact Concl_trans H3 (Concl_emitP H3.1 _ rfl)
        | call callee args =>
            cases callee with
            | var vname =>
                simp only [compileExpr] at h
                split at h
                · cases h
                · rename_i fR hget
                  split at h
                  · cases h
                  · rw [bind_ok] at h
                    obtain ⟨c1, h1, h⟩ := h
                    cases h
                    have H1 := ihEL args c c1 pend hinv h1
                    obtain ⟨p, hpmem, hp2⟩ := alGet_mem hget
                    have hbound : Boundary c.bytecode.code (fR.location + 1) := by
                      have hf := hinv.2.2.2.1 p hpmem
                      rw [hp2] at hf
                      exact hf
                    obtain ⟨⟨ext1, hcode1, hw1⟩, _⟩ := H1.2
                    have hwcall : Wf [Opcode.call args.length] :=
                      Wf_of_all_simple _ (by
                        intro o ho
                        rw [List.mem_singleton] at ho
                        rw [ho]; rfl)
                    have hbound2 : Boundary
                        (emitOps c1 [.call args.length]).bytecode.code
                        (fR.location + 1) := by
                      show Boundary (c1.bytecode.code ++ [Opcode.call args.length]) _
                      rw [hcode1, List.append_assoc]
                      exact Boundary_append _ hbound (Wf_append hw1 hwcall)
                    have H2 := Concl_emitP H1.1 [.call args.length] rfl
                    have H3 := Concl_emit_jmp H2.1 hbound2
                    exact Concl_trans (Concl_trans H1 H2) H3
            | get gexpr gmember gop =>
                simp only [compileExpr, bind_ok] at h
                obtain ⟨c1, h1, h⟩ := h
                obtain ⟨c2, h2, h⟩ := h
                cases h
                have H1 := ihE gexpr c c1 pend hinv h1
                have H1b : Concl c
                    (if gop = Tok.arrow then emitOps c1 [.deref] else c1) pend := by
                  split
                  · exact Concl_trans H1 (Concl_emitP H1.1 _ rfl)
                  · exact H1
                have H2 := Concl_trans H1b (ihEL args _ c2 pend H1b.1 h2)
                have HA : Concl c (addString c2 gmember).1 pend :=
                  Concl_trans H2
                    (Concl_of_SimpleExt H2.1 (addString_simpleExt c2 gmember))
                have hraws : ∀ x ∈ u32e (addString c2 gmember).2 ++
                    (u32e args.length ++ ([] : List Opcode)), ∃ b, x = .raw b := by
                  intro x hx
                  rw [List.mem_append] at hx
                  rcases hx with hx | hx
                  · exact u32e_raw _ x hx
                  · rw [List.mem_append] at hx
                    rcases hx with hx | hx
                    · exact u32e_raw _ x hx
                    · cases hx
                refine Concl_trans HA (Concl_of_chunk HA.1
                  (Opcode.callMethod :: (u32e (addString c2 gmember).2 ++
                    (u32e args.length ++ []))) ?_ ?_ ?_ rfl rfl rfl rfl)
                · simp [emitU32, emitOps, List.append_assoc]
                · exact Wf.callm _ _ [] Wf.nil
                · intro op hop v
                  rcases List.mem_cons.mp hop with rfl | hop2
                  · exact ⟨fun hc => (nomatch hc), fun hc => (nomatch hc)⟩
                  · obtain ⟨b, rfl⟩ := hraws op hop2
                    exact ⟨fun hc => (nomatch hc), fun hc => (nomatch hc)⟩
            | lit l => simp only [compileExpr] at h; cases h
            | binary k l r => simp only [compileExpr] at h; cases h
            | call a b => simp only [compileExpr] at h; cases h
            | assign a b o => simp only [compileExpr] at h; cases h
            | logical a b o => simp only [compileExpr] at h; cases h
            | unary a o => simp only [compileExpr] at h; cases h
            | structE n i => simp only [compileExpr] at h; cases h
            | structInit m v => simp only [compileExpr] at h; cases h
            | vecE el => simp only [compileExpr] at h; cases h
            | sub a b => simp only [compileExpr] at h; cases h
        | assign lhs rhs op =>
            cases lhs with
            | var vname =>
                simp only [compileExpr] at h
                split at h
                · rw [bind_ok] at h
                  obtain ⟨c1, h1, h⟩ := h
                  rw [bind_ok] at h
                  obtain ⟨c2, h2, h⟩ := h
                  have H0 : Concl c (emitOps (resolveLocal c vname).1
                      [.deepget (resolveLocal c vname).2.1]) pend :=
                    Concl_of_SimpleExt hinv
                      (SimpleExt_trans (resolveLocal_simpleExt c vname)
                        (SimpleExt_emitP _ _ rfl))
                  have H1 := Concl_trans H0 (ihE rhs _ c1 pend H0.1 h1)
                  have H2 := Concl_trans H1
                    (Concl_of_SimpleExt H1.1 (hso_spec h2))
                  split at h
                  · cases h
                    exact Concl_trans H2 (Concl_emitP H2.1 _ rfl)
                  · split at h
                    · cases h
                      exact Concl_misc H2 rfl rfl rfl rfl rfl
                    · cases h
                · rw [bind_ok] at h
                  obtain ⟨c1, h1, h⟩ := h
                  have H0 : Concl c (resolveLocal c vname).1 pend :=
                    Concl_of_SimpleExt hinv (resolveLocal_simpleExt c vname)
                  have H1 := Concl_trans H0 (ihE rhs _ c1 pend H0.1 h1)
                  split at h
                  · cases h
                    exact Concl_trans H1 (Concl_emitP H1.1 _ rfl)
                  · split at h
                    · cases h
                      exact Concl_misc H1 rfl rfl rfl rfl rfl
                    · cases h
            | unary uexpr uop =>
                simp only [compileExpr, bind_ok] at h
                obtain ⟨c1, h1, h⟩ := h
                have H1 := ihE uexpr c c1 pend hinv h1
                split at h
                · rw [bind_ok] at h
                  obtain ⟨c2, h2, h⟩ := h
                  rw [bind_ok] at h
                  obtain ⟨c3, h3, h⟩ := h
                  cases h
                  have H2 := Concl_trans H1 (ihE rhs c1 c2 pend H1.1 h2)
                  have H3 := Concl_trans H2
                    (Concl_of_SimpleExt H2.1 (hso_spec h3))
                  exact Concl_trans H3 (Concl_emitP H3.1 _ rfl)
                · rw [bind_ok] at h
                  obtain ⟨c2, h2, h⟩ := h
                  cases h
                  have H2 := Concl_trans H1 (ihE rhs c1 c2 pend H1.1 h2)
                  exact Concl_trans H2 (Concl_emitP H2.1 _ rfl)
            | get gexpr gmember gop =>
                simp only [compileExpr, bind_ok] at h
                obtain ⟨c1, h1, h⟩ := h
                have H1 := ihE gexpr c c1 pend hinv h1
                have H1b : Concl c
                    (if gop = Tok.arrow then emitOps c1 [.deref] else c1) pend := by
                  split
                  · exact Concl_trans H1 (Concl_emitP H1.1 _ rfl)
                  · exact H1
                split at h
                · rw [bind_ok] at h
                  obtain ⟨c2, h2, h⟩ := h
                  rw [bind_ok] at h
                  obtain ⟨c3, h3, h⟩ := h
                  cases h
                  have Hg := Concl_trans H1b
                    (Concl_emitP H1b.1 [.getattr gmember] rfl)
                  have H2 := Concl_trans Hg (ihE rhs _ c2 pend Hg.1 h2)
                  have H3 := Concl_trans H2
                    (Concl_of_SimpleExt H2.1 (hso_spec h3))
                  have H4 := Concl_trans H3
                    (Concl_emitP H3.1 [.setattr gmember] rfl)
                  exact Concl_trans H4 (Concl_emitP H4.1 _ rfl)
                · rw [bind_ok] at h
                  obtain ⟨c2, h2, h⟩ := h
                  cases h
                  have H2 := Concl_trans H1b (ihE rhs _ c2 pend H1b.1 h2)
                  have H4 := Concl_trans H2
                    (Concl_emitP H2.1 [.setattr gmember] rfl)
                  exact Concl_trans H4 (Concl_emitP H4.1 _ rfl)
            | sub sexpr sindex =>
                simp only [compileExpr, bind_ok] at h
                obtain ⟨c1, h1, h⟩ := h
                obtain ⟨c2, h2, h⟩ := h
                have H1 := ihE sexpr c c1 pend hinv h1
                have H2 := Concl_trans H1 (ihE sindex c1 c2 pend H1.1 h2)
                split at h
                · rw [bind_ok] at h
                  obtain ⟨c3, h3, h⟩ := h
                  rw [bind_ok] at h
                  obtain ⟨c4, h4, h⟩ := h
                  rw [bind_ok] at h
                  obtain ⟨c5, h5, h⟩ := h
                  cases h
                  have H3 := Concl_trans H2 (ihE _ c2 c3 pend H2.1 h3)
                  have H4 := Concl_trans H3 (ihE rhs c3 c4 pend H3.1 h4)
                  have H5 := Concl_trans H4
                    (Concl_of_SimpleExt H4.1 (hso_spec h5))
                  exact Concl_trans H5 (Concl_emitP H5.1 _ rfl)
                · rw [bind_ok] at h
                  obtain ⟨c3, h3, h⟩ := h
                  cases h
                  have H3 := Concl_trans H2 (ihE rhs c2 c3 pend H2.1 h3)
                  exact Concl_trans H3 (Concl_emitP H3.1 _ rfl)
            | lit l => simp only [compileExpr] at h; cases h
            | binary k l r => simp only [compileExpr] at h; cases h
            | call a b => simp only [compileExpr] at h; cases h
            | assign a b o => simp only [compileExpr] at h; cases h
            | logical a b o => simp only [compileExpr] at h; cases h
            | structE n i => simp only [compileExpr] at h; cases h
            | structInit m v => simp only [compileExpr] at h; cases h
            | vecE el => simp only [compileExpr] at h; cases h
        | logical lhs rhs op =>
            simp only [compileExpr, emitOp, bind_ok] at h
            obtain ⟨c1, h1, h⟩ := h
            have H1 := ihE lhs c c1 pend hinv h1
            have hwjz : Wf [Opcode.jz PLACEHOLDER] :=
              Wf_of_all_simple _ (by
                intro o ho
                rw [List.mem_singleton] at ho
                rw [ho]; rfl)
            have hwjmp : Wf [Opcode.jmp PLACEHOLDER] :=
              Wf_of_all_simple _ (by
                intro o ho
                rw [List.mem_singleton] at ho
                rw [ho]; rfl)
            have hwfo : Wf [Opcode.falseOp] :=
              Wf_of_all_simple _ (by
                intro o ho
                rw [List.mem_singleton] at ho
                rw [ho]; rfl)
            have hwfn : Wf [Opcode.falseOp, Opcode.notOp] :=
              Wf_of_all_simple _ (by
                intro o ho
                rcases List.mem_cons.mp ho with rfl | ho2
                · rfl
                · rw [List.mem_singleton] at ho2
                  rw [ho2]; rfl)
            cases op
            case doubleAmpersand =>
              rw [bind_ok] at h
              obtain ⟨c2, h2, h⟩ := h
              rw [bind_ok] at h
              obtain ⟨c3, h3, h⟩ := h
              have hI2 : INV (emitOps c1 [.jz PLACEHOLDER])
                  (c1.bytecode.code.length :: pend) :=
                INV_emit_ph (Or.inr rfl) H1.1
              have H2 := ihE rhs _ c2 (c1.bytecode.code.length :: pend) hI2 h2
              have hI3 : INV (emitOps c2 [.jmp PLACEHOLDER])
                  (c2.bytecode.code.length ::
                    c1.bytecode.code.length :: pend) :=
                INV_emit_ph (Or.inl rfl) H2.1
              have hI3' : INV (emitOps c2 [.jmp PLACEHOLDER])
                  (c1.bytecode.code.length ::
                    c2.bytecode.code.length :: pend) :=
                INV_perm hI3 (by
                  intro i
                  constructor <;> (intro hi; simp at hi ⊢; tauto))
              obtain ⟨c3', hp3, hI4, hbr3, hls3, hfn3, hloc3, hpops3, hst3,
                hld3, hd3, hlen3, hbt3, hseg3⟩ := INV_patch hI3'
              rw [hp3] at h3
              cases h3
              have hI5 : INV (emitOps c3 [.falseOp])
                  (c2.bytecode.code.length :: pend) :=
                INV_emitP hI4 [.falseOp] rfl
              obtain ⟨c7, hp7, hI7, hbr7, hls7, hfn7, hloc7, hpops7, hst7,
                hld7, hd7, hlen7, hbt7, hseg7⟩ := INV_patch hI5
              rw [hp7] at h
              cases h
              refine ⟨hI7, Ext_assemble ?_ ?_ hinv.1⟩
              · have B1 := BExt_of_Ext H1.2
                have B2 : BExt c1 (emitOps c1 [.jz PLACEHOLDER]) :=
                  BExt_same rfl rfl (by simp [emitOps])
                have B3 := BExt_of_Ext H2.2
                have B4 : BExt c2 (emitOps c2 [.jmp PLACEHOLDER]) :=
                  BExt_same rfl rfl (by simp [emitOps])
                have B5 : BExt (emitOps c2 [.jmp PLACEHOLDER]) c3 :=
                  BExt_same hbr3 hls3 (le_of_eq hlen3.symm)
                have B6 : BExt c3 (emitOps c3 [.falseOp]) :=
                  BExt_same rfl rfl (by simp [emitOps])
                have B7 : BExt (emitOps c3 [.falseOp]) c' :=
                  BExt_same hbr7 hls7 (le_of_eq hlen7.symm)
                exact BExt_trans (BExt_trans (BExt_trans
                  (BExt_trans (BExt_trans (BExt_trans B1 B2) B3) B4) B5) B6) B7
              · have hlen01 : c.bytecode.code.length ≤
                    c1.bytecode.code.length := (BExt_of_Ext H1.2).2.2.2.2
                have hlen02 : c.bytecode.code.length ≤
                    c2.bytecode.code.length := by
                  have B2 : BExt c1 (emitOps c1 [.jz PLACEHOLDER]) :=
                    BExt_same rfl rfl (by simp [emitOps])
                  have := (BExt_trans (BExt_trans (BExt_of_Ext H1.2) B2)
                    (BExt_of_Ext H2.2)).2.2.2.2
                  exact this
                have S1 := Seg_of_Ext H1.2 c.bytecode.code.length
                have S2 : Seg c.bytecode.code.length c1.bytecode.code
                    (emitOps c1 [.jz PLACEHOLDER]).bytecode.code :=
                  Seg_single_append _ hwjz
                have S3 := Seg_of_Ext H2.2 c.bytecode.code.length
                have S4 : Seg c.bytecode.code.length c2.bytecode.code
                    (emitOps c2 [.jmp PLACEHOLDER]).bytecode.code :=
                  Seg_single_append _ hwjmp
                have S5 := hseg3 c.bytecode.code.length hlen01
                have S6 : Seg c.bytecode.code.length c3.bytecode.code
                    (emitOps c3 [.falseOp]).bytecode.code :=
                  Seg_single_append _ hwfo
                have S7 := hseg7 c.bytecode.code.length hlen02
                exact Relation.ReflTransGen.trans (Relation.ReflTransGen.trans
                  (Relation.ReflTransGen.trans (Relation.ReflTransGen.trans
                    (Relation.ReflTransGen.trans
                      (Relation.ReflTransGen.trans S1 S2) S3) S4) S5) S6) S7
            case doublePipe =>
              rw [bind_ok] at h
              obtain ⟨c2, h2, h⟩ := h
              rw [bind_ok] at h
              obtain ⟨c3, h3, h⟩ := h
              have hIA : INV (emitOps c1 [.jz PLACEHOLDER])
                  (c1.bytecode.code.length :: pend) :=
                INV_emit_ph (Or.inr rfl) H1.1
              have hIB : INV (emitOps (emitOps c1 [.jz PLACEHOLDER])
                  [.falseOp, .notOp]) (c1.bytecode.code.length :: pend) :=
                INV_emitP hIA [.falseOp, .notOp] rfl
              have hIC : INV (emitOps (emitOps (emitOps c1 [.jz PLACEHOLDER])
                  [.falseOp, .notOp]) [.jmp PLACEHOLDER])
                  ((emitOps (emitOps c1 [.jz PLACEHOLDER])
                    [.falseOp, .notOp]).bytecode.code.length ::
                      c1.bytecode.code.length :: pend) :=
                INV_emit_ph (Or.inl rfl) hIB
              have hIC' : INV (emitOps (emitOps (emitOps c1 [.jz PLACEHOLDER])
                  [.falseOp, .notOp]) [.jmp PLACEHOLDER])
                  (c1.bytecode.code.length ::
                    (emitOps (emitOps c1 [.jz PLACEHOLDER])
                      [.falseOp, .notOp]).bytecode.code.length :: pend) :=
                INV_perm hIC (by
                  intro i
                  constructor <;> (intro hi; simp at hi ⊢; tauto))
              obtain ⟨c2', hp2, hID, hbr2, hls2, hfn2, hloc2, hpops2, hst2,
                hld2, hd2, hlen2, hbt2, hseg2⟩ := INV_patch hIC'
              rw [hp2] at h2
              cases h2
              have H3 := ihE rhs _ c3
                ((emitOps (emitOps c1 [.jz PLACEHOLDER])
                  [.falseOp, .notOp]).bytecode.code.length :: pend) hID h3
              obtain ⟨c7, hp7, hI7, hbr7, hls7, hfn7, hloc7, hpops7, hst7,
                hld7, hd7, hlen7, hbt7, hseg7⟩ := INV_patch H3.1
              rw [hp7] at h
              cases h
              refine ⟨hI7, Ext_assemble ?_ ?_ hinv.1⟩
              · have B1 := BExt_of_Ext H1.2
                have B2 : BExt c1 (emitOps c1 [.jz PLACEHOLDER]) :=
                  BExt_same rfl rfl (by simp [emitOps])
                have B3 : BExt (emitOps c1 [.jz PLACEHOLDER])
                    (emitOps (emitOps c1 [.jz PLACEHOLDER])
                      [.falseOp, .notOp]) :=
                  BExt_same rfl rfl (by simp [emitOps])
                have B4 : BExt (emitOps (emitOps c1 [.jz PLACEHOLDER])
                    [.falseOp, .notOp])
                    (emitOps (emitOps (emitOps c1 [.jz PLACEHOLDER])
                      [.falseOp, .notOp]) [.jmp PLACEHOLDER]) :=
                  BExt_same rfl rfl (by simp [emitOps])
                have B5 : BExt (emitOps (emitOps (emitOps c1 [.jz PLACEHOLDER])
                    [.falseOp, .notOp]) [.jmp PLACEHOLDER]) c2 :=
                  BExt_same hbr2 hls2 (le_of_eq hlen2.symm)
                have B6 := BExt_of_Ext H3.2
                have B7 : BExt c3 c' :=
                  BExt_same hbr7 hls7 (le_of_eq hlen7.symm)
                exact BExt_trans (BExt_trans (BExt_trans
                  (BExt_trans (BExt_trans (BExt_trans B1 B2) B3) B4) B5) B6) B7
              · have hlen01 : c.bytecode.code.length ≤
                    c1.bytecode.code.length := (BExt_of_Ext H1.2).2.2.2.2
                have hlen0B : c.bytecode.code.length ≤
                    (emitOps (emitOps c1 [.jz PLACEHOLDER])
                      [.falseOp, .notOp]).bytecode.code.length := by
                  simp only [emitOps]
                  simp
                  omega
                have S1 := Seg_of_Ext H1.2 c.bytecode.code.length
                have S2 : Seg c.bytecode.code.length c1.bytecode.code
                    (emitOps c1 [.jz PLACEHOLDER]).bytecode.code :=
                  Seg_single_append _ hwjz
                have S3 : Seg c.bytecode.code.length
                    (emitOps c1 [.jz PLACEHOLDER]).bytecode.code
                    (emitOps (emitOps c1 [.jz PLACEHOLDER])
                      [.falseOp, .notOp]).bytecode.code :=
                  Seg_single_append _ hwfn
                have S4 : Seg c.bytecode.code.length
                    (emitOps (emitOps c1 [.jz PLACEHOLDER])
                      [.falseOp, .notOp]).bytecode.code
                    (emitOps (emitOps (emitOps c1 [.jz PLACEHOLDER])
                      [.falseOp, .notOp]) [.jmp PLACEHOLDER]).bytecode.code :=
                  Seg_single_append _ hwjmp
                have S5 := hseg2 c.bytecode.code.length hlen01
                have S6 := Seg_of_Ext H3.2 c.bytecode.code.length
                have S7 := hseg7 c.bytecode.code.length hlen0B
                exact Relation.ReflTransGen.trans (Relation.ReflTransGen.trans
                  (Relation.ReflTransGen.trans (Relation.ReflTransGen.trans
                    (Relation.ReflTransGen.trans
                      (Relation.ReflTransGen.trans S1 S2) S3) S4) S5) S6) S7
            all_goals cases h
        | unary uexpr op =>
            cases op
            case minus =>
              simp only [compileExpr, bind_ok] at h
              obtain ⟨c1, h1, h⟩ := h
              cases h
              have H1 := ihE uexpr c c1 pend hinv h1
              exact Concl_trans H1 (Concl_emitP H1.1 _ rfl)
            case bang =>
              simp only [compileExpr, bind_ok] at h
              obtain ⟨c1, h1, h⟩ := h
              cases h
              have H1 := ihE uexpr c c1 pend hinv h1
              exact Concl_trans H1 (Concl_emitP H1.1 _ rfl)
            case star =>
              simp only [compileExpr, bind_ok] at h
              obtain ⟨c1, h1, h⟩ := h
              cases h
              have H1 := ihE uexpr c c1 pend hinv h1
              exact Concl_trans H1 (Concl_emitP H1.1 _ rfl)
            case tilde =>
              simp only [compileExpr, bind_ok] at h
              obtain ⟨c1, h1, h⟩ := h
              cases h
              have H1 := ihE uexpr c c1 pend hinv h1
              exact Concl_trans H1 (Concl_emitP H1.1 _ rfl)
            case ampersand =>
              cases uexpr with
              | var vname =>
                  simp only [compileExpr] at h
                  cases h
                  exact Concl_of_SimpleExt hinv
                    (SimpleExt_trans (resolveLocal_simpleExt c vname)
                      (SimpleExt_emitP _ _ rfl))
              | get gexpr gmember gop =>
                  simp only [compileExpr, bind_ok] at h
                  obtain ⟨c1, h1, h⟩ := h
                  cases h
                  have H1 := ihE gexpr c c1 pend hinv h1
                  have H1b : Concl c
                      (if gop = Tok.arrow then emitOps c1 [.deref] else c1) pend := by
                    split
                    · exact Concl_trans H1 (Concl_emitP H1.1 _ rfl)
                    · exact H1
                  exact Concl_trans H1b (Concl_emitP H1b.1 _ rfl)
              | lit l => simp only [compileExpr] at h; cases h
              | binary k l r => simp only [compileExpr] at h; cases h
              | call a b => simp only [compileExpr] at h; cases h
              | assign a b o => simp only [compileExpr] at h; cases h
              | logical a b o => simp only [compileExpr] at h; cases h
              | unary a o => simp only [compileExpr] at h; cases h
              | structE n i => simp only [compileExpr] at h; cases h
              | structInit m v => simp only [compileExpr] at h; cases h
              | vecE el => simp only [compileExpr] at h; cases h
              | sub a b => simp only [compileExpr] at h; cases h
            all_goals (simp only [compileExpr] at h; cases h)
        | get gexpr gmember gop =>
            simp only [compileExpr, bind_ok] at h
            obtain ⟨c1, h1, h⟩ := h
            cases h
            have H1 := ihE gexpr c c1 pend hinv h1
            have H1b : Concl c
                (if gop = Tok.arrow then emitOps c1 [.deref] else c1) pend := by
              split
              · exact Concl_trans H1 (Concl_emitP H1.1 _ rfl)
              · exact H1
            exact Concl_trans H1b (Concl_emitP H1b.1 _ rfl)
        | structE sname inits =>
            simp only [compileExpr] at h
            split at h
            · cases h
            · split at h
              · cases h
              · have H0 : Concl c (emitOps c [.struct sname]) pend :=
                  Concl_emitP hinv _ rfl
                exact Concl_trans H0 (ihEL inits _ c' pend H0.1 h)
        | structInit member value =>
            simp only [compileExpr, bind_ok] at h
            obtain ⟨c1, h1, h⟩ := h
            have H1 := ihE value c c1 pend hinv h1
            split at h
            · cases h
              exact Concl_trans H1 (Concl_emitP H1.1 _ rfl)
            · cases h
        | vecE elements =>
            simp only [compileExpr, bind_ok] at h
            obtain ⟨c1, h1, h⟩ := h
            cases h
            have H1 := ihEL elements.reverse c c1 pend hinv h1
            exact Concl_trans H1 (Concl_emitP H1.1 _ rfl)
        | sub sexpr sindex =>
            simp only [compileExpr, bind_ok] at h
            obtain ⟨c1, h1, h⟩ := h
            obtain ⟨c2, h2, h⟩ := h
            cases h
            have H1 := ihE sexpr c c1 pend hinv h1
            have H2 := Concl_trans H1 (ihE sindex c1 c2 pend H1.1 h2)
            exact Concl_trans H2 (Concl_emitP H2.1 _ rfl)
      have hExprList : ∀ es c c' pend, INV c pend →
          compileExprList (f + 1) es c = .ok c' → Concl c c' pend := by
        intro es c c' pend hinv h
        cases es with
        | nil =>
            simp only [compileExprList] at h
            cases h
            exact Concl_refl hinv
        | cons e rest =>
            simp only [compileExprList, bind_ok] at h
            obtain ⟨c1, h1, h⟩ := h
            have H1 := ihE e c c1 pend hinv h1
            exact Concl_trans H1 (ihEL rest c1 c' pend H1.1 h)
      have hStmtList : ∀ l c c' pend, stmtListSizesOk l = true → INV c pend →
          compileStmtList (f + 1) l c = .ok c' → Concl c c' pend := by
        intro l c c' pend hsz hinv h
        cases l with
        | nil =>
            simp only [compileStmtList] at h
            cases h
            exact Concl_refl hinv
        | cons s rest =>
            rw [stmtListSizesOk, Bool.and_eq_true] at hsz
            simp only [compileStmtList, bind_ok] at h
            obtain ⟨c1, h1, h⟩ := h
            have H1 := ihS s c c1 pend hsz.1 hinv h1
            exact Concl_trans H1 (ihSL rest c1 c' pend hsz.2 H1.1 h)
      have hFn : ∀ name args body c c' pend, stmtSizesOk body = true →
          INV c pend → compileFn (f + 1) name args body c = .ok c' →
          Concl c c' pend := by
        intro name args body c c' pend hsz hinv h
        simp only [compileFn, emitOp] at h
        have hwjmp : Wf [Opcode.jmp PLACEHOLDER] :=
          Wf_of_all_simple _ (by
            intro o ho
            rw [List.mem_singleton] at ho
            rw [ho]; rfl)
        have hI1 : INV (emitOps c [.jmp PLACEHOLDER])
            (c.bytecode.code.length :: pend) :=
          INV_emit_ph (Or.inl rfl) hinv
        have hBnd : Boundary (emitOps c [.jmp PLACEHOLDER]).bytecode.code
            (c.bytecode.code.length + 1) := by
          have hb := Boundary_end hI1.1
          have hlen : (emitOps c [.jmp PLACEHOLDER]).bytecode.code.length =
              c.bytecode.code.length + 1 := by simp [emitOps]
          rw [hlen] at hb
          exact hb
        have hI2 : INV { emitOps c [.jmp PLACEHOLDER] with functions := alInsert (emitOps c [.jmp PLACEHOLDER]).functions name { name := name, localscount := 0, location := c.bytecode.code.length, paramcount := args.length } } (c.bytecode.code.length :: pend) :=
          INV_funs_insert hI1 hBnd
        cases body
        all_goals
          simp only [bind_ok] at h
          obtain ⟨c5, h5, h⟩ := h
          obtain ⟨c6, h6, h⟩ := h
          have H5 : Concl { emitOps c [.jmp PLACEHOLDER] with functions := alInsert (emitOps c [.jmp PLACEHOLDER]).functions name { name := name, localscount := 0, location := c.bytecode.code.length, paramcount := args.length }, locals := c.locals ++ args, pops := c.pops ++ [(c.locals ++ args).length] } c5 (c.bytecode.code.length :: pend) := by
            first
            | exact ihS _ _ _ _ hsz (INV_congr rfl rfl rfl rfl rfl hI2) h5
            | (cases h5; exact Concl_refl (INV_congr rfl rfl rfl rfl rfl hI2))
          obtain ⟨c6x, hp6, hI6, hbr6, hls6, hfn6, hloc6, hpops6, hst6,
            hld6, hd6, hlen6, hbt6, hseg6⟩ := INV_patch H5.1
          rw [hp6] at h6
          cases h6
          cases h
          refine ⟨INV_congr rfl rfl rfl rfl rfl (INV_funs_localscount hI6),
            Ext_assemble ?_ ?_ hinv.1⟩
          · have B1 : BExt c { emitOps c [.jmp PLACEHOLDER] with functions := alInsert (emitOps c [.jmp PLACEHOLDER]).functions name { name := name, localscount := 0, location := c.bytecode.code.length, paramcount := args.length }, locals := c.locals ++ args, pops := c.pops ++ [(c.locals ++ args).length] } :=
              BExt_same rfl rfl (by simp [emitOps])
            have B2 := BExt_of_Ext H5.2
            have B3 := BExt_same hbr6 hls6 (le_of_eq hlen6.symm)
            have B4 : BExt c6 { c6 with functions := alModify c6.functions name (fun g => { g with localscount := c6.locals.length }), locals := [], pops := [] } := BExt_same rfl rfl (le_refl _)
            exact BExt_trans (BExt_trans (BExt_trans B1 B2) B3) B4
          · have S1 : Seg c.bytecode.code.length c.bytecode.code
                (emitOps c [.jmp PLACEHOLDER]).bytecode.code :=
              Seg_single_append _ hwjmp
            have S2 := Seg_of_Ext H5.2 c.bytecode.code.length
            have S3 := hseg6 c.bytecode.code.length (le_refl _)
            exact Relation.ReflTransGen.trans
              (Relation.ReflTransGen.trans S1 S2) S3
      have hImpl : ∀ ms bp c r pend, stmtListSizesOk ms = true → INV c pend →
          implMethods (f + 1) ms bp c = .ok r → Concl c r.2 pend ∧
            r.1.methods.length ≤ bp.methods.length + ms.length := by
        intro ms bp c r pend hsz hinv h
        cases ms with
        | nil =>
            simp only [implMethods] at h
            cases h
            exact ⟨Concl_refl hinv, by simp⟩
        | cons m rest =>
            rw [stmtListSizesOk, Bool.and_eq_true] at hsz
            cases m with
            | fn mname margs mbody =>
                simp only [implMethods, bind_ok] at h
                obtain ⟨c1, h1, h⟩ := h
                have H1 := ihF mname margs mbody c c1 pend hsz.1 hinv h1
                have H2 := ihM rest _ c1 r pend hsz.2 H1.1 h
                refine ⟨Concl_trans H1 H2.1, ?_⟩
                have hb := H2.2
                have hi := alInsert_length bp.methods mname
                  { name := mname, localscount := 0,
                    location := c.bytecode.code.length,
                    paramcount := margs.length }
                have hmeq : ({ bp with methods := alInsert bp.methods mname { name := mname, localscount := 0, location := c.bytecode.code.length, paramcount := margs.length } } : Blueprint).methods.length = (alInsert bp.methods mname { name := mname, localscount := 0, location := c.bytecode.code.length, paramcount := margs.length }).length := rfl
                simp only [List.length_cons]
                omega
            | print e =>
                simp only [implMethods] at h
                have H := ihM rest bp c r pend hsz.2 hinv h
                exact ⟨H.1, by simp only [List.length_cons]; omega⟩
            | ret e =>
                simp only [implMethods] at h
                have H := ihM rest bp c r pend hsz.2 hinv h
                exact ⟨H.1, by simp only [List.length_cons]; omega⟩
            | ifS a b d =>
                simp only [implMethods] at h
                have H := ihM rest bp c r pend hsz.2 hinv h
                exact ⟨H.1, by simp only [List.length_cons]; omega⟩
            | whileS a b =>
                simp only [implMethods] at h
                have H := ihM rest bp c r pend hsz.2 hinv h
                exact ⟨H.1, by simp only [List.length_cons]; omega⟩
            | forS a b d e =>
                simp only [implMethods] at h
                have H := ihM rest bp c r pend hsz.2 hinv h
                exact ⟨H.1, by simp only [List.length_cons]; omega⟩
            | breakS =>
                simp only [implMethods] at h
                have H := ihM rest bp c r pend hsz.2 hinv h
                exact ⟨H.1, by simp only [List.length_cons]; omega⟩
            | continueS =>
                simp only [implMethods] at h
                have H := ihM rest bp c r pend hsz.2 hinv h
                exact ⟨H.1, by simp only [List.length_cons]; omega⟩
            | structS a b =>
                simp only [implMethods] at h
                have H := ihM rest bp c r pend hsz.2 hinv h
                exact ⟨H.1, by simp only [List.length_cons]; omega⟩
            | implS a b =>
                simp only [implMethods] at h
                have H := ihM rest bp c r pend hsz.2 hinv h
                exact ⟨H.1, by simp only [List.length_cons]; omega⟩
            | exprS e =>
                simp only [implMethods] at h
                have H := ihM rest bp c r pend hsz.2 hinv h
                exact ⟨H.1, by simp only [List.length_cons]; omega⟩
            | block b =>
                simp only [implMethods] at h
                have H := ihM rest bp c r pend hsz.2 hinv h
                exact ⟨H.1, by simp only [List.length_cons]; omega⟩
            | dummy =>
                simp only [implMethods] at h
                have H := ihM rest bp c r pend hsz.2 hinv h
                exact ⟨H.1, by simp only [List.length_cons]; omega⟩
      have hStmt : ∀ s c c' pend, stmtSizesOk s = true → INV c pend →
          compileStmt (f + 1) s c = .ok c' → Concl c c' pend := by
        intro s c c' pend hsz hinv h
        have hwjz : Wf [Opcode.jz PLACEHOLDER] :=
          Wf_of_all_simple _ (by
            intro o ho
            rw [List.mem_singleton] at ho
            rw [ho]; rfl)
        have hwjmp : Wf [Opcode.jmp PLACEHOLDER] :=
          Wf_of_all_simple _ (by
            intro o ho
            rw [List.mem_singleton] at ho
            rw [ho]; rfl)
        cases s with
        | print e =>
            simp only [compileStmt, bind_ok] at h
            obtain ⟨c1, h1, h⟩ := h
            cases h
            have H1 := ihE e c c1 pend hinv h1
            exact Concl_trans H1 (Concl_emitP H1.1 _ rfl)
        | fn name args body =>
            simp only [compileStmt] at h
            exact ihF name args body c c' pend hsz hinv h
        | ret e =>
            simp only [compileStmt, bind_ok] at h
            obtain ⟨c1, h1, h⟩ := h
            cases h
            have H1 := ihE e c c1 pend hinv h1
            have H2 : Concl c1 (emitOps c1
                (retDeepsets c1.locals.length (c1.locals.length - 1))) pend := by
              refine Concl_emitOps H1.1 (Wf_of_all_simple _ ?_) ?_
              · intro op hop
                obtain ⟨m, rfl⟩ := retDeepsets_shape _ _ op hop
                rfl
              · intro op hop v
                obtain ⟨m, rfl⟩ := retDeepsets_shape _ _ op hop
                exact ⟨fun hc => (nomatch hc), fun hc => (nomatch hc)⟩
            have H3 := Concl_trans H1 H2
            exact Concl_trans H3 (Concl_emitP H3.1 _ rfl)
        | ifS cond ifBranch elseBranch =>
            have hsz2 : stmtSizesOk ifBranch = true ∧
                stmtSizesOk elseBranch = true := by
              simp only [stmtSizesOk, Bool.and_eq_true] at hsz
              exact hsz
            simp only [compileStmt, emitOp, bind_ok] at h
            obtain ⟨c1, h1, h⟩ := h
            obtain ⟨c3, h3, h⟩ := h
            obtain ⟨c5, h5, h⟩ := h
            obtain ⟨c6, h6, h⟩ := h
            have H1 := ihE cond c c1 pend hinv h1
            have hI2 : INV (emitOps c1 [.jz PLACEHOLDER])
                (c1.bytecode.code.length :: pend) :=
              INV_emit_ph (Or.inr rfl) H1.1
            have H3 := ihS ifBranch _ c3 (c1.bytecode.code.length :: pend)
              hsz2.1 hI2 h3
            have hI4 : INV (emitOps c3 [.jmp PLACEHOLDER])
                (c3.bytecode.code.length ::
                  c1.bytecode.code.length :: pend) :=
              INV_emit_ph (Or.inl rfl) H3.1
            have hI4x : INV (emitOps c3 [.jmp PLACEHOLDER])
                (c1.bytecode.code.length ::
                  c3.bytecode.code.length :: pend) :=
              INV_perm hI4 (by
                intro i
                constructor <;> (intro hi; simp at hi ⊢; tauto))
            obtain ⟨c5x, hp5, hI5, hbr5, hls5, hfn5, hloc5, hpops5, hst5,
              hld5, hd5, hlen5, hbt5, hseg5⟩ := INV_patch hI4x
            rw [hp5] at h5
            cases h5
            have H6 := ihS elseBranch c5 c6
              (c3.bytecode.code.length :: pend) hsz2.2 hI5 h6
            obtain ⟨c7, hp7, hI7, hbr7, hls7, hfn7, hloc7, hpops7, hst7,
              hld7, hd7, hlen7, hbt7, hseg7⟩ := INV_patch H6.1
            rw [hp7] at h
            cases h
            refine ⟨hI7, Ext_assemble ?_ ?_ hinv.1⟩
            · have B1 := BExt_of_Ext H1.2
              have B2 : BExt c1 (emitOps c1 [.jz PLACEHOLDER]) :=
                BExt_same rfl rfl (by simp [emitOps])
              have B3 := BExt_of_Ext H3.2
              have B4 : BExt c3 (emitOps c3 [.jmp PLACEHOLDER]) :=
                BExt_same rfl rfl (by simp [emitOps])
              have B5 := BExt_same hbr5 hls5 (le_of_eq hlen5.symm)
              have B6 := BExt_of_Ext H6.2
              have B7 := BExt_same hbr7 hls7 (le_of_eq hlen7.symm)
              exact BExt_trans (BExt_trans (BExt_trans (BExt_trans
                (BExt_trans (BExt_trans B1 B2) B3) B4) B5) B6) B7
            · have hlen01 : c.bytecode.code.length ≤
                  c1.bytecode.code.length := (BExt_of_Ext H1.2).2.2.2.2
              have hlen03 : c.bytecode.code.length ≤
                  c3.bytecode.code.length := by
                have B2 : BExt c1 (emitOps c1 [.jz PLACEHOLDER]) :=
                  BExt_same rfl rfl (by simp [emitOps])
                exact (BExt_trans (BExt_trans (BExt_of_Ext H1.2) B2)
                  (BExt_of_Ext H3.2)).2.2.2.2
              have S1 := Seg_of_Ext H1.2 c.bytecode.code.length
              have S2 : Seg c.bytecode.code.length c1.bytecode.code
                  (emitOps c1 [.jz PLACEHOLDER]).bytecode.code :=
                Seg_single_append _ hwjz
              have S3 := Seg_of_Ext H3.2 c.bytecode.code.length
              have S4 : Seg c.bytecode.code.length c3.bytecode.code
                  (emitOps c3 [.jmp PLACEHOLDER]).bytecode.code :=
                Seg_single_append _ hwjmp
              have S5 := hseg5 c.bytecode.code.length hlen01
              have S6 := Seg_of_Ext H6.2 c.bytecode.code.length
              have S7 := hseg7 c.bytecode.code.length hlen03
              exact Relation.ReflTransGen.trans (Relation.ReflTransGen.trans
                (Relation.ReflTransGen.trans (Relation.ReflTransGen.trans
                  (Relation.ReflTransGen.trans
                    (Relation.ReflTransGen.trans S1 S2) S3) S4) S5) S6) S7
        | whileS cond body =>
            simp only [compileStmt, emitOp, bind_ok] at h
            obtain ⟨ls, hls0, h⟩ := h
            obtain ⟨c1, h1, h⟩ := h
            obtain ⟨c3, h3, h⟩ := h
            obtain ⟨c5, h5, h⟩ := h
            obtain ⟨hne0, hlseq⟩ := lenMinus1_ok hls0
            have hlenpos : c.bytecode.code.length ≠ 0 := by
              intro hz
              exact hne0 (List.length_eq_zero.mp hz)
            have hlsBnd : Boundary c.bytecode.code (ls + 1) := by
              have he : ls + 1 = c.bytecode.code.length := by omega
              rw [he]
              exact Boundary_end hinv.1
            have hIA : INV { c with loopStarts := c.loopStarts ++ [ls] } pend := by
              refine INV_loopStarts hinv ?_
              intro l hl
              rw [List.mem_append] at hl
              rcases hl with hl | hl
              · exact Or.inl hl
              · rw [List.mem_singleton] at hl
                exact Or.inr (hl ▸ hlsBnd)
            have H1 := ihE cond _ c1 pend hIA h1
            have hI2 : INV (emitOps c1 [.jz PLACEHOLDER])
                (c1.bytecode.code.length :: pend) :=
              INV_emit_ph (Or.inr rfl) H1.1
            have hI2b : INV { emitOps c1 [.jz PLACEHOLDER] with loopDepths := (emitOps c1 [.jz PLACEHOLDER]).loopDepths ++ [(emitOps c1 [.jz PLACEHOLDER]).depth] } (c1.bytecode.code.length :: pend) :=
              INV_congr rfl rfl rfl rfl rfl hI2
            have H3 := ihS body _ c3 (c1.bytecode.code.length :: pend) hsz hI2b h3
            have hI3b : INV { c3 with loopDepths := c3.loopDepths.dropLast } (c1.bytecode.code.length :: pend) :=
              INV_congr rfl rfl rfl rfl rfl H3.1
            have hlsc1 : c1.loopStarts = c.loopStarts ++ [ls] := H1.2.2.1
            have hlsc3 : c3.loopStarts = c.loopStarts ++ [ls] := by
              have he3 := H3.2.2.1
              rw [he3]
              exact hlsc1
            have hbrc1 : c.breaks <+: c1.breaks := H1.2.2.2.1
            have hbrc3 : c.breaks <+: c3.breaks := hbrc1.trans H3.2.2.2.1
            have hble : c.breaks.length ≤ c3.breaks.length := hbrc3.length_le
            have hlen01 : c.bytecode.code.length ≤ c1.bytecode.code.length :=
              (BExt_of_Ext H1.2).2.2.2.2
            have hlen2b : ({ emitOps c1 [.jz PLACEHOLDER] with loopDepths := (emitOps c1 [.jz PLACEHOLDER]).loopDepths ++ [(emitOps c1 [.jz PLACEHOLDER]).depth] } : CompilerState).bytecode.code.length = c1.bytecode.code.length + 1 := by
              simp [emitOps]
            have hlen23 : ({ emitOps c1 [.jz PLACEHOLDER] with loopDepths := (emitOps c1 [.jz PLACEHOLDER]).loopDepths ++ [(emitOps c1 [.jz PLACEHOLDER]).depth] } : CompilerState).bytecode.code.length ≤ c3.bytecode.code.length :=
              (BExt_of_Ext H3.2).2.2.2.2
            have hsuffix : ∀ p ∈ c3.breaks.drop c.breaks.length,
                c.bytecode.code.length ≤ p := by
              obtain ⟨t1, ht1⟩ := hbrc1
              obtain ⟨t2, ht2⟩ := hbrc3.trans (List.prefix_refl _)
              intro p hp
              obtain ⟨t3, ht3⟩ := (H3.2.2.2.1 : _ <+: c3.breaks)
              have hd : c3.breaks.drop c.breaks.length = t1 ++ t3 := by
                rw [← ht3]
                show (c1.breaks ++ t3).drop c.breaks.length = t1 ++ t3
                rw [← ht1, List.append_assoc]
                exact List.drop_left _ _
              rw [hd, List.mem_append] at hp
              rcases hp with hp | hp
              · exact H1.2.2.2.2.1 p (by rw [← ht1]; simpa [List.drop_left] using hp)
              · have hb := H3.2.2.2.2.1 p (by
                  rw [← ht3]
                  show p ∈ (c1.breaks ++ t3).drop c1.breaks.length
                  simpa [List.drop_left] using hp)
                have hb2 : ({ emitOps c1 [.jz PLACEHOLDER] with loopDepths := (emitOps c1 [.jz PLACEHOLDER]).loopDepths ++ [(emitOps c1 [.jz PLACEHOLDER]).depth] } : CompilerState).bytecode.code.length ≤ p := hb
                omega
            have hmemls : ls ∈ ({ c3 with loopDepths := c3.loopDepths.dropLast } : CompilerState).loopStarts := by
              show ls ∈ c3.loopStarts
              rw [hlsc3, List.mem_append]
              right
              simp
            have hjb : Boundary ({ c3 with loopDepths := c3.loopDepths.dropLast } : CompilerState).bytecode.code (ls + 1) :=
              hI3b.2.2.2.2.1 ls hmemls
            have hI4 : INV (emitOps { c3 with loopDepths := c3.loopDepths.dropLast } [.jmp ls])
                (c1.bytecode.code.length :: pend) :=
              INV_emit_jmp_good hI3b hjb
            obtain ⟨c5x, hpop, hbr5, hWf5, hGT5, hPat5, hlen5, hBound5, hSeg5,
              hfn5, hloc5, hpops5, hst5, hls5, hld5, hd5⟩ :=
              popBreaks_ok ((emitOps { c3 with loopDepths := c3.loopDepths.dropLast } [.jmp ls]).breaks.length - c.breaks.length)
                (emitOps { c3 with loopDepths := c3.loopDepths.dropLast } [.jmp ls])
                (c1.bytecode.code.length :: pend) hI4.1 hI4.2.1 hI4.2.2.1
                (Nat.sub_le _ _)
            rw [hpop] at h5
            cases h5
            have hbreq5 : c5.breaks = c.breaks := by
              rw [hbr5]
              have e1 : (emitOps { c3 with loopDepths := c3.loopDepths.dropLast } [.jmp ls]).breaks = c3.breaks := rfl
              rw [e1]
              have e2 : c3.breaks.length - (c3.breaks.length - c.breaks.length) =
                  c.breaks.length := by omega
              rw [e2]
              exact (List.prefix_iff_eq_take.mp hbrc3).symm
            have hI5 : INV c5 (c1.bytecode.code.length :: pend) := by
              refine ⟨hWf5, hGT5, hPat5, ?_, ?_, ?_⟩
              · intro p hp
                rw [hfn5] at hp
                exact hBound5 _ (hI4.2.2.2.1 p hp)
              · intro l hl
                rw [hls5] at hl
                exact hBound5 _ (hI4.2.2.2.2.1 l hl)
              · intro p hp
                rw [hst5] at hp
                exact hI4.2.2.2.2.2 p hp
            have hI5b : INV { c5 with loopStarts := c5.loopStarts.dropLast }
                (c1.bytecode.code.length :: pend) := by
              refine INV_loopStarts hI5 ?_
              intro l hl
              exact Or.inl (List.mem_of_mem_dropLast hl)
            obtain ⟨c7, hp7, hI7, hbr7, hls7, hfn7, hloc7, hpops7, hst7,
              hld7, hd7, hlen7, hbt7, hseg7⟩ := INV_patch hI5b
            rw [hp7] at h
            cases h
            refine ⟨hI7, Ext_assemble (BExt_same ?_ ?_ ?_) ?_ hinv.1⟩
            · rw [hbr7]
              show c5.breaks = c.breaks
              exact hbreq5
            · rw [hls7]
              show c5.loopStarts.dropLast = c.loopStarts
              have e5 : c5.loopStarts = c.loopStarts ++ [ls] := by
                rw [hls5]
                show c3.loopStarts = _
                exact hlsc3
              rw [e5]
              simp
            · rw [hlen7]
              show c.bytecode.code.length ≤ c5.bytecode.code.length
              rw [hlen5]
              have e3 : (emitOps { c3 with loopDepths := c3.loopDepths.dropLast } [.jmp ls]).bytecode.code.length =
                  c3.bytecode.code.length + 1 := by simp [emitOps]
              rw [e3]
              omega
            · have hwjl : Wf [Opcode.jmp ls] :=
                Wf_of_all_simple _ (by
                  intro o ho
                  rw [List.mem_singleton] at ho
                  rw [ho]; rfl)
              have S1 := Seg_of_Ext H1.2 c.bytecode.code.length
              have S2 : Seg c.bytecode.code.length c1.bytecode.code
                  (emitOps c1 [.jz PLACEHOLDER]).bytecode.code :=
                Seg_single_append _ hwjz
              have S3 := Seg_of_Ext H3.2 c.bytecode.code.length
              have S4 : Seg c.bytecode.code.length c3.bytecode.code
                  (emitOps { c3 with loopDepths := c3.loopDepths.dropLast } [.jmp ls]).bytecode.code :=
                Seg_single_append _ hwjl
              have S5 : Seg c.bytecode.code.length
                  (emitOps { c3 with loopDepths := c3.loopDepths.dropLast } [.jmp ls]).bytecode.code
                  c5.bytecode.code := by
                refine hSeg5 c.bytecode.code.length ?_
                intro q hq
                have e1 : (emitOps { c3 with loopDepths := c3.loopDepths.dropLast } [.jmp ls]).breaks = c3.breaks := rfl
                rw [e1] at hq
                have e2 : c3.breaks.length - (c3.breaks.length - c.breaks.length) =
                    c.breaks.length := by omega
                rw [e2] at hq
                exact hsuffix q hq
              have S6 := hseg7 c.bytecode.code.length hlen01
              exact Relation.ReflTransGen.trans (Relation.ReflTransGen.trans
                (Relation.ReflTransGen.trans (Relation.ReflTransGen.trans
                  (Relation.ReflTransGen.trans S1 S2) S3) S4) S5) S6
        | forS initializer cond advancement body =>
            cases initializer with
            | assign lhs rhs aop =>
                cases lhs with
                | var vname =>
                    simp only [compileStmt, emitOp, bind_ok] at h
                    obtain ⟨c1, h1, h⟩ := h
                    obtain ⟨ls, hls0, h⟩ := h
                    obtain ⟨c2, h2, h⟩ := h
                    obtain ⟨lc, hlc0, h⟩ := h
                    obtain ⟨c3, h3, h⟩ := h
                    obtain ⟨c5, h5, h⟩ := h
                    obtain ⟨c6, h6, h⟩ := h
                    obtain ⟨c8, h8, h⟩ := h
                    obtain ⟨c9, h9, h⟩ := h
                    have hwjl : Wf [Opcode.jmp ls] :=
                      Wf_of_all_simple _ (by
                        intro o ho
                        rw [List.mem_singleton] at ho
                        rw [ho]; rfl)
                    have hwjlc : Wf [Opcode.jmp lc] :=
                      Wf_of_all_simple _ (by
                        intro o ho
                        rw [List.mem_singleton] at ho
                        rw [ho]; rfl)
                    have hIV : INV { c with locals := c.locals ++ [vname] } pend :=
                      INV_congr rfl rfl rfl rfl rfl hinv
                    have H1 := ihE rhs _ c1 pend hIV h1
                    have hExtC1 : Ext c c1 := H1.2
                    obtain ⟨hne1, hlseq⟩ := lenMinus1_ok hls0
                    have hl1pos : c1.bytecode.code.length ≠ 0 := fun hz =>
                      hne1 (List.length_eq_zero.mp hz)
                    have hlsBnd : Boundary c1.bytecode.code (ls + 1) := by
                      have he : ls + 1 = c1.bytecode.code.length := by omega
                      rw [he]
                      exact Boundary_end H1.1.1
                    have hIA : INV { c1 with loopStarts := c1.loopStarts ++ [ls] } pend := by
                      refine INV_loopStarts H1.1 ?_
                      intro l hl
                      rw [List.mem_append] at hl
                      rcases hl with hl | hl
                      · exact Or.inl hl
                      · rw [List.mem_singleton] at hl
                        exact Or.inr (hl ▸ hlsBnd)
                    have H2 := ihE cond _ c2 pend hIA h2
                    have hIB : INV (emitOps c2 [.jz PLACEHOLDER]) (c2.bytecode.code.length :: pend) :=
                      INV_emit_ph (Or.inr rfl) H2.1
                    have hIC : INV (emitOps (emitOps c2 [.jz PLACEHOLDER]) [.jmp PLACEHOLDER]) ((emitOps c2 [.jz PLACEHOLDER]).bytecode.code.length :: c2.bytecode.code.length :: pend) :=
                      INV_emit_ph (Or.inl rfl) hIB
                    obtain ⟨hneC, hlceq⟩ := lenMinus1_ok hlc0
                    have hlCpos : (emitOps (emitOps c2 [.jz PLACEHOLDER]) [.jmp PLACEHOLDER]).bytecode.code.length ≠ 0 := fun hz =>
                      hneC (List.length_eq_zero.mp hz)
                    have hlcBnd : Boundary (emitOps (emitOps c2 [.jz PLACEHOLDER]) [.jmp PLACEHOLDER]).bytecode.code (lc + 1) := by
                      have he : lc + 1 = (emitOps (emitOps c2 [.jz PLACEHOLDER]) [.jmp PLACEHOLDER]).bytecode.code.length := by omega
                      rw [he]
                      exact Boundary_end hIC.1
                    have H3 := ihE advancement _ c3
                      ((emitOps c2 [.jz PLACEHOLDER]).bytecode.code.length :: c2.bytecode.code.length :: pend) hIC h3
                    have hlsc2 : c2.loopStarts = c1.loopStarts ++ [ls] := H2.2.2.1
                    have hlsc3 : c3.loopStarts = c1.loopStarts ++ [ls] := by
                      have he3 := H3.2.2.1
                      rw [he3]
                      exact hlsc2
                    have hmls : ls ∈ c3.loopStarts := by
                      rw [hlsc3, List.mem_append]
                      right
                      simp
                    have hI4 : INV (emitOps c3 [.jmp ls])
                        ((emitOps c2 [.jz PLACEHOLDER]).bytecode.code.length :: c2.bytecode.code.length :: pend) :=
                      INV_emit_jmp_good H3.1 (H3.1.2.2.2.2.1 ls hmls)
                    obtain ⟨c5x, hp5, hI5, hbr5, hls5, hfn5, hloc5, hpops5, hst5,
                      hld5, hd5, hlen5, hbt5, hseg5⟩ := INV_patch hI4
                    rw [hp5] at h5
                    cases h5
                    have hB3 : Boundary c3.bytecode.code (lc + 1) := by
                      obtain ⟨e3, he3, hw3⟩ := H3.2.1
                      rw [he3]
                      exact Boundary_append _ hlcBnd hw3
                    have hB4 : Boundary (emitOps c3 [.jmp ls]).bytecode.code (lc + 1) := by
                      show Boundary (c3.bytecode.code ++ [Opcode.jmp ls]) _
                      exact Boundary_append _ hB3 hwjl
                    have hB5 : Boundary c5.bytecode.code (lc + 1) := hbt5 _ hB4
                    have hlsc5 : c5.loopStarts = c1.loopStarts ++ [ls] := by
                      rw [hls5]
                      exact hlsc3
                    have hcond : ¬ c5.loopStarts.isEmpty = true := by
                      simp [hlsc5]
                    rw [if_neg hcond] at h6
                    have hI5L : INV { c5 with loopStarts := c5.loopStarts.dropLast ++ [lc] }
                        (c2.bytecode.code.length :: pend) := by
                      have hI5' : INV c5 (c2.bytecode.code.length :: pend) := by
                        refine INV_perm hI5 ?_
                        intro i
                        constructor
                        · intro hi
                          exact hi
                        · intro hi
                          exact hi
                      refine INV_loopStarts hI5' ?_
                      intro l hl
                      rw [List.mem_append] at hl
                      rcases hl with hl | hl
                      · exact Or.inl (List.mem_of_mem_dropLast hl)
                      · rw [List.mem_singleton] at hl
                        exact Or.inr (hl ▸ hB5)
                    have hI5D : INV { { c5 with loopStarts := c5.loopStarts.dropLast ++ [lc] } with loopDepths := ({ c5 with loopStarts := c5.loopStarts.dropLast ++ [lc] } : CompilerState).loopDepths ++ [({ c5 with loopStarts := c5.loopStarts.dropLast ++ [lc] } : CompilerState).depth] } (c2.bytecode.code.length :: pend) :=
                      INV_congr rfl rfl rfl rfl rfl hI5L
                    have H6 := ihS body _ c6 (c2.bytecode.code.length :: pend) hsz hI5D h6
                    have hI6D : INV { c6 with loopDepths := c6.loopDepths.dropLast } (c2.bytecode.code.length :: pend) :=
                      INV_congr rfl rfl rfl rfl rfl H6.1
                    have hlsc6 : c6.loopStarts = c5.loopStarts.dropLast ++ [lc] := H6.2.2.1
                    have hmlc : lc ∈ ({ c6 with loopDepths := c6.loopDepths.dropLast } : CompilerState).loopStarts := by
                      show lc ∈ c6.loopStarts
                      rw [hlsc6, List.mem_append]
                      right
                      simp
                    have hI7 : INV (emitOps { c6 with loopDepths := c6.loopDepths.dropLast } [.jmp lc]) (c2.bytecode.code.length :: pend) :=
                      INV_emit_jmp_good hI6D (hI6D.2.2.2.2.1 lc hmlc)
                    have hbrc2 : c1.breaks <+: c2.breaks := H2.2.2.2.1
                    have hbrc3 : c1.breaks <+: c3.breaks := hbrc2.trans H3.2.2.2.1
                    have hbr5e : c5.breaks = c3.breaks := hbr5
                    have hbrc6 : c1.breaks <+: c6.breaks := by
                      refine hbrc3.trans ?_
                      rw [← hbr5e]
                      exact H6.2.2.2.1
                    have hble : c1.breaks.length ≤ c6.breaks.length := hbrc6.length_le
                    have hlen01 : c.bytecode.code.length ≤ c1.bytecode.code.length :=
                      (BExt_of_Ext hExtC1).2.2.2.2
                    have hlen12 : c1.bytecode.code.length ≤ c2.bytecode.code.length :=
                      (BExt_of_Ext H2.2).2.2.2.2
                    have hlenC3 : (emitOps (emitOps c2 [.jz PLACEHOLDER]) [.jmp PLACEHOLDER]).bytecode.code.length ≤ c3.bytecode.code.length :=
                      (BExt_of_Ext H3.2).2.2.2.2
                    have hlenCC : (emitOps (emitOps c2 [.jz PLACEHOLDER]) [.jmp PLACEHOLDER]).bytecode.code.length = c2.bytecode.code.length + 2 := by
                      simp [emitOps]
                    have hlen35 : c5.bytecode.code.length = c3.bytecode.code.length + 1 := by
                      rw [hlen5]
                      simp [emitOps]
                    have hlen56 : c5.bytecode.code.length ≤ c6.bytecode.code.length :=
                      (BExt_of_Ext H6.2).2.2.2.2
                    have hsuffix : ∀ p ∈ c6.breaks.drop c1.breaks.length,
                        c.bytecode.code.length ≤ p := by
                      obtain ⟨t2, ht2⟩ := hbrc2
                      obtain ⟨t3, ht3⟩ := (H3.2.2.2.1 : _ <+: c3.breaks)
                      obtain ⟨t6, ht6⟩ := (H6.2.2.2.1 : _ <+: c6.breaks)
                      intro p hp
                      have hd : c6.breaks.drop c1.breaks.length = t2 ++ (t3 ++ t6) := by
                        rw [← ht6]
                        show (c5.breaks ++ t6).drop c1.breaks.length = _
                        rw [hbr5e, ← ht3]
                        show ((c2.breaks ++ t3) ++ t6).drop c1.breaks.length = _
                        rw [← ht2, List.append_assoc, List.append_assoc]
                        exact List.drop_left _ _
                      rw [hd, List.mem_append] at hp
                      rcases hp with hp | hp
                      · have hb := H2.2.2.2.2.1 p (by
                          rw [← ht2]
                          show p ∈ (c1.breaks ++ t2).drop c1.breaks.length
                          simpa [List.drop_left] using hp)
                        have hb2 : c1.bytecode.code.length ≤ p := hb
                        omega
                      · rw [List.mem_append] at hp
                        rcases hp with hp | hp
                        · have hb := H3.2.2.2.2.1 p (by
                            rw [← ht3]
                            show p ∈ (c2.breaks ++ t3).drop c2.breaks.length
                            simpa [List.drop_left] using hp)
                          have hb2 : (emitOps (emitOps c2 [.jz PLACEHOLDER]) [.jmp PLACEHOLDER]).bytecode.code.length ≤ p := hb
                          omega
                        · have hb := H6.2.2.2.2.1 p (by
                            rw [← ht6]
                            show p ∈ (c5.breaks ++ t6).drop c5.breaks.length
                            simpa [List.drop_left] using hp)
                          have hb2 : c5.bytecode.code.length ≤ p := hb
                          omega
                    obtain ⟨c8x, hpop, hbr8, hWf8, hGT8, hPat8, hlen8, hBound8, hSeg8,
                      hfn8, hloc8, hpops8, hst8, hls8, hld8, hd8⟩ :=
                      popBreaks_ok ((emitOps { c6 with loopDepths := c6.loopDepths.dropLast } [.jmp lc]).breaks.length - c1.breaks.length)
                        (emitOps { c6 with loopDepths := c6.loopDepths.dropLast } [.jmp lc])
                        (c2.bytecode.code.length :: pend) hI7.1 hI7.2.1 hI7.2.2.1
                        (Nat.sub_le _ _)
                    rw [hpop] at h8
                    cases h8
                    have hbreq8 : c8.breaks = c1.breaks := by
                      rw [hbr8]
                      have e1 : (emitOps { c6 with loopDepths := c6.loopDepths.dropLast } [.jmp lc]).breaks = c6.breaks := rfl
                      rw [e1]
                      have e2 : c6.breaks.length - (c6.breaks.length - c1.breaks.length) =
                          c1.breaks.length := by omega
                      rw [e2]
                      exact (List.prefix_iff_eq_take.mp hbrc6).symm
                    have hI8 : INV c8 (c2.bytecode.code.length :: pend) := by
                      refine ⟨hWf8, hGT8, hPat8, ?_, ?_, ?_⟩
                      · intro p hp
                        rw [hfn8] at hp
                        exact hBound8 _ (hI7.2.2.2.1 p hp)
                      · intro l hl
                        rw [hls8] at hl
                        exact hBound8 _ (hI7.2.2.2.2.1 l hl)
                      · intro p hp
                        rw [hst8] at hp
                        exact hI7.2.2.2.2.2 p hp
                    have hI8L : INV { c8 with locals := c8.locals.dropLast }
                        (c2.bytecode.code.length :: pend) :=
                      INV_congr rfl rfl rfl rfl rfl hI8
                    have hI8S : INV { { c8 with locals := c8.locals.dropLast } with loopStarts := ({ c8 with locals := c8.locals.dropLast } : CompilerState).loopStarts.dropLast } (c2.bytecode.code.length :: pend) := by
                      refine INV_loopStarts hI8L ?_
                      intro l hl
                      exact Or.inl (List.mem_of_mem_dropLast hl)
                    obtain ⟨c9x, hp9, hI9, hbr9, hls9, hfn9, hloc9, hpops9, hst9,
                      hld9, hd9, hlen9, hbt9, hseg9⟩ := INV_patch hI8S
                    rw [hp9] at h9
                    cases h9
                    cases h
                    refine ⟨INV_emitP hI9 [.pop 1] rfl,
                      Ext_assemble (BExt_trans (BExt_of_Ext hExtC1) (BExt_same ?_ ?_ ?_)) ?_ hinv.1⟩
                    · show c9.breaks = c1.breaks
                      rw [hbr9]
                      exact hbreq8
                    · show c9.loopStarts = c1.loopStarts
                      rw [hls9]
                      show ({ c8 with locals := c8.locals.dropLast } : CompilerState).loopStarts.dropLast = c1.loopStarts
                      show c8.loopStarts.dropLast = c1.loopStarts
                      rw [hls8]
                      show c6.loopStarts.dropLast = c1.loopStarts
                      rw [hlsc6, hlsc5]
                      simp
                    · show c1.bytecode.code.length ≤ (emitOps c9 [.pop 1]).bytecode.code.length
                      have e9 : (emitOps c9 [.pop 1]).bytecode.code.length =
                          c9.bytecode.code.length + 1 := by simp [emitOps]
                      rw [e9, hlen9]
                      show c1.bytecode.code.length ≤ c8.bytecode.code.length + 1
                      rw [hlen8]
                      have e7 : (emitOps { c6 with loopDepths := c6.loopDepths.dropLast } [.jmp lc]).bytecode.code.length =
                          c6.bytecode.code.length + 1 := by simp [emitOps]
                      rw [e7]
                      omega
                    · have S1 := Seg_of_Ext hExtC1 c.bytecode.code.length
                      have S2 := Seg_of_Ext H2.2 c.bytecode.code.length
                      have S3 : Seg c.bytecode.code.length c2.bytecode.code
                          (emitOps c2 [.jz PLACEHOLDER]).bytecode.code := Seg_single_append _ hwjz
                      have S4 : Seg c.bytecode.code.length (emitOps c2 [.jz PLACEHOLDER]).bytecode.code
                          (emitOps (emitOps c2 [.jz PLACEHOLDER]) [.jmp PLACEHOLDER]).bytecode.code := Seg_single_append _ hwjmp
                      have S5 := Seg_of_Ext H3.2 c.bytecode.code.length
                      have S6 : Seg c.bytecode.code.length c3.bytecode.code
                          (emitOps c3 [.jmp ls]).bytecode.code :=
                        Seg_single_append _ hwjl
                      have S7 := hseg5 c.bytecode.code.length (by
                        show c.bytecode.code.length ≤ (emitOps c2 [.jz PLACEHOLDER]).bytecode.code.length
                        have : (emitOps c2 [.jz PLACEHOLDER]).bytecode.code.length = c2.bytecode.code.length + 1 := by
                          simp [emitOps]
                        omega)
                      have S8 := Seg_of_Ext H6.2 c.bytecode.code.length
                      have S9 : Seg c.bytecode.code.length c6.bytecode.code
                          (emitOps { c6 with loopDepths := c6.loopDepths.dropLast } [.jmp lc]).bytecode.code :=
                        Seg_single_append _ hwjlc
                      have S10 : Seg c.bytecode.code.length
                          (emitOps { c6 with loopDepths := c6.loopDepths.dropLast } [.jmp lc]).bytecode.code
                          c8.bytecode.code := by
                        refine hSeg8 c.bytecode.code.length ?_
                        intro q hq
                        have e1 : (emitOps { c6 with loopDepths := c6.loopDepths.dropLast } [.jmp lc]).breaks = c6.breaks := rfl
                        rw [e1] at hq
                        have e2 : c6.breaks.length - (c6.breaks.length - c1.breaks.length) =
                            c1.breaks.length := by omega
                        rw [e2] at hq
                        exact hsuffix q hq
                      have S11 := hseg9 c.bytecode.code.length (by omega)
                      have S12 : Seg c.bytecode.code.length c9.bytecode.code
                          (emitOps c9 [.pop 1]).bytecode.code := by
                        refine Seg_single_append _ (Wf_of_all_simple _ ?_)
                        intro o ho
                        rw [List.mem_singleton] at ho
                        rw [ho]; rfl
                      exact Relation.ReflTransGen.trans (Relation.ReflTransGen.trans
                        (Relation.ReflTransGen.trans (Relation.ReflTransGen.trans
                        (Relation.ReflTransGen.trans (Relation.ReflTransGen.trans
                        (Relation.ReflTransGen.trans (Relation.ReflTransGen.trans
                        (Relation.ReflTransGen.trans (Relation.ReflTransGen.trans
                        (Relation.ReflTransGen.trans S1 S2) S3) S4) S5) S6) S7) S8) S9) S10) S11) S12
                | lit l => simp only [compileStmt] at h; cases h; exact Concl_refl hinv
                | binary k l r => simp only [compileStmt] at h; cases h; exact Concl_refl hinv
                | call a b => simp only [compileStmt] at h; cases h; exact Concl_refl hinv
                | assign a b o => simp only [compileStmt] at h; cases h; exact Concl_refl hinv
                | logical a b o => simp only [compileStmt] at h; cases h; exact Concl_refl hinv
                | unary a o => simp only [compileStmt] at h; cases h; exact Concl_refl hinv
                | get a b o => simp only [compileStmt] at h; cases h; exact Concl_refl hinv
                | structE n i => simp only [compileStmt] at h; cases h; exact Concl_refl hinv
                | structInit m v => simp only [compileStmt] at h; cases h; exact Concl_refl hinv
                | vecE el => simp only [compileStmt] at h; cases h; exact Concl_refl hinv
                | sub a b => simp only [compileStmt] at h; cases h; exact Concl_refl hinv
            | lit l => simp only [compileStmt] at h; cases h; exact Concl_refl hinv
            | var v => simp only [compileStmt] at h; cases h; exact Concl_refl hinv
            | binary k l r => simp only [compileStmt] at h; cases h; exact Concl_refl hinv
            | call a b => simp only [compileStmt] at h; cases h; exact Concl_refl hinv
            | logical a b o => simp only [compileStmt] at h; cases h; exact Concl_refl hinv
            | unary a o => simp only [compileStmt] at h; cases h; exact Concl_refl hinv
            | get a b o => simp only [compileStmt] at h; cases h; exact Concl_refl hinv
            | structE n i => simp only [compileStmt] at h; cases h; exact Concl_refl hinv
            | structInit m v => simp only [compileStmt] at h; cases h; exact Concl_refl hinv
            | vecE el => simp only [compileStmt] at h; cases h; exact Concl_refl hinv
            | sub a b => simp only [compileStmt] at h; cases h; exact Concl_refl hinv
        | breakS =>
            simp only [compileStmt, emitOp, bind_ok] at h
            split at h
            · cases h
            · rename_i hguard
              rw [bind_ok] at h
              obtain ⟨c1, h1, h⟩ := h
              cases h
              have hse := emitLoopCleanup_spec h1
              have H1 : Concl c c1 pend := Concl_of_SimpleExt hinv hse
              have hI2 := INV_emit_break H1.1
              obtain ⟨⟨ext1, hcode1, hext1⟩, hfn1, hbr1, hls1, hst1⟩ := hse
              refine ⟨INV_congr rfl rfl rfl rfl rfl hI2,
                ⟨ext1 ++ [.jmp PLACEHOLDER], ?_, ?_⟩, ?_, ?_, ?_, ?_⟩
              · show (emitOps c1 [.jmp PLACEHOLDER]).bytecode.code = _
                simp only [emitOps, hcode1, List.append_assoc]
              · exact Wf_append
                  (Wf_of_all_simple ext1 (fun op hop => (hext1 op hop).1))
                  hwjmp
              · show (emitOps c1 [.jmp PLACEHOLDER]).loopStarts = _
                exact hls1
              · show c.breaks <+: c1.breaks ++ [c1.bytecode.code.length]
                rw [hbr1]
                exact List.prefix_append _ _
              · intro p hp
                have hp2 : p ∈ (c1.breaks ++
                    [c1.bytecode.code.length]).drop c.breaks.length := hp
                rw [hbr1, List.drop_left] at hp2
                rw [List.mem_singleton] at hp2
                subst hp2
                rw [hcode1]
                simp
              · intro hz
                rw [List.isEmpty_iff] at hguard
                exact absurd hz hguard
        | continueS =>
            simp only [compileStmt, bind_ok] at h
            split at h
            · cases h
            · split at h
              · cases h
              · rename_i ls hgl
                rw [bind_ok] at h
                obtain ⟨c1, h1, h⟩ := h
                cases h
                have hse := emitLoopCleanup_spec h1
                have H1 : Concl c c1 pend := Concl_of_SimpleExt hinv hse
                have hmem : ls ∈ c.loopStarts := by
                  have hne : c.loopStarts ≠ [] := by
                    intro he
                    rw [he] at hgl
                    cases hgl
                  have := List.getLast?_eq_getLast c.loopStarts hne
                  rw [this] at hgl
                  cases hgl
                  exact List.getLast_mem hne
                have hbnd : Boundary c.bytecode.code (ls + 1) :=
                  hinv.2.2.2.2.1 ls hmem
                obtain ⟨⟨ext1, hcode1, hext1⟩, _⟩ := hse
                have hbnd1 : Boundary c1.bytecode.code (ls + 1) := by
                  rw [hcode1]
                  exact Boundary_append _ hbnd
                    (Wf_of_all_simple ext1 (fun op hop => (hext1 op hop).1))
                exact Concl_trans H1 (Concl_emit_jmp H1.1 hbnd1)
        | structS name members =>
            simp only [compileStmt] at h
            cases h
            have hmlen : members.length < 2 ^ 32 := by
              simp only [stmtSizesOk] at hsz
              exact of_decide_eq_true hsz
            have hI0 : INV { c with structs := alInsert c.structs name { members := members, name := name, methods := [] } } pend :=
              INV_structs_insert hinv rfl
            have H0 : Concl c { c with structs := alInsert c.structs name { members := members, name := name, methods := [] } } pend := by
              refine ⟨hI0, ⟨[], by simp, Wf.nil⟩, rfl, List.prefix_refl _, ?_, fun _ => rfl⟩
              intro p hp
              rw [List.drop_length] at hp
              cases hp
            obtain ⟨idxs, hidlen, hcodeI, hfnI, hbrI, hlsI, hstI⟩ :=
              emitMemberIdxs_spec members (emitU32 (emitU32 (addString (emitOps { c with structs := alInsert c.structs name { members := members, name := name, methods := [] } } [.structBlueprint]) name).1 (addString (emitOps { c with structs := alInsert c.structs name { members := members, name := name, methods := [] } } [.structBlueprint]) name).2) members.length)
            refine Concl_trans H0 (Concl_of_chunk hI0
              (Opcode.structBlueprint :: (u32e (addString (emitOps { c with structs := alInsert c.structs name { members := members, name := name, methods := [] } } [.structBlueprint]) name).2 ++ (u32e idxs.length ++ (idxs.flatMap u32e ++ [])))) ?_ ?_ ?_ ?_ ?_ ?_ ?_)
            · rw [hcodeI, hidlen]
              simp [emitU32, emitOps, addString_code, List.append_assoc]
            · exact Wf.sb _ idxs (by rw [hidlen]; exact hmlen) [] Wf.nil
            · intro op hop v
              rcases List.mem_cons.mp hop with rfl | hop2
              · exact ⟨fun hc => (nomatch hc), fun hc => (nomatch hc)⟩
              · have hraw : ∃ b, op = Opcode.raw b := by
                  rw [List.mem_append] at hop2
                  rcases hop2 with hx | hx
                  · exact u32e_raw _ op hx
                  · rw [List.mem_append] at hx
                    rcases hx with hx | hx
                    · exact u32e_raw _ op hx
                    · rw [List.mem_append] at hx
                      rcases hx with hx | hx
                      · exact flatMap_u32e_raw idxs op hx
                      · cases hx
                obtain ⟨b, rfl⟩ := hraw
                exact ⟨fun hc => (nomatch hc), fun hc => (nomatch hc)⟩
            · rw [hfnI]
              simp [emitU32, emitOps, addString_functions]
            · rw [hbrI]
              simp [emitU32, emitOps, addString_breaks]
            · rw [hlsI]
              simp [emitU32, emitOps, addString_loopStarts]
            · rw [hstI]
              simp [emitU32, emitOps, addString_structs]
        | implS name methods =>
            simp only [compileStmt] at h
            split at h
            · cases h
            · rename_i bp hget
              rw [bind_ok] at h
              obtain ⟨r, hr, h⟩ := h
              cases h
              have hszl : methods.length < 2 ^ 32 ∧
                  stmtListSizesOk methods = true := by
                simp only [stmtSizesOk, Bool.and_eq_true] at hsz
                exact ⟨of_decide_eq_true hsz.1, hsz.2⟩
              have HM := ihM methods bp c r pend hszl.2 hinv hr
              obtain ⟨p, hpmem, hp2⟩ := alGet_mem hget
              have hbpm : bp.methods = [] := by
                rw [← hp2]
                exact hinv.2.2.2.2.2 p hpmem
              have hmb : r.1.methods.length < 2 ^ 32 := by
                have hb2 := HM.2
                rw [hbpm] at hb2
                simp only [List.length_nil, Nat.zero_add] at hb2
                omega
              obtain ⟨ms, hmslen, hcodeM, hfnM, hbrM, hlsM, hstM⟩ :=
                emitMethodRecords_spec r.1.methods (emitU32 (emitU32 (emitOps (addString r.2 r.1.name).1 [.impl]) (addString r.2 r.1.name).2) r.1.methods.length)
              refine Concl_trans HM.1 (Concl_of_chunk HM.1.1
                (Opcode.impl :: (u32e (addString r.2 r.1.name).2 ++ (u32e ms.length ++ (ms.flatMap (fun m => u32e m.1 ++ (u32e m.2.1 ++ u32e m.2.2)) ++ [])))) ?_ ?_ ?_ ?_ ?_ ?_ ?_)
              · rw [hcodeM, hmslen]
                simp [emitU32, emitOps, addString_code, List.append_assoc]
              · exact Wf.impl _ ms (by rw [hmslen]; exact hmb) [] Wf.nil
              · intro op hop v
                rcases List.mem_cons.mp hop with rfl | hop2
                · exact ⟨fun hc => (nomatch hc), fun hc => (nomatch hc)⟩
                · have hraw : ∃ b, op = Opcode.raw b := by
                    rw [List.mem_append] at hop2
                    rcases hop2 with hx | hx
                    · exact u32e_raw _ op hx
                    · rw [List.mem_append] at hx
                      rcases hx with hx | hx
                      · exact u32e_raw _ op hx
                      · rw [List.mem_append] at hx
                        rcases hx with hx | hx
                        · rw [List.mem_flatMap] at hx
                          obtain ⟨m, _, hm⟩ := hx
                          rw [List.mem_append] at hm
                          rcases hm with hm | hm
                          · exact u32e_raw _ op hm
                          · rw [List.mem_append] at hm
                            rcases hm with hm | hm
                            · exact u32e_raw _ op hm
                            · exact u32e_raw _ op hm
                        · cases hx
                  obtain ⟨b, rfl⟩ := hraw
                  exact ⟨fun hc => (nomatch hc), fun hc => (nomatch hc)⟩
              · rw [hfnM]
                simp [emitU32, emitOps, addString_functions]
              · rw [hbrM]
                simp [emitU32, emitOps, addString_breaks]
              · rw [hlsM]
                simp [emitU32, emitOps, addString_loopStarts]
              · rw [hstM]
                simp [emitU32, emitOps, addString_structs]
        | exprS e =>
            cases e with
            | call callee cargs =>
                simp only [compileStmt, bind_ok] at h
                obtain ⟨c1, h1, h⟩ := h
                cases h
                have H1 := ihE (.call callee cargs) c c1 pend hinv h1
                exact Concl_trans H1 (Concl_emitP H1.1 _ rfl)
            | assign lhs rhs op =>
                simp only [compileStmt] at h
                exact ihE (.assign lhs rhs op) c c' pend hinv h
            | lit l => simp only [compileStmt] at h; cases h
            | var v => simp only [compileStmt] at h; cases h
            | binary k l r => simp only [compileStmt] at h; cases h
            | logical a b o => simp only [compileStmt] at h; cases h
            | unary a o => simp only [compileStmt] at h; cases h
            | get a b o => simp only [compileStmt] at h; cases h
            | structE n i => simp only [compileStmt] at h; cases h
            | structInit m v => simp only [compileStmt] at h; cases h
            | vecE el => simp only [compileStmt] at h; cases h
            | sub a b => simp only [compileStmt] at h; cases h
        | block body =>
            simp only [compileStmt, bind_ok] at h
            obtain ⟨c1, h1, h⟩ := h
            split at h
            · cases h
            · rename_i k hk
              rw [bind_ok] at h
              obtain ⟨c2, h2, h⟩ := h
              cases h
              have hIB : INV { c with depth := c.depth + 1, pops := c.pops ++ [0] } pend :=
                INV_congr rfl rfl rfl rfl rfl hinv
              have HB : Concl c { c with depth := c.depth + 1, pops := c.pops ++ [0] } pend :=
                Concl_fields hinv rfl rfl rfl rfl rfl
              have H1 := ihSL body _ c1 pend hsz hIB h1
              have HC := Concl_trans HB H1
              have HC2 : Concl c { c1 with locals := dropLastN c1.locals k } pend :=
                Concl_misc HC rfl rfl rfl rfl rfl
              have HC3 := Concl_trans HC2
                (Concl_of_SimpleExt HC2.1 (emitStackCleanup_spec h2))
              exact Concl_misc HC3 rfl rfl rfl rfl rfl
        | dummy =>
            simp only [compileStmt] at h
            cases h
            exact Concl_refl hinv
      exact ⟨hStmt, hFn, hImpl, hStmtList, hExpr, hExprList⟩

theorem INV_init : INV initCompiler [] := by
  refine ⟨Wf.nil, ?_, ?_, ?_, ?_, ?_⟩
  · intro i a ht
    simp [initCompiler, jmpTarget] at ht
  · intro i hi
    simp [initCompiler] at hi
  · intro p hp
    simp [initCompiler] at hp
  · intro l hl
    simp [initCompiler] at hl
  · intro p hp
    simp [initCompiler] at hp

/-- C2 (counterexample): the claim as stated is false.  In the program
`prog2` — `main` calls a method `y.m()` and then runs a `while` loop —
the loop's `Jz` placeholder is patched to address 10, which is the third
`Raw` immediate byte of the preceding `CallMethod` instruction, not a
valid start-of-opcode offset.  (The VM survives because its dispatch
loop increments `ip` after the jump, resuming at offset 11.) -/
theorem c2_jump_target_counterexample :
    ∃ bc : Bytecode, compile 100 prog2 = .ok bc ∧
      jmpTarget bc.code 14 = some 10 ∧ ¬ IsStart bc.code 10 := by
  refine ⟨_, rfl, rfl, ?_⟩
  exact not_isStart_of_raw (b := 0) rfl

/-- C2 (amended): in every bytecode program the compiler produces from a
well-formed, size-bounded AST, every address `a` stored in a `Jmp` or
`Jz` operand (patched placeholders and function-entry jumps included)
satisfies: `a + 1` is a valid start-of-opcode offset of the code buffer.
The dispatch loop increments `ip` after executing a jump, so stored
targets point one element *before* the instruction at which execution
resumes; it is that resumption offset, not the stored address itself,
that always falls on an instruction boundary. -/
theorem c2_jump_targets (fuel : Nat) (prog : List Statement)
    (bc : Bytecode) (hsz : stmtListSizesOk prog = true)
    (hc : compile fuel prog = .ok bc) :
    ∀ i a, jmpTarget bc.code i = some a → IsStart bc.code (a + 1) := by
  simp only [compile, bind_ok] at hc
  obtain ⟨cF, hF, hc⟩ := hc
  have HF := (compileConcl fuel).2.2.2.1 prog initCompiler cF [] hsz INV_init hF
  have hbrF : cF.breaks = [] := HF.2.2.2.2.2 rfl
  obtain ⟨hWfF, hGTF, hPatF, hFunsF, hLoopsF, hStF⟩ := HF.1
  have hGT : ∀ i a, jmpTarget cF.bytecode.code i = some a →
      Boundary cF.bytecode.code (a + 1) := by
    intro i a ht
    rcases hGTF i a ht with hm | hb
    · rw [hbrF] at hm
      simp at hm
    · exact hb
  split at hc
  · rename_i fM hget
    cases hc
    obtain ⟨pM, hpM, hpM2⟩ := alGet_mem hget
    have hMb : Boundary cF.bytecode.code (fM.location + 1) := by
      have hfb := hFunsF pM hpM
      rw [hpM2] at hfb
      exact hfb
    have htrailWf : Wf [Opcode.call 0, Opcode.jmp fM.location,
        Opcode.pop 1, Opcode.halt] := by
      refine Wf_of_all_simple _ ?_
      intro o ho
      rcases List.mem_cons.mp ho with rfl | ho
      · rfl
      rcases List.mem_cons.mp ho with rfl | ho
      · rfl
      rcases List.mem_cons.mp ho with rfl | ho
      · rfl
      rw [List.mem_singleton] at ho
      rw [ho]
      rfl
    intro i a ht
    have hshape : ((emitOps (emitOps (emitOps (emitOps cF [.call 0])
        [.jmp fM.location]) [.pop 1]) [.halt]).bytecode).code =
        cF.bytecode.code ++ [Opcode.call 0, Opcode.jmp fM.location,
          Opcode.pop 1, Opcode.halt] := by
      simp [emitOps]
    rw [hshape] at ht ⊢
    by_cases hi : i < cF.bytecode.code.length
    · rw [jmpTarget_append_left hi] at ht
      have hb := hGT i a ht
      have hle := Boundary_le hb
      refine ⟨Boundary_append _ hb htrailWf, ?_⟩
      simp only [List.length_append, List.length_cons, List.length_nil]
      omega
    · push_neg at hi
      rw [jmpTarget_append_right hi] at ht
      have hres : a = fM.location := by
        rcases hcase : i - cF.bytecode.code.length with _ | _ | _ | _ | n
        · rw [hcase] at ht
          simp [jmpTarget] at ht
        · rw [hcase] at ht
          simp only [jmpTarget, List.get?_cons_succ, List.get?_cons_zero,
            Option.some.injEq] at ht
          exact ht.symm
        · rw [hcase] at ht
          simp [jmpTarget] at ht
        · rw [hcase] at ht
          simp [jmpTarget] at ht
        · rw [hcase] at ht
          simp [jmpTarget] at ht
      subst hres
      have hle := Boundary_le hMb
      refine ⟨Boundary_append _ hMb htrailWf, ?_⟩
      simp only [List.length_append, List.length_cons, List.length_nil]
      omega
  · cases hc

/-- Witness for the amended C2 theorem at the concrete program `prog2`
(whose size bound holds by computation and whose compilation
succeeds). -/
theorem c2_jump_targets_witness :
    stmtListSizesOk prog2 = true ∧
    ∃ bc, compile 100 prog2 = .ok bc ∧
      (∀ i a, jmpTarget bc.code i = some a → IsStart bc.code (a + 1)) :=
  ⟨rfl, _, rfl, c2_jump_targets 100 prog2 _ rfl rfl⟩

end Synapse
